import Mathlib

/-!
# Group-membership reconciliation and the retry engine

A shallow embedding of `internal/provider/utils.go` (`retry`, `retryNotFound`,
`retryTime`) and of `internal/provider/resource_group_members.go`
(`reconcileMembers`, `upsertMember`, `createGroupMember`, `deleteMember`) of the
Google Workspace Terraform provider, followed by theorems about them.

Modelling conventions

* Go strings are Lean strings. `strings.ToLower` / `strings.ToUpper` belong to the Go library;
  they are a parameter (`CaseFold`) of which only idempotence is assumed, so every general
  theorem holds for the Unicode mappings of Go. Concrete runs are evaluated with the mappings
  of ASCII letters, on ASCII strings.
* Go `int` and `time.Duration` are 64-bit two's-complement integers: every
  arithmetic result is wrapped with `wrapInt64`.
* An `error` value is a `GoError`: either a `*googleapi.Error` (status code, the
  `Reason` of each entry of `Errors`, and the text of `Error()`), or any other
  error, of which only the text of `Error()` is observable.
* The directory service, the pseudo-random source, the clock and the loop of
  `resource.RetryContext` (a function of the SDK) are outside the program. They are
  an `Env`: a deterministic transition system answering every API call, giving the
  random draw of every backoff and telling how many attempts `resource.RetryContext`
  starts before its timeout passes or its context ends.
* A `context.Context` is a `Context`; the program hands it on unchanged and only
  `resource.RetryContext` reads it.
* Every remote call, every sleep and every start of a retry loop is appended to
  the trace of the `World`.
* A Go `map` is an association list with distinct keys; the order in which
  `range` visits it is unspecified, so it is a parameter (`MapOrder`).
* A run-time panic (indexing an empty `Errors` slice) is the outcome `crash`.
-/

namespace Googleworkspace

set_option autoImplicit false

/-! ## Strings -/

/-- The case mappings `strings.ToLower` and `strings.ToUpper` of the Go library, which are not
part of the repository: each maps every letter of its argument to its lower or upper case, by
the tables of Unicode. All that is assumed of them is that mapping twice is mapping once. -/
class CaseFold where
  /-- The function `strings.ToLower`. -/
  toLower : String → String
  /-- The function `strings.ToUpper`. -/
  toUpper : String → String
  /-- Lower-casing twice is lower-casing once. -/
  lower_idem : ∀ s, toLower (toLower s) = toLower s
  /-- Upper-casing twice is upper-casing once. -/
  upper_idem : ∀ s, toUpper (toUpper s) = toUpper s

export CaseFold (toLower toUpper)

/-- The function `strings.ToLower` on a string of ASCII characters. -/
def asciiToLower (s : String) : String := String.mk (s.data.map Char.toLower)

/-- The function `strings.ToUpper` on a string of ASCII characters. -/
def asciiToUpper (s : String) : String := String.mk (s.data.map Char.toUpper)

/-- The case mappings with which the concrete runs of this file are evaluated; all their
strings are ASCII, on which these are the mappings of the Go library. -/
instance asciiFold : CaseFold where
  toLower := asciiToLower
  toUpper := asciiToUpper
  lower_idem := by
    intro s
    have hsmall : ∀ n : Nat, n < 55296 → (Char.ofNat n).toNat = n := by
      intro n h
      have hv : n.isValidChar := Or.inl h
      simp only [Char.ofNat, hv, dif_pos]
      simp [Char.ofNatAux, Char.toNat, UInt32.toNat]
    have hchar : ∀ c : Char, (c.toLower).toLower = c.toLower := by
      intro c
      by_cases h : c.toNat ≥ 65 ∧ c.toNat ≤ 90
      · have h1 : c.toLower = Char.ofNat (c.toNat + 32) := by
          simp only [Char.toLower]; rw [if_pos h]
        have h2 : (Char.ofNat (c.toNat + 32)).toNat = c.toNat + 32 := hsmall _ (by omega)
        have h3 : ¬ ((Char.ofNat (c.toNat + 32)).toNat ≥ 65 ∧
            (Char.ofNat (c.toNat + 32)).toNat ≤ 90) := by
          rw [h2]; omega
        rw [h1]
        simp only [Char.toLower]; rw [if_neg h3]
      · have h1 : c.toLower = c := by
          simp only [Char.toLower]; rw [if_neg h]
        rw [h1, h1]
    have h : Char.toLower ∘ Char.toLower = Char.toLower := funext hchar
    simp [asciiToLower, h]
  upper_idem := by
    intro s
    have hsmall : ∀ n : Nat, n < 55296 → (Char.ofNat n).toNat = n := by
      intro n h
      have hv : n.isValidChar := Or.inl h
      simp only [Char.ofNat, hv, dif_pos]
      simp [Char.ofNatAux, Char.toNat, UInt32.toNat]
    have hchar : ∀ c : Char, (c.toUpper).toUpper = c.toUpper := by
      intro c
      by_cases h : c.toNat ≥ 97 ∧ c.toNat ≤ 122
      · have h1 : c.toUpper = Char.ofNat (c.toNat - 32) := by
          simp only [Char.toUpper]; rw [if_pos h]
        have h2 : (Char.ofNat (c.toNat - 32)).toNat = c.toNat - 32 := hsmall _ (by omega)
        have h3 : ¬ ((Char.ofNat (c.toNat - 32)).toNat ≥ 97 ∧
            (Char.ofNat (c.toNat - 32)).toNat ≤ 122) := by
          rw [h2]; omega
        rw [h1]
        simp only [Char.toUpper]; rw [if_neg h3]
      · have h1 : c.toUpper = c := by
          simp only [Char.toUpper]; rw [if_neg h]
        rw [h1, h1]
    have h : Char.toUpper ∘ Char.toUpper = Char.toUpper := funext hchar
    simp [asciiToUpper, h]

/-- Whether `sub` occurs in `s` as a contiguous block, on character lists. -/
def containsChars : List Char → List Char → Bool
  | [], sub => sub.isEmpty
  | c :: t, sub => sub.isPrefixOf (c :: t) || containsChars t sub

/-- The function `strings.Contains`. -/
def strContains (s sub : String) : Bool := containsChars s.data sub.data

/-! ## Errors and the retry classifier (`utils.go`) -/

/-- A Go `error` value returned by a remote call. -/
inductive GoError where
  /-- A `*googleapi.Error`: `Code`, the `Reason` of each item of `Errors`, and the text of
  `Error()`. -/
  | api (code : Int) (reasons : List String) (text : String)
  /-- Any other error value; `text` is what `Error()` returns. -/
  | other (text : String)
  deriving DecidableEq, Repr

/-- The text of `err.Error()`, which is what `fmt.Sprintf("%s", err)` prints. -/
def GoError.text : GoError → String
  | .api _ _ t => t
  | .other t => t

/-- The test `gerr, ok := err.(*googleapi.Error); ok && gerr.Code == c`. -/
def GoError.hasCode : GoError → Int → Bool
  | .api code _ _, c => code == c
  | .other _, _ => false

/-- The test `ok && len(gerr.Errors) > 0` of `retryTime` (`hasErrors`). -/
def GoError.hasErrors : GoError → Bool
  | .api _ (_ :: _) _ => true
  | _ => false

/-- The test `hasErrors && gerr.Errors[0].Reason == r`. -/
def GoError.firstReasonIs : GoError → String → Bool
  | .api _ (r0 :: _) _, r => r0 == r
  | _, _ => false

/-- The three positional booleans of `retryTime`. -/
structure RetryFlags where
  retryNotFound : Bool
  retryPassDuplicate : Bool
  retryInvalid : Bool
  deriving DecidableEq, Repr

/-- The flags with which `retry` calls `retryTime`. -/
def RetryFlags.plain : RetryFlags := ⟨false, false, false⟩

/-- The flags with which `retryNotFound` calls `retryTime`. -/
def RetryFlags.notFound : RetryFlags := ⟨true, false, false⟩

/-- Wrap-around of a 64-bit signed integer (Go `int` on 64-bit targets, `int64`, `time.Duration`).
-/
def wrapInt64 (x : Int) : Int := (x + 2 ^ 63) % 2 ^ 64 - 2 ^ 63

/-- The largest `time.Duration`, in nanoseconds. -/
def maxDuration : Int := 2 ^ 63 - 1

/-- The value `time.Duration(wait) * time.Second`, in nanoseconds. -/
def secondsDuration (wait : Int) : Int := wrapInt64 (wait * 1000000000)

/-- The value `time.Duration(ms) * time.Millisecond`, in nanoseconds. -/
def millisDuration (ms : Int) : Int := wrapInt64 (ms * 1000000)

/-- The function `rand.Intn(n)` on the raw output `draw` of the random source: a value of `[0, n)`.
-/
def randIntn (n : Nat) (draw : Nat) : Nat := draw % n

/-- The argument of one `time.Sleep` of `retryTime`, split in its two summands. -/
structure Sleep where
  /-- The summand `time.Duration(wait)*time.Second`. -/
  base : Int
  /-- The summand `time.Duration(randomNumberMiliseconds)*time.Millisecond`. -/
  jitter : Int
  deriving DecidableEq, Repr

/-- The duration handed to `time.Sleep`, in nanoseconds. -/
def Sleep.total (s : Sleep) : Int := wrapInt64 (s.base + s.jitter)

/-- The time `time.Sleep` really pauses: it returns at once for a duration that is not positive. -/
def Sleep.paused (s : Sleep) : Int := max 0 s.total

/-- What the closure handed to `resource.RetryContext` returns for an error. -/
inductive RetryError where
  /-- The value `resource.RetryableError(err)`. -/
  | retryable (err : GoError)
  /-- The value `resource.NonRetryableError(err)`. -/
  | nonRetryable (err : GoError)
  deriving DecidableEq, Repr

/-- The effect of one execution of the closure of `retryTime` on an error. -/
structure CallbackResult where
  /-- The returned `*resource.RetryError`. -/
  result : RetryError
  /-- The sleep made before returning, if any. -/
  slept : Option Sleep
  /-- The captured variable `wait` afterwards. -/
  wait : Int
  deriving DecidableEq, Repr

/-- The three statements of every retrying branch of `retryTime`:
`time.Sleep(...)`, `wait = wait * 2`, `return resource.RetryableError(err)`. -/
def backoff (wait : Int) (randomNumberMiliseconds : Nat) (err : GoError) : CallbackResult :=
  { result := .retryable err
    slept := some ⟨secondsDuration wait, millisDuration randomNumberMiliseconds⟩
    wait := wrapInt64 (wait * 2) }

/-- The closure of `retryTime` after `retryFunc` returned the non-nil error `err`, with
`wait` the captured variable and `draw` the output of the random source. -/
def retryTimeCallback (flags : RetryFlags) (err : GoError) (draw : Nat) (wait : Int) :
    CallbackResult :=
  let randomNumberMiliseconds := randIntn 1001 draw
  if err.hasCode 500 || err.hasCode 502 || err.hasCode 503 then
    backoff wait randomNumberMiliseconds err
  else if err.hasErrors && err.firstReasonIs "quotaExceeded" then
    backoff wait randomNumberMiliseconds err
  else if flags.retryPassDuplicate && (err.hasCode 401 || err.hasCode 429) then
    backoff wait randomNumberMiliseconds err
  else if !flags.retryPassDuplicate &&
      (err.hasCode 401 || err.hasCode 409 || err.hasCode 429) then
    backoff wait randomNumberMiliseconds err
  else if flags.retryNotFound && err.hasCode 404 then
    backoff wait randomNumberMiliseconds err
  else if flags.retryInvalid && err.hasCode 400 then
    backoff wait randomNumberMiliseconds err
  else if flags.retryInvalid && (err.hasErrors && err.firstReasonIs "invalid") then
    backoff wait randomNumberMiliseconds err
  else if strContains err.text "Invalid Input: Bad request for \"" &&
      strContains err.text "\"code\":400" then
    backoff wait randomNumberMiliseconds err
  else if strContains err.text "Service unavailable. Please try again" then
    backoff wait randomNumberMiliseconds err
  else if strContains err.text "Eventual consistency. Please try again" then
    backoff wait randomNumberMiliseconds err
  else
    { result := .nonRetryable err, slept := none, wait := wait }

/-- The sleeps of successive executions of the closure of `retryTime` on a list of failures
(each with the draw of the random source at that moment), `wait` being the captured variable:
the closure runs again after a retryable error and no more after a non-retryable one. -/
def retryTimeSleeps (flags : RetryFlags) : Int → List (GoError × Nat) → List Sleep
  | _, [] => []
  | wait, (err, draw) :: rest =>
    match retryTimeCallback flags err draw wait with
    | ⟨.retryable _, some s, wait1⟩ => s :: retryTimeSleeps flags wait1 rest
    | ⟨.retryable _, none, wait1⟩ => retryTimeSleeps flags wait1 rest
    | ⟨.nonRetryable _, _, _⟩ => []

/-- The time paused, in nanoseconds, by a list of sleeps. -/
def timePaused (sleeps : List Sleep) : Int := (sleeps.map Sleep.paused).sum

/-- Rule (6) of the specification: the text holds both `Invalid Input: Bad request for "` and
`"code":400`, or `Service unavailable. Please try again`, or
`Eventual consistency. Please try again`. -/
def transientText (text : String) : Bool :=
  (strContains text "Invalid Input: Bad request for \"" && strContains text "\"code\":400")
    || strContains text "Service unavailable. Please try again"
    || strContains text "Eventual consistency. Please try again"

/-- The captured variable `wait` of `retryTime` after `n` retryable failures: it starts at 1
and every retrying branch doubles it. -/
def waitAfter : Nat → Int
  | 0 => 1
  | n + 1 => wrapInt64 (waitAfter n * 2)

/-- The classifier of the specification, rule by rule:
(1) status 500, 502 or 503; (2) reason "quotaExceeded"; (3) status 401 or 429, or status 409
unless duplicates pass; (4) not-found tolerance and status 404; (5) invalid tolerance and
(status 400 or reason "invalid"); (6) one of the known transient texts. -/
def specRetryable (flags : RetryFlags) (err : GoError) : Bool :=
  (err.hasCode 500 || err.hasCode 502 || err.hasCode 503)
  || err.firstReasonIs "quotaExceeded"
  || (err.hasCode 401 || err.hasCode 429 || (err.hasCode 409 && !flags.retryPassDuplicate))
  || (flags.retryNotFound && err.hasCode 404)
  || (flags.retryInvalid && (err.hasCode 400 || err.firstReasonIs "invalid"))
  || transientText err.text

/-! ## Members, Go maps and the environment -/

/-- A member as `reconcileMembers` reads it: the keys "email" and "role" of the
`map[string]interface{}` of the configuration or of `membersToCfg`; as the payload of a call,
the fields `Email` and `Role` of a `directory.Member`. -/
structure Member where
  email : String
  role : String
  deriving DecidableEq, Repr

/-- A Go `map[string]map[string]interface{}`: an association list with distinct keys. -/
abbrev MemberMap := List (String × Member)

/-- The lookup `v, ok := sm[k]`. -/
def mapGet : MemberMap → String → Option Member
  | [], _ => none
  | (k1, v) :: rest, k => if k1 = k then some v else mapGet rest k

/-- The assignment `sm[k] = v`. -/
def mapSet (k : String) (v : Member) : MemberMap → MemberMap
  | [] => [(k, v)]
  | (k1, v1) :: rest => if k1 = k then (k, v) :: rest else (k1, v1) :: mapSet k v rest

/-- The statement `delete(sm, k)`. -/
def mapDelete (k : String) (sm : MemberMap) : MemberMap :=
  sm.filter (fun e => decide (e.1 ≠ k))

/-- The order in which `range` visits the entries of a map: any arrangement of them. -/
structure MapOrder where
  /-- The entries in the order of the visit. -/
  range : MemberMap → MemberMap
  /-- Every entry is visited once. -/
  perm : ∀ entries, (range entries).Perm entries

/-- The order of the association list itself. -/
def MapOrder.asListed : MapOrder := ⟨fun entries => entries, fun _ => List.Perm.refl _⟩

/-- A call of the Admin SDK members service; `groupKey` comes first, as in the Go client. -/
inductive Call where
  | get (groupKey memberKey : String)
  | hasMember (groupKey memberKey : String)
  | insert (groupKey : String) (member : Member)
  | update (groupKey memberKey : String) (member : Member)
  | patch (groupKey memberKey : String) (member : Member)
  | delete (groupKey memberKey : String)
  deriving DecidableEq, Repr

/-- What `.Do()` returns: the error, and for `HasMember` the field `IsMember` of the body. -/
structure Response where
  err : Option GoError
  isMember : Bool
  deriving DecidableEq, Repr

/-- A `context.Context` as the program uses it. Every function of the repository hands the
context of the operation on unchanged, down to `resource.RetryContext`, which is the only one
to read it: the context ends at its deadline, and a retry loop ends with it. -/
structure Context where
  /-- The deadline of the context on the clock, in nanoseconds, if it has one. -/
  deadline : Option Int
  deriving DecidableEq, Repr

/-- The context `context.Background()`, which has no deadline. -/
def Context.background : Context := ⟨none⟩

/-- A context whose deadline is `seconds` seconds after the start of the clock. -/
def Context.within (seconds : Int) : Context := ⟨some (seconds * 1000000000)⟩

/-- Everything outside the program, with `σ` its state. -/
structure Env (σ : Type) where
  /-- The directory service answers a call and moves to its next state. -/
  respond : σ → Call → Response × σ
  /-- The output of the random source (seeded from the clock) at this moment. -/
  draw : σ → Nat
  /-- How many executions of the closure a call of `resource.RetryContext` with this context
  and this timeout starts, from this moment, before the timeout passes or the context ends. -/
  attempts : σ → Context → Int → Nat
  /-- The error of `resource.RetryContext` with this context and this timeout when it ends
  before any execution of the closure returned: the `TimeoutError` of the SDK or the error of
  the context. -/
  timedOut : Context → Int → GoError

/-- An observable step of a run. -/
inductive Event where
  /-- A call sent to the directory service. -/
  | api (c : Call)
  /-- A `time.Sleep` of `retryTime`. -/
  | sleep (s : Sleep)
  /-- A call of `resource.RetryContext` with this context and this timeout. -/
  | retry (ctx : Context) (timeout : Int) (flags : RetryFlags)
  deriving DecidableEq, Repr

/-- State of a run: the state of the environment and what happened so far. -/
structure World (σ : Type) where
  remote : σ
  trace : List Event

/-- Append an event to the trace. -/
def World.log {σ : Type} (w : World σ) (e : Event) : World σ :=
  { w with trace := w.trace ++ [e] }

/-- Send a call to the directory service. -/
def World.call {σ : Type} (env : Env σ) (c : Call) (w : World σ) : Response × World σ :=
  ((env.respond w.remote c).1,
    { remote := (env.respond w.remote c).2, trace := w.trace ++ [.api c] })

/-- How a function ends: normally without error, with an error, or in a run-time panic. -/
inductive Outcome (ε : Type) where
  | ok
  | fail (e : ε)
  | crash
  deriving DecidableEq, Repr

/-- The `error` returned by `.Do()` as an outcome. -/
def Outcome.ofErr : Option GoError → Outcome GoError
  | none => .ok
  | some e => .fail e

/-! ## The retry engine (`utils.go`) -/

/-- The loop of `resource.RetryContext` around the closure of `retryTime`. `f` is `retryFunc`
acting on the variables `ρ` it captures and on the world; the first argument counts the
attempts left before the timeout passes or the context ends, `wait` is the captured variable
of `retryTime`, `last` the last error seen, which is returned at that end. -/
def retryTime.loop {σ ρ : Type} (env : Env σ) (flags : RetryFlags)
    (f : ρ → World σ → Outcome GoError × ρ × World σ) :
    Nat → Int → GoError → ρ → World σ → Outcome GoError × ρ × World σ
  | 0, _, last, r, w => (.fail last, r, w)
  | n + 1, wait, _, r, w =>
    match f r w with
    | (.ok, r1, w1) => (.ok, r1, w1)
    | (.crash, r1, w1) => (.crash, r1, w1)
    | (.fail err, r1, w1) =>
      match retryTimeCallback flags err (env.draw w1.remote) wait with
      | ⟨.retryable e, some s, wait1⟩ => retryTime.loop env flags f n wait1 e r1 (w1.log (.sleep s))
      | ⟨.retryable e, none, wait1⟩ => retryTime.loop env flags f n wait1 e r1 w1
      | ⟨.nonRetryable e, some s, _⟩ => (.fail e, r1, w1.log (.sleep s))
      | ⟨.nonRetryable e, none, _⟩ => (.fail e, r1, w1)

/-- The function `retryTime`: `wait := 1`, then `resource.RetryContext` with the context and
the timeout. -/
def retryTime {σ ρ : Type} (env : Env σ) (ctx : Context)
    (f : ρ → World σ → Outcome GoError × ρ × World σ)
    (duration : Int) (flags : RetryFlags) (r : ρ) (w : World σ) :
    Outcome GoError × ρ × World σ :=
  retryTime.loop env flags f (env.attempts w.remote ctx duration) 1 (env.timedOut ctx duration) r
    (w.log (.retry ctx duration flags))

/-- The function `retry`. -/
def retry {σ ρ : Type} (env : Env σ) (ctx : Context)
    (f : ρ → World σ → Outcome GoError × ρ × World σ)
    (duration : Int) (r : ρ) (w : World σ) : Outcome GoError × ρ × World σ :=
  retryTime env ctx f duration ⟨false, false, false⟩ r w

/-- The function `retryNotFound`. -/
def retryNotFound {σ ρ : Type} (env : Env σ) (ctx : Context)
    (f : ρ → World σ → Outcome GoError × ρ × World σ)
    (duration : Int) (r : ρ) (w : World σ) : Outcome GoError × ρ × World σ :=
  retryTime env ctx f duration ⟨true, false, false⟩ r w

/-! ## The mutation executor (`resource_group_members.go`) -/

/-- The closure of `deleteMember`: `membersService.Delete(groupEmail, email).Do()`. -/
def deleteMember.call {σ : Type} (env : Env σ) (email groupEmail : String) (_ : Unit)
    (w : World σ) : Outcome GoError × Unit × World σ :=
  (Outcome.ofErr (w.call env (.delete groupEmail email)).1.err, (),
    (w.call env (.delete groupEmail email)).2)

/-- The function `deleteMember`. -/
def deleteMember {σ : Type} (env : Env σ) (ctx : Context) (timeoutDuration : Int)
    (email groupEmail : String) (w : World σ) : Outcome String × World σ :=
  match retry env ctx (deleteMember.call env email groupEmail) timeoutDuration () w with
  | (.ok, _, w1) => (.ok, w1)
  | (.fail err, _, w1) => (.fail ("[ERROR] Error deleting member: " ++ err.text), w1)
  | (.crash, _, w1) => (.crash, w1)

/-- The closure of `createGroupMember` and of the insert of the group branch:
`membersService.Insert(groupEmail, groupMember).Do()`. -/
def createGroupMember.call {σ : Type} (env : Env σ) (groupMember : Member)
    (groupEmail : String) (_ : Unit) (w : World σ) : Outcome GoError × Unit × World σ :=
  (Outcome.ofErr (w.call env (.insert groupEmail groupMember)).1.err, (),
    (w.call env (.insert groupEmail groupMember)).2)

/-- The function `createGroupMember`. -/
def createGroupMember {σ : Type} (env : Env σ) (ctx : Context) (timeoutDuration : Int)
    (groupMember : Member)
    (groupEmail : String) (w : World σ) : Outcome String × World σ :=
  match retry env ctx (createGroupMember.call env groupMember groupEmail) timeoutDuration () w with
  | (.ok, _, w1) => (.ok, w1)
  | (.fail err, _, w1) =>
    (.fail ("[ERROR] Error creating groupMember: " ++ err.text ++ ", " ++ groupMember.email), w1)
  | (.crash, _, w1) => (.crash, w1)

/-- The closure of both probes of `upsertMember` that use `membersService.Get`: status 404
clears the captured flag (`isGroup`, `isGroupMember`) and counts as success, anything else
is handed back unchanged. -/
def upsertMember.getProbe {σ : Type} (env : Env σ) (email groupEmail : String) (flag : Bool)
    (w : World σ) : Outcome GoError × Bool × World σ :=
  match (w.call env (.get groupEmail email)).1.err with
  | none => (.ok, flag, (w.call env (.get groupEmail email)).2)
  | some err =>
    if err.hasCode 404 then (.ok, false, (w.call env (.get groupEmail email)).2)
    else (.fail err, flag, (w.call env (.get groupEmail email)).2)

/-- The closure of the `HasMember` probe of `upsertMember`; the captured variable is the field
`IsMember` of `hasMemberResponse`. The test `gerr.Errors[0].Reason == "required"` comes first
in the conjunction and indexes `Errors` unguarded. -/
def upsertMember.hasMemberProbe {σ : Type} (env : Env σ) (email groupEmail : String)
    (isMember : Bool) (w : World σ) : Outcome GoError × Bool × World σ :=
  match (w.call env (.hasMember groupEmail email)).1.err with
  | none =>
    (.ok, (w.call env (.hasMember groupEmail email)).1.isMember,
      (w.call env (.hasMember groupEmail email)).2)
  | some (.api _ [] _) => (.crash, isMember, (w.call env (.hasMember groupEmail email)).2)
  | some (.api code (reason :: reasons) text) =>
    if reason = "required" ∧ code = 400 then
      (.fail (.other ("[ERROR] Error adding groupMember " ++ email ++
          ", please make sure the user exists beforehand")), isMember,
        (w.call env (.hasMember groupEmail email)).2)
    else
      (.fail (.api code (reason :: reasons) text), isMember,
        (w.call env (.hasMember groupEmail email)).2)
  | some (.other text) =>
    (.fail (.other text), isMember, (w.call env (.hasMember groupEmail email)).2)

/-- The closure of both updates of `upsertMember`:
`membersService.Update(groupEmail, email, groupMember).Do()`. -/
def upsertMember.updateCall {σ : Type} (env : Env σ) (email groupEmail : String)
    (groupMember : Member) (_ : Unit) (w : World σ) : Outcome GoError × Unit × World σ :=
  (Outcome.ofErr (w.call env (.update groupEmail email groupMember)).1.err, (),
    (w.call env (.update groupEmail email groupMember)).2)

/-- The update of `upsertMember` (the same statements in the group and in the user branch). -/
def upsertMember.update {σ : Type} (env : Env σ) (ctx : Context) (timeoutDuration : Int)
    (email groupEmail : String) (groupMember : Member) (w : World σ) :
    Outcome String × World σ :=
  match retryNotFound env ctx (upsertMember.updateCall env email groupEmail groupMember)
      timeoutDuration () w with
  | (.ok, _, w1) => (.ok, w1)
  | (.fail err, _, w1) =>
    (.fail ("[ERROR] Error updating groupMember: " ++ err.text ++ ", " ++ email), w1)
  | (.crash, _, w1) => (.crash, w1)

/-- The insert of the group branch of `upsertMember` (its message ends in `email`). -/
def upsertMember.groupInsert {σ : Type} (env : Env σ) (ctx : Context) (timeoutDuration : Int)
    (email groupEmail : String) (groupMember : Member) (w : World σ) :
    Outcome String × World σ :=
  match retry env ctx (createGroupMember.call env groupMember groupEmail) timeoutDuration () w with
  | (.ok, _, w1) => (.ok, w1)
  | (.fail err, _, w1) =>
    (.fail ("[ERROR] Error creating groupMember: " ++ err.text ++ ", " ++ email), w1)
  | (.crash, _, w1) => (.crash, w1)

/-- The branch `isGroup == true` of `upsertMember`, entered in world `w`. -/
def upsertMember.groupBranch {σ : Type} (env : Env σ) (ctx : Context) (timeoutDuration : Int)
    (email groupEmail role : String) (groupMember : Member) (w : World σ) :
    Outcome String × World σ :=
  if role ≠ "MEMBER" then
    (.fail ("[ERROR] Error creating groupMember (" ++ email ++
      "): nested groups should be role MEMBER"), w)
  else
    match retry env ctx (upsertMember.getProbe env email groupEmail) timeoutDuration true w with
    | (.crash, _, w1) => (.crash, w1)
    | (_, false, w1) => upsertMember.groupInsert env ctx timeoutDuration email groupEmail
        groupMember w1
    | (_, true, w1) => upsertMember.update env ctx timeoutDuration email groupEmail groupMember w1

/-- The branch `isGroup == false` of `upsertMember`, entered in world `w`. -/
def upsertMember.userBranch {σ : Type} (env : Env σ) (ctx : Context) (timeoutDuration : Int)
    (email groupEmail : String) (groupMember : Member) (w : World σ) :
    Outcome String × World σ :=
  match retry env ctx (upsertMember.hasMemberProbe env email groupEmail) timeoutDuration
      false w with
  | (.crash, _, w1) => (.crash, w1)
  | (.fail _, _, w1) => createGroupMember env ctx timeoutDuration groupMember groupEmail w1
  | (.ok, true, w1) => upsertMember.update env ctx timeoutDuration email groupEmail groupMember w1
  | (.ok, false, w1) => createGroupMember env ctx timeoutDuration groupMember groupEmail w1

/-- The function `upsertMember`. The result of the first `retry` is not read: only the
captured `isGroup` decides the branch. -/
def upsertMember [CaseFold] {σ : Type} (env : Env σ) (ctx : Context) (timeoutDuration : Int)
    (email groupEmail role : String) (w : World σ) : Outcome String × World σ :=
  match retry env ctx (upsertMember.getProbe env email groupEmail) timeoutDuration true w with
  | (.crash, _, w1) => (.crash, w1)
  | (_, true, w1) =>
    upsertMember.groupBranch env ctx timeoutDuration email groupEmail role
      { role := toUpper role, email := toLower email } w1
  | (_, false, w1) =>
    upsertMember.userBranch env ctx timeoutDuration email groupEmail
      { role := toUpper role, email := toLower email } w1

/-! ## The reconciler (`resource_group_members.go`) -/

/-- The helper `m` of `reconcileMembers`: the members keyed by lower-cased e-mail, each with
its "email" lower-cased; a later member replaces an earlier one with the same key. -/
def reconcileMembers.m [CaseFold] (vals : List Member) : MemberMap :=
  vals.foldl
    (fun sm member => mapSet (toLower member.email) { member with email := toLower member.email }
        sm)
    []

/-- The timeouts of the resource that `reconcileMembers` reads through `d.Timeout`. -/
structure Timeouts where
  /-- The value `d.Timeout(schema.TimeoutDelete)`. -/
  delete : Int
  /-- The value `d.Timeout(schema.TimeoutUpdate)`. -/
  update : Int
  deriving DecidableEq, Repr

/-- The closure of the role update of `reconcileMembers`:
`membersService.Patch(strings.ToLower(d.Get("group_id")), strings.ToLower(cfgMember["email"]),
groupMember).Do()` with `groupMember = &directory.Member{Role: cfgRole}`. -/
def reconcileMembers.patchCall [CaseFold] {σ : Type} (env : Env σ) (groupId : String)
    (cfgMember : Member)
    (cfgRole : String) (_ : Unit) (w : World σ) : Outcome GoError × Unit × World σ :=
  (Outcome.ofErr
      (w.call env (.patch (toLower groupId) (toLower cfgMember.email) ⟨"", cfgRole⟩)).1.err, (),
    (w.call env (.patch (toLower groupId) (toLower cfgMember.email) ⟨"", cfgRole⟩)).2)

/-- The body of the first loop of `reconcileMembers` for the entry `(k, apiMember)` of
`apiMap`: a member that `cfgMap` lacks is deleted; a member of both is patched when the
upper-cased roles differ, and its key leaves `cfgMap`. An error ends the function. -/
def reconcileMembers.apiBody [CaseFold] {σ : Type} (env : Env σ) (ctx : Context)
    (timeouts : Timeouts)
    (groupId gid : String) (k : String) (apiMember : Member) (cfgMap : MemberMap)
    (w : World σ) : Outcome String × MemberMap × World σ :=
  match mapGet cfgMap k with
  | none =>
    match deleteMember env ctx timeouts.delete k gid w with
    | (.ok, w1) => (.ok, cfgMap, w1)
    | (.fail msg, w1) => (.fail msg, cfgMap, w1)
    | (.crash, w1) => (.crash, cfgMap, w1)
  | some cfgMember =>
    if toUpper cfgMember.role ≠ toUpper apiMember.role then
      match retryNotFound env ctx
          (reconcileMembers.patchCall env groupId cfgMember (toUpper cfgMember.role))
          timeouts.update () w with
      | (.ok, _, w1) => (.ok, mapDelete k cfgMap, w1)
      | (.fail err, _, w1) => (.fail err.text, cfgMap, w1)
      | (.crash, _, w1) => (.crash, cfgMap, w1)
    else
      (.ok, mapDelete k cfgMap, w)

/-- The first loop of `reconcileMembers`, `for k, apiMember := range apiMap`, over the entries
of `apiMap` in the order of the visit. -/
def reconcileMembers.apiLoop [CaseFold] {σ : Type} (env : Env σ) (ctx : Context)
    (timeouts : Timeouts) (groupId gid : String) :
    MemberMap → MemberMap → World σ → Outcome String × MemberMap × World σ
  | [], cfgMap, w => (.ok, cfgMap, w)
  | (k, apiMember) :: rest, cfgMap, w =>
    match reconcileMembers.apiBody env ctx timeouts groupId gid k apiMember cfgMap w with
    | (.ok, cfgMap1, w1) => reconcileMembers.apiLoop env ctx timeouts groupId gid rest cfgMap1 w1
    | (.fail msg, cfgMap1, w1) => (.fail msg, cfgMap1, w1)
    | (.crash, cfgMap1, w1) => (.crash, cfgMap1, w1)

/-- The second loop of `reconcileMembers`, `for email := range cfgMap`, over what is left of
`cfgMap`, in the order of the visit. -/
def reconcileMembers.upsertLoop [CaseFold] {σ : Type} (env : Env σ) (ctx : Context)
    (timeouts : Timeouts) (gid : String) :
    MemberMap → World σ → Outcome String × World σ
  | [], w => (.ok, w)
  | (email, cfgMember) :: rest, w =>
    match upsertMember env ctx timeouts.update email gid cfgMember.role w with
    | (.ok, w1) => reconcileMembers.upsertLoop env ctx timeouts gid rest w1
    | (.fail msg, w1) => (.fail msg, w1)
    | (.crash, w1) => (.crash, w1)

/-- The function `reconcileMembers`; `groupId` is `d.Get("group_id")`, `order` the order in
which `range` visits the two maps. -/
def reconcileMembers [CaseFold] {σ : Type} (env : Env σ) (ctx : Context) (order : MapOrder)
    (timeouts : Timeouts)
    (groupId : String) (cfgMembers apiMembers : List Member) (gid : String) (w : World σ) :
    Outcome String × World σ :=
  match reconcileMembers.apiLoop env ctx timeouts groupId gid
      (order.range (reconcileMembers.m apiMembers)) (reconcileMembers.m cfgMembers) w with
  | (.ok, cfgMap, w1) => reconcileMembers.upsertLoop env ctx timeouts gid (order.range cfgMap) w1
  | (.fail msg, _, w1) => (.fail msg, w1)
  | (.crash, _, w1) => (.crash, w1)

/-! ## Reading a trace -/

/-- The remote calls of a trace, in order. -/
def apiCalls : List Event → List Call
  | [] => []
  | .api c :: rest => c :: apiCalls rest
  | _ :: rest => apiCalls rest

/-- The member a call is about: the `memberKey`, or the `Email` of the body of an insert. -/
def Call.target : Call → String
  | .get _ k => k
  | .hasMember _ k => k
  | .insert _ member => member.email
  | .update _ k _ => k
  | .patch _ k _ => k
  | .delete _ k => k

/-- Whether a call is one of those that only `upsertMember` sends. -/
def Call.isUpsert : Call → Bool
  | .delete _ _ => false
  | .patch _ _ _ => false
  | _ => true

/-- The identities that a trace deletes. -/
def deletedIn (trace : List Event) (k : String) : Prop :=
  ∃ g, Call.delete g k ∈ apiCalls trace

/-- The identities whose role a trace patches. -/
def patchedIn (trace : List Event) (k : String) : Prop :=
  ∃ g member, Call.patch g k member ∈ apiCalls trace

/-- The identities that a trace upserts: those it inserts or updates. -/
def upsertedIn (trace : List Event) (k : String) : Prop :=
  (∃ g member, Call.insert g member ∈ apiCalls trace ∧ member.email = k) ∨
    ∃ g member, Call.update g k member ∈ apiCalls trace

/-- The identities for which a trace shows a call of `upsertMember`: a probe, an insert or an
update. -/
def upsertCallIn (trace : List Event) (k : String) : Prop :=
  ∃ c ∈ apiCalls trace, c.isUpsert = true ∧ c.target = k

/-- The upper-cased role under which a member list holds the lower-cased identity `k`. -/
def roleIn [CaseFold] (members : List Member) (k : String) : Option String :=
  (mapGet (reconcileMembers.m members) k).map (fun member => toUpper member.role)

/-! ## A directory service that never fails -/

/-- Whether the membership `members` holds the identity `k`, letter case apart. -/
def holdsMember [CaseFold] (members : List Member) (k : String) : Bool :=
  members.any (fun x => decide (toLower x.email = toLower k))

/-- Remove the identity `k`, letter case apart. -/
def dropMember [CaseFold] (members : List Member) (k : String) : List Member :=
  members.filter (fun x => decide (toLower x.email ≠ toLower k))

/-- Give the identity `k`, letter case apart, the role `role`. -/
def setRole [CaseFold] (members : List Member) (k role : String) : List Member :=
  members.map (fun x => if toLower x.email = toLower k then { x with role := role } else x)

/-- The answer 404 of `Members.get` for an identity that is no group. -/
def notFound : Response :=
  ⟨some (.api 404 ["notFound"] "googleapi: Error 404: Resource Not Found: memberKey, notFound"),
    false⟩

/-- The answer of a call that went through. -/
def done : Response := ⟨none, false⟩

/-- The remote model of the end-to-end scenario of the specification: the state is the
membership of the group; delete removes the member, patch and update set its role, insert adds
it, and every such call succeeds. The group-type probe (`get`) answers 404 for an identity that
is neither a group (`isGroupId`) nor a member, and `hasMember` tells whether it is a member. -/
def directoryRespond [CaseFold] (isGroupId : String → Bool) (members : List Member) :
    Call → Response × List Member
  | .get _ k => if isGroupId k || holdsMember members k then (done, members)
      else (notFound, members)
  | .hasMember _ k => (⟨none, holdsMember members k⟩, members)
  | .insert _ member => (done, dropMember members member.email ++ [member])
  | .update _ k member => (done, setRole members k member.role)
  | .patch _ k member => (done, setRole members k member.role)
  | .delete _ k => (done, dropMember members k)

/-- The environment of the end-to-end scenario: the directory service above, a random source
that draws `draw`, and timeouts that leave room for `attempts` attempts. -/
def directoryEnv [CaseFold] (isGroupId : String → Bool) (draw attempts : Nat) : Env (List Member) :=
  { respond := directoryRespond isGroupId
    draw := fun _ => draw
    attempts := fun _ _ _ => attempts
    timedOut := fun _ _ => .other "context deadline exceeded" }

/-- A directory service on which every call succeeds with an empty answer. -/
def alwaysOkEnv : Env Unit :=
  { respond := fun _ _ => (done, ())
    draw := fun _ => 0
    attempts := fun _ _ _ => 1
    timedOut := fun _ _ => .other "context deadline exceeded" }

/-- The answer of `Members.hasMember` for an identity that is no user of the domain. -/
def memberKeyRequired : Response :=
  ⟨some (.api 400 ["required"] "googleapi: Error 400: Missing required field: memberKey, required"),
    false⟩

/-- A directory service in which the identity asked for is no user of the domain and no member
of the group: `get` answers 404, `hasMember` answers 400 with reason "required", and every
other call goes through. -/
def missingUserEnv : Env Unit :=
  { respond := fun _ c =>
      match c with
      | .get _ _ => (notFound, ())
      | .hasMember _ _ => (memberKeyRequired, ())
      | _ => (done, ())
    draw := fun _ => 0
    attempts := fun _ _ _ => 3
    timedOut := fun _ _ => .other "context deadline exceeded" }

/-- Two member lists hold the same identities, letter case apart, each under the same role,
letter case apart. -/
def sameMembership [CaseFold] (desired actual : List Member) : Prop :=
  ∀ k, roleIn desired k = roleIn actual k

/-! ## Specifications of runs -/

/-- A run from `w` to `w1` sent only calls that satisfy `P` and, if `ok` holds, at least one
call that satisfies `Q`. -/
def Ran {σ : Type} (P Q : Call → Prop) (ok : Prop) (w w1 : World σ) : Prop :=
  ∃ cs, apiCalls w1.trace = apiCalls w.trace ++ cs ∧ (∀ c ∈ cs, P c) ∧ (ok → ∃ c ∈ cs, Q c)

/-- The calls that change the membership in `upsertMember email groupEmail role`. -/
def upsertMember.mutates [CaseFold] (email groupEmail role : String) (c : Call) : Prop :=
  c = .insert groupEmail ⟨toLower email, toUpper role⟩ ∨
    c = .update groupEmail email ⟨toLower email, toUpper role⟩

/-- The calls that `upsertMember email groupEmail role` can send. -/
def upsertMember.sends [CaseFold] (email groupEmail role : String) (c : Call) : Prop :=
  c = .get groupEmail email ∨ c = .hasMember groupEmail email ∨
    upsertMember.mutates email groupEmail role c

/-- The call that the first loop of `reconcileMembers` sends for the entry `(k, apiMember)`
of `apiMap`: a delete when `cfgMap` has no `k`, a patch when the upper-cased roles differ. -/
def reconcileMembers.apiStep [CaseFold] (cfgMap : MemberMap) (groupId gid : String) (k : String)
    (apiMember : Member) (c : Call) : Prop :=
  (mapGet cfgMap k = none ∧ c = .delete gid k) ∨
    ∃ cfgMember, mapGet cfgMap k = some cfgMember ∧
      toUpper cfgMember.role ≠ toUpper apiMember.role ∧
      c = .patch (toLower groupId) (toLower cfgMember.email) ⟨"", toUpper cfgMember.role⟩

/-- Whether the first loop of `reconcileMembers` has a call to send for the entry
`(k, apiMember)` of `apiMap`. -/
def reconcileMembers.apiNeeds [CaseFold] (cfgMap : MemberMap) (k : String) (apiMember : Member) :
    Prop :=
  mapGet cfgMap k = none ∨
    ∃ cfgMember, mapGet cfgMap k = some cfgMember ∧
      toUpper cfgMember.role ≠ toUpper apiMember.role

/-- The map `cfgMap` without the keys of `entries`. -/
def removeKeys (entries : MemberMap) (cfgMap : MemberMap) : MemberMap :=
  entries.foldl (fun sm e => mapDelete e.1 sm) cfgMap

/-- The three rules of the reconciler, read on a call: a delete is for an identity of actual
that desired lacks, a patch for an identity of both whose upper-cased roles differ, and any
other call (those of `upsertMember`) for an identity of desired that actual lacks. -/
def planOf [CaseFold] (desired actual : List Member) : Call → Prop
  | .delete _ k => roleIn actual k ≠ none ∧ roleIn desired k = none
  | .patch _ k _ => ∃ rd ra, roleIn desired k = some rd ∧ roleIn actual k = some ra ∧ rd ≠ ra
  | .get _ k => roleIn desired k ≠ none ∧ roleIn actual k = none
  | .hasMember _ k => roleIn desired k ≠ none ∧ roleIn actual k = none
  | .insert _ member => roleIn desired member.email ≠ none ∧ roleIn actual member.email = none
  | .update _ k _ => roleIn desired k ≠ none ∧ roleIn actual k = none

/-! ## The plan of a pass -/

/-- What `reconcileMembers` does for one entry of one of its two loops. -/
inductive Action where
  /-- The call of `deleteMember` for a member of `apiMap` that `cfgMap` lacks. -/
  | delete (k : String)
  /-- The role patch for a member of both maps whose upper-cased roles differ. -/
  | patch (cfgMember : Member)
  /-- Nothing but `delete(cfgMap, k)`: a member of both maps under the same role. -/
  | keep (k : String)
  /-- The call of `upsertMember` for an entry left in `cfgMap`. -/
  | upsert (email role : String)
  deriving DecidableEq, Repr

/-- The statements of `reconcileMembers` for one action, with the result that decides whether
the function goes on (`ok`) or returns. -/
def Action.run [CaseFold] {σ : Type} (env : Env σ) (ctx : Context) (timeouts : Timeouts)
    (groupId gid : String) :
    Action → World σ → Outcome String × World σ
  | .delete k, w => deleteMember env ctx timeouts.delete k gid w
  | .patch cfgMember, w =>
    match retryNotFound env ctx
        (reconcileMembers.patchCall env groupId cfgMember (toUpper cfgMember.role))
        timeouts.update () w with
    | (.ok, _, w1) => (.ok, w1)
    | (.fail err, _, w1) => (.fail err.text, w1)
    | (.crash, _, w1) => (.crash, w1)
  | .keep _, w => (.ok, w)
  | .upsert email role, w => upsertMember env ctx timeouts.update email gid role w

/-- The reconciliation of the specification: the actions of a plan are applied in order, and
the first one that does not succeed ends the pass with its result. -/
def runActions [CaseFold] {σ : Type} (env : Env σ) (ctx : Context) (timeouts : Timeouts)
    (groupId gid : String) :
    List Action → World σ → Outcome String × World σ
  | [], w => (.ok, w)
  | a :: rest, w =>
    match a.run env ctx timeouts groupId gid w with
    | (.ok, w1) => runActions env ctx timeouts groupId gid rest w1
    | (.fail msg, w1) => (.fail msg, w1)
    | (.crash, w1) => (.crash, w1)

/-- The action of the first loop for an entry of `apiMap`, by the rules of the
specification. -/
def reconcileMembers.apiAction [CaseFold] (cfgMap : MemberMap) (e : String × Member) : Action :=
  match mapGet cfgMap e.1 with
  | none => .delete e.1
  | some cfgMember =>
    if toUpper cfgMember.role ≠ toUpper e.2.role then .patch cfgMember else .keep e.1

/-- The plan of a pass: the actions for the entries of `apiMap`, then an upsert for every
entry of `cfgMap` whose key `apiMap` lacks, each in the order of the visit. -/
def reconcileMembers.plan [CaseFold] (order : MapOrder) (desired actual : List Member) : List
    Action :=
  (order.range (reconcileMembers.m actual)).map
      (reconcileMembers.apiAction (reconcileMembers.m desired)) ++
    (order.range (removeKeys (order.range (reconcileMembers.m actual))
      (reconcileMembers.m desired))).map (fun e => Action.upsert e.1 e.2.role)

/-- A directory service that refuses every call with status 403. -/
def forbiddenEnv : Env Unit :=
  { respond := fun _ _ =>
      (⟨some (.api 403 ["forbidden"]
        "googleapi: Error 403: Not Authorized to access this resource/api, forbidden"), false⟩, ())
    draw := fun _ => 0
    attempts := fun _ _ _ => 3
    timedOut := fun _ _ => .other "context deadline exceeded" }

/-! ## The answers of the directory service -/

/-- Whether an answer carries the status 404: the test
`gerr, ok := err.(*googleapi.Error); ok && gerr.Code == 404` of the probes. -/
def Response.is404 (r : Response) : Bool :=
  match r.err with
  | some err => err.hasCode 404
  | none => false

/-- The answers of the directory service, asked in state `s`, to a list of calls in order. -/
def answersOf {σ : Type} (env : Env σ) : σ → List Call → List Response
  | _, [] => []
  | s, c :: cs => (env.respond s c).1 :: answersOf env (env.respond s c).2 cs

/-- Whether the last of a list of answers carries the status 404 (false when there is none). -/
def lastIs404 (answers : List Response) : Bool :=
  match answers.getLast? with
  | some r => r.is404
  | none => false

/-- The answers that a probe of `upsertMember` (the loop of `retry` around the `get` of the
identity in the parent group) receives when it is started in the world `w`: those of the
directory service, asked in the state of `w`, to the calls that the probe appends to the
trace. -/
def upsertMember.probeAnswers {σ : Type} (env : Env σ) (ctx : Context) (timeoutDuration : Int)
    (email groupEmail : String) (w : World σ) : List Response :=
  answersOf env w.remote
    ((apiCalls (retry env ctx (upsertMember.getProbe env email groupEmail) timeoutDuration true
      w).2.2.trace).drop (apiCalls w.trace).length)

/-! ## The retry loops of a trace -/

/-- A call of `resource.RetryContext` as a trace shows it: the context and the timeout that it
was handed, and the remote calls that its closure sent. -/
structure RetryLoop where
  ctx : Context
  timeout : Int
  calls : List Call
  deriving DecidableEq, Repr

/-- The remote calls of a trace up to the next start of a retry loop. -/
def callsOfLoop : List Event → List Call
  | [] => []
  | .api c :: rest => c :: callsOfLoop rest
  | .sleep _ :: rest => callsOfLoop rest
  | .retry _ _ _ :: _ => []

/-- The retry loops of a trace, in order. -/
def loopsOf : List Event → List RetryLoop
  | [] => []
  | .retry ctx timeout _ :: rest => ⟨ctx, timeout, callsOfLoop rest⟩ :: loopsOf rest
  | _ :: rest => loopsOf rest

/-- Whether a list of events is empty or begins with the start of a retry loop. -/
def startsLoop : List Event → Bool
  | [] => true
  | .retry _ _ _ :: _ => true
  | _ => false

/-- A run from `w` to `w1` appended whole retry loops only, each of which satisfies `L`. -/
def Looped {σ : Type} (L : RetryLoop → Prop) (w w1 : World σ) : Prop :=
  ∃ evs, w1.trace = w.trace ++ evs ∧ startsLoop evs = true ∧ ∀ l ∈ loopsOf evs, L l

/-- Whether a call is a delete. -/
def Call.isDelete : Call → Bool
  | .delete _ _ => true
  | _ => false

/-- What `reconcileMembers ctx` with the timeouts `timeouts` and the group `gid` hands to a
retry loop: the context `ctx` itself, and as the timeout either `d.Timeout(TimeoutDelete)`, to
a loop that sends deletes of members of `gid` only, or `d.Timeout(TimeoutUpdate)`, to a loop
that sends no delete (the patches and the probes, inserts and updates of `upsertMember`). -/
def reconcileMembers.hands (ctx : Context) (timeouts : Timeouts) (gid : String)
    (l : RetryLoop) : Prop :=
  l.ctx = ctx ∧
    ((l.timeout = timeouts.delete ∧ ∀ c ∈ l.calls, ∃ k, c = Call.delete gid k) ∨
      (l.timeout = timeouts.update ∧ ∀ c ∈ l.calls, c.isDelete = false))

/-- The sleeps of a trace, in order. -/
def sleepsOf : List Event → List Sleep
  | [] => []
  | .sleep s :: rest => s :: sleepsOf rest
  | _ :: rest => sleepsOf rest

/-- The error of a backend that is briefly unavailable. -/
def backendError : Response :=
  ⟨some (.api 503 ["backendError"] "googleapi: Error 503: Backend Error, backendError"), false⟩

/-- A directory service, with the number of calls answered so far as its state, that answers
every other call with status 503 and otherwise finds the identity to be no group and no member
yet and lets every mutation through; a timeout leaves room for two attempts. -/
def flakyEnv : Env Nat :=
  { respond := fun n c =>
      if n % 2 = 0 then (backendError, n + 1)
      else
        match c with
        | .get _ _ => (notFound, n + 1)
        | .hasMember _ _ => (⟨none, false⟩, n + 1)
        | _ => (done, n + 1)
    draw := fun _ => 0
    attempts := fun _ _ _ => 2
    timedOut := fun _ _ => .other "context deadline exceeded" }

/-! # Theorems -/
/-! ## The retry classifier and the backoff -/

theorem firstReasonIs_hasErrors (err : GoError) (r : String) (h : err.firstReasonIs r = true) :
    err.hasErrors = true := by
  cases err with
  | api code reasons text => cases reasons <;> simp_all [GoError.firstReasonIs, GoError.hasErrors]
  | other text => simp [GoError.firstReasonIs] at h

theorem ifChain_eq {α : Type} (X Y : α)
    (c500 c502 c503 he q pd c401 c429 c409 nf c404 inv c400 ri t1 t2 t3 t4 : Bool)
    (hq : q = true → he = true) (hi : ri = true → he = true) :
    (if c500 || c502 || c503 then X
      else if he && q then X
      else if pd && (c401 || c429) then X
      else if !pd && (c401 || c409 || c429) then X
      else if nf && c404 then X
      else if inv && c400 then X
      else if inv && (he && ri) then X
      else if t1 && t2 then X
      else if t3 then X
      else if t4 then X
      else Y) =
    if (c500 || c502 || c503) || q || (c401 || c429 || (c409 && !pd)) || (nf && c404)
        || (inv && (c400 || ri)) || ((t1 && t2) || t3 || t4) then X else Y := by
  cases c500 <;> cases c502 <;> cases c503 <;> try simp
  cases q
  swap
  · simp [hq rfl]
  simp only [Bool.and_false, Bool.false_eq_true, if_false, Bool.or_false, Bool.false_or]
  clear hq
  cases c401 <;> cases c429 <;> cases pd <;> cases c409 <;> try simp
  all_goals (cases nf <;> cases c404 <;> try simp)
  all_goals (cases inv <;> try simp)
  all_goals (cases c400 <;> try simp)
  all_goals (cases ri <;> try simp)
  all_goals (try simp [hi rfl])
  all_goals (cases t1 <;> cases t2 <;> cases t3 <;> cases t4 <;> simp)

/-- The closure of `retryTime` is the classifier of the specification followed, for a
retryable error, by the three statements of `backoff`. -/
theorem retryTimeCallback_eq (flags : RetryFlags) (err : GoError) (draw : Nat) (wait : Int) :
    retryTimeCallback flags err draw wait =
      if specRetryable flags err then backoff wait (randIntn 1001 draw) err
      else ⟨.nonRetryable err, none, wait⟩ :=
  ifChain_eq _ _ _ _ _ _ _ _ _ _ _ _ _ _ _ _ _ _ _ _
    (firstReasonIs_hasErrors err "quotaExceeded") (firstReasonIs_hasErrors err "invalid")

/-- The result of the closure of `retryTime`, by the classifier of the specification. -/
theorem retryTimeCallback_result (flags : RetryFlags) (err : GoError) (draw : Nat)
    (wait : Int) :
    (retryTimeCallback flags err draw wait).result =
      if specRetryable flags err then RetryError.retryable err
      else RetryError.nonRetryable err := by
  rw [retryTimeCallback_eq]
  split <;> rfl

/-- C5: for every error and every combination of the three flags, the closure of `retryTime`
reports the error as retryable exactly when one of the six rules of the specification holds,
and reports the same error as non-retryable in every other case. -/
theorem retryTime_classifies_by_rules (flags : RetryFlags) (err : GoError) (draw : Nat)
    (wait : Int) :
    (retryTimeCallback flags err draw wait).result =
      if specRetryable flags err then RetryError.retryable err
      else RetryError.nonRetryable err :=
  retryTimeCallback_result flags err draw wait

/-- C6, counterexample: an API error with status 404 whose first reason is "quotaExceeded" is
reported as retryable by `retry` (all flags off), not as permanent. -/
theorem retry_404_quota_is_retryable :
    (retryTimeCallback RetryFlags.plain (GoError.api 404 ["quotaExceeded"] "quota") 0 1).result
      = RetryError.retryable (GoError.api 404 ["quotaExceeded"] "quota") := by
  decide

/-- C6, amended: for every API error with status 404, `retryNotFound` (not-found tolerance on)
reports it as retryable, and `retry` (tolerance off) reports it as permanent unless its first
reason is "quotaExceeded" or its text is one of the transient texts of rule (6), in which case
it is retryable. -/
theorem retry_404_by_tolerance (reasons : List String) (text : String) (draw : Nat) (wait : Int) :
    (retryTimeCallback RetryFlags.notFound (GoError.api 404 reasons text) draw wait).result
        = RetryError.retryable (GoError.api 404 reasons text) ∧
      (retryTimeCallback RetryFlags.plain (GoError.api 404 reasons text) draw wait).result
        = if (GoError.api 404 reasons text).firstReasonIs "quotaExceeded" || transientText text
          then RetryError.retryable (GoError.api 404 reasons text)
          else RetryError.nonRetryable (GoError.api 404 reasons text) := by
  constructor
  · rw [retryTimeCallback_result]
    simp [specRetryable, RetryFlags.notFound, GoError.hasCode]
  · rw [retryTimeCallback_result]
    simp [specRetryable, RetryFlags.plain, GoError.hasCode, GoError.text]

/-! ### The backoff schedule -/

theorem wrapInt64_eq (x : Int) (h1 : -9223372036854775808 ≤ x) (h2 : x < 9223372036854775808) :
    wrapInt64 x = x := by
  unfold wrapInt64
  norm_num
  omega

theorem wrapInt64_le (x : Int) (h1 : -9223372036854775808 ≤ x) : wrapInt64 x ≤ x := by
  unfold wrapInt64
  norm_num
  omega

theorem wrapInt64_ge (x : Int) : -9223372036854775808 ≤ wrapInt64 x := by
  unfold wrapInt64
  norm_num
  omega

theorem retryTimeSleeps_cons (flags : RetryFlags) (wait : Int) (err : GoError) (draw : Nat)
    (rest : List (GoError × Nat)) :
    retryTimeSleeps flags wait ((err, draw) :: rest) =
      if specRetryable flags err then
        ⟨secondsDuration wait, millisDuration (randIntn 1001 draw)⟩ ::
          retryTimeSleeps flags (wrapInt64 (wait * 2)) rest
      else [] := by
  by_cases h : specRetryable flags err = true
  · rw [retryTimeSleeps, retryTimeCallback_eq]
    simp [h, backoff]
  · rw [retryTimeSleeps, retryTimeCallback_eq]
    simp [h]

/-- The wait after `i` further doublings, starting from `wait`. -/
theorem retryTimeSleeps_get (flags : RetryFlags) (fails : List (GoError × Nat)) :
    ∀ (n : Nat) (i : Nat) (s : Sleep),
      (retryTimeSleeps flags (waitAfter n) fails)[i]? = some s →
        s.base = secondsDuration (waitAfter (n + i)) ∧
          ∃ j : Nat, j ≤ 1000 ∧ s.jitter = millisDuration j := by
  induction fails with
  | nil => intro n i s h; simp [retryTimeSleeps] at h
  | cons f rest ih =>
    intro n i s h
    obtain ⟨err, draw⟩ := f
    rw [retryTimeSleeps_cons] at h
    split at h
    · cases i with
      | zero =>
        simp at h
        subst h
        refine ⟨rfl, randIntn 1001 draw, ?_, rfl⟩
        unfold randIntn
        omega
      | succ i =>
        simp only [List.getElem?_cons_succ] at h
        have := ih (n + 1) i s (by simpa [waitAfter] using h)
        rw [show n + (i + 1) = n + 1 + i from by omega]
        exact this
    · simp at h

theorem waitAfter_eq (n : Nat) (h : n ≤ 62) : waitAfter n = 2 ^ n := by
  induction n with
  | zero => rfl
  | succ n ih =>
    have h1 := ih (by omega)
    have h2 : (2 : Int) ^ n ≤ 2 ^ 61 := pow_le_pow_right₀ (by norm_num) (by omega)
    have h3 : (0 : Int) < 2 ^ n := by positivity
    rw [waitAfter, h1, wrapInt64_eq _ (by omega) (by norm_num at h2 ⊢; omega)]
    ring

theorem secondsDuration_waitAfter (n : Nat) (h : n ≤ 33) :
    secondsDuration (waitAfter n) = 2 ^ n * 1000000000 := by
  have h2 : (2 : Int) ^ n ≤ 2 ^ 33 := pow_le_pow_right₀ (by norm_num) h
  have h3 : (0 : Int) < 2 ^ n := by positivity
  rw [waitAfter_eq n (by omega), secondsDuration,
    wrapInt64_eq _ (by omega) (by norm_num at h2 ⊢; omega)]

theorem millisDuration_eq (j : Nat) (h : j ≤ 1000) : millisDuration j = j * 1000000 := by
  rw [millisDuration, wrapInt64_eq _ (by omega) (by omega)]

theorem timePaused_nonneg (sleeps : List Sleep) : 0 ≤ timePaused sleeps := by
  induction sleeps with
  | nil => simp [timePaused]
  | cons s rest ih =>
    simp only [timePaused, List.map_cons, List.sum_cons] at ih ⊢
    have : 0 ≤ s.paused := le_max_left _ _
    omega

theorem timePaused_append (a b : List Sleep) :
    timePaused (a ++ b) = timePaused a + timePaused b := by
  simp [timePaused]

/-- Before the `n`-th doubling has run (`n ≤ 34`), the first `n` sleeps have paused at least
`2^n - 1` seconds. -/
theorem timePaused_take_ge (flags : RetryFlags) (fails : List (GoError × Nat)) (n : Nat)
    (hn : n ≤ 34) (hlen : n ≤ (retryTimeSleeps flags 1 fails).length) :
    (2 ^ n - 1) * 1000000000 ≤ timePaused ((retryTimeSleeps flags 1 fails).take n) := by
  induction n with
  | zero => simp [timePaused]
  | succ n ih =>
    have h1 := ih (by omega) (by omega)
    have hlt : n < (retryTimeSleeps flags 1 fails).length := by omega
    rw [List.take_succ, List.getElem?_eq_getElem hlt, timePaused_append]
    obtain ⟨hb, j, hj, hjit⟩ := retryTimeSleeps_get flags fails 0 n
      ((retryTimeSleeps flags 1 fails)[n]) (by simp [waitAfter, List.getElem?_eq_getElem hlt])
    rw [Nat.zero_add, secondsDuration_waitAfter n (by omega)] at hb
    rw [millisDuration_eq j hj] at hjit
    have h2 : (2 : Int) ^ n ≤ 2 ^ 33 := pow_le_pow_right₀ (by norm_num) (by omega)
    have h3 : (0 : Int) < 2 ^ n := by positivity
    have htot : ((retryTimeSleeps flags 1 fails)[n]).total
        = 2 ^ n * 1000000000 + j * 1000000 := by
      rw [Sleep.total, hb, hjit, wrapInt64_eq _ (by omega) (by norm_num at h2 ⊢; omega)]
    have hp : 2 ^ n * 1000000000 ≤ ((retryTimeSleeps flags 1 fails)[n]).paused := by
      rw [Sleep.paused, htot]
      have : (0 : Int) ≤ j * 1000000 := by positivity
      exact le_trans (by omega) (le_max_right _ _)
    simp only [Option.toList, timePaused, List.map_cons, List.map_nil, List.sum_cons,
      List.sum_nil, add_zero] at h1 ⊢
    rw [pow_succ]
    omega

/-- C7: within one `retryTime` invocation (`wait` starts at 1), for every `k ≥ 1` the base wait
slept on the `k`-th retryable failure, jitter apart, is exactly `2^(k-1)` seconds, whichever
rule made each failure retryable. The `k`-th failure is one that the invocation reaches: the
time paused before it is below the timeout, which is a `time.Duration`. -/
theorem retryTime_base_wait_doubles (flags : RetryFlags) (fails : List (GoError × Nat))
    (duration : Int) (k : Nat) (s : Sleep)
    (hk : 1 ≤ k)
    (hs : (retryTimeSleeps flags 1 fails)[k - 1]? = some s)
    (hduration : duration ≤ maxDuration)
    (hreached : timePaused ((retryTimeSleeps flags 1 fails).take (k - 1)) < duration) :
    s.base = 2 ^ (k - 1) * 1000000000 := by
  have hprev : k - 1 + 1 = k := Nat.sub_add_cancel hk
  obtain ⟨hb, -⟩ := retryTimeSleeps_get flags fails 0 (k - 1) s (by simpa [waitAfter] using hs)
  rw [Nat.zero_add] at hb
  by_cases h33 : k - 1 ≤ 33
  · rw [hb, secondsDuration_waitAfter _ h33]
  · exfalso
    have hlen : k ≤ (retryTimeSleeps flags 1 fails).length := by
      by_contra hcon
      rw [List.getElem?_eq_none (by omega)] at hs
      exact Option.noConfusion hs
    have h34 := timePaused_take_ge flags fails 34 (le_refl _) (by omega)
    have hsplit : (retryTimeSleeps flags 1 fails).take (k - 1)
        = (retryTimeSleeps flags 1 fails).take 34
          ++ ((retryTimeSleeps flags 1 fails).take (k - 1)).drop 34 := by
      conv_lhs => rw [← List.take_append_drop 34 ((retryTimeSleeps flags 1 fails).take (k - 1))]
      rw [List.take_take, min_eq_left (by omega)]
    rw [hsplit, timePaused_append] at hreached
    have hnn := timePaused_nonneg (((retryTimeSleeps flags 1 fails).take (k - 1)).drop 34)
    unfold maxDuration at hduration
    norm_num at h34 hduration
    omega

/-- C7, witness: three retryable failures under three different rules (status 503, status 429,
a transient text) within a timeout of twenty minutes: the third base wait is 4 seconds. -/
theorem retryTime_base_wait_doubles_witness :
    (1 ≤ 3 ∧
      (retryTimeSleeps RetryFlags.plain 1
        [(GoError.api 503 [] "backend error", 0), (GoError.api 429 ["rateLimitExceeded"] "slow", 5),
          (GoError.other "Service unavailable. Please try again", 7)])[3 - 1]?
        = some ⟨4000000000, 7000000⟩ ∧
      (1200000000000 : Int) ≤ maxDuration ∧
      timePaused ((retryTimeSleeps RetryFlags.plain 1
        [(GoError.api 503 [] "backend error", 0), (GoError.api 429 ["rateLimitExceeded"] "slow", 5),
          (GoError.other "Service unavailable. Please try again", 7)]).take (3 - 1))
        < 1200000000000) ∧
      (⟨4000000000, 7000000⟩ : Sleep).base = 2 ^ (3 - 1) * 1000000000 :=
  ⟨⟨by decide, by decide, by decide, by decide⟩,
    retryTime_base_wait_doubles RetryFlags.plain
      [(GoError.api 503 [] "backend error", 0), (GoError.api 429 ["rateLimitExceeded"] "slow", 5),
        (GoError.other "Service unavailable. Please try again", 7)]
      1200000000000 3 ⟨4000000000, 7000000⟩ (by decide) (by decide) (by decide) (by decide)⟩

/-- Past the reach of any timeout the doubling would leave the range of `time.Duration`: after
34 doublings `time.Duration(wait)*time.Second` wraps to a negative duration. -/
theorem secondsDuration_wraps_after_34 :
    waitAfter 34 = 2 ^ 34 ∧ secondsDuration (waitAfter 34) = -1266874889709551616 := by
  have h := waitAfter_eq 34 (by omega)
  refine ⟨h, ?_⟩
  rw [h]
  decide

/-- C8, counterexample: when the random source makes `rand.Intn(1001)` return 1000, the jitter
is 1000 milliseconds, which is not below 1000, and the sleep is the base wait plus a whole
second, which is not strictly less than base + 1 second. -/
theorem retryTime_jitter_reaches_1000 :
    (retryTimeCallback RetryFlags.plain (GoError.api 503 [] "backend error") 1000 1).slept
        = some ⟨1000000000, 1000 * 1000000⟩ ∧
      (⟨1000000000, 1000 * 1000000⟩ : Sleep).total = 1000000000 + 1000000000 := by
  decide

/-- C8, amended: for every retryable failure, the jitter that `retryTime` adds to the base wait
is a whole number of milliseconds `j` with `0 ≤ j ≤ 1000` (the closed interval, as
`rand.Intn(1001)` draws from `[0, 1001)`), so every sleep is at most base + 1 second. -/
theorem retryTime_jitter_le_1000 (flags : RetryFlags) (err : GoError) (draw : Nat) (wait : Int)
    (s : Sleep) (h : (retryTimeCallback flags err draw wait).slept = some s) :
    ∃ j : Nat, j ≤ 1000 ∧ s.jitter = j * 1000000 ∧ s.total ≤ s.base + 1000000000 := by
  rw [retryTimeCallback_eq] at h
  split at h
  · simp only [backoff, Option.some.injEq] at h
    subst h
    have hj : randIntn 1001 draw ≤ 1000 := by unfold randIntn; omega
    refine ⟨randIntn 1001 draw, hj, millisDuration_eq _ hj, ?_⟩
    simp only [Sleep.total]
    rw [millisDuration_eq _ hj]
    have hb := wrapInt64_ge (wait * 1000000000)
    have := wrapInt64_le (secondsDuration wait + (randIntn 1001 draw : Int) * 1000000)
      (by unfold secondsDuration; omega)
    omega
  · simp at h

/-- C8, witness: a status 503 with the draw 1000. -/
theorem retryTime_jitter_le_1000_witness :
    (retryTimeCallback RetryFlags.plain (GoError.api 503 [] "backend error") 1000 1).slept
        = some ⟨1000000000, 1000000000⟩ ∧
      ∃ j : Nat, j ≤ 1000 ∧ (⟨1000000000, 1000000000⟩ : Sleep).jitter = j * 1000000 ∧
        (⟨1000000000, 1000000000⟩ : Sleep).total
          ≤ (⟨1000000000, 1000000000⟩ : Sleep).base + 1000000000 :=
  ⟨by decide,
    retryTime_jitter_le_1000 RetryFlags.plain (GoError.api 503 [] "backend error") 1000 1
      ⟨1000000000, 1000000000⟩ (by decide)⟩

/-! ## The mutation executor -/

theorem retryTime_loop_no_crash {σ ρ : Type} (env : Env σ) (flags : RetryFlags)
    (f : ρ → World σ → Outcome GoError × ρ × World σ)
    (hf : ∀ r w, (f r w).1 ≠ Outcome.crash) :
    ∀ (n : Nat) (wait : Int) (last : GoError) (r : ρ) (w : World σ),
      (retryTime.loop env flags f n wait last r w).1 ≠ Outcome.crash := by
  intro n
  induction n with
  | zero => intro wait last r w; simp [retryTime.loop]
  | succ n ih =>
    intro wait last r w
    rw [retryTime.loop]
    have hfr := hf r w
    split
    · simp
    · rename_i h; rw [h] at hfr; exact absurd rfl hfr
    · split
      · exact ih _ _ _ _
      · exact ih _ _ _ _
      · simp
      · simp

theorem getProbe_no_crash {σ : Type} (env : Env σ) (email groupEmail : String) (flag : Bool)
    (w : World σ) : (upsertMember.getProbe env email groupEmail flag w).1 ≠ Outcome.crash := by
  unfold upsertMember.getProbe
  split
  · simp
  · split <;> simp

theorem retry_getProbe_no_crash {σ : Type} (env : Env σ) (ctx : Context) (email groupEmail : String)
    (timeoutDuration : Int) (flag : Bool) (w : World σ) :
    (retry env ctx (upsertMember.getProbe env email groupEmail) timeoutDuration flag w).1
      ≠ Outcome.crash :=
  retryTime_loop_no_crash env _ _ (getProbe_no_crash env email groupEmail) _ _ _ _ _

/-- A group-type identity with a role other than "MEMBER" is refused in the world the
probe left. -/
theorem upsertMember_group_role_error [CaseFold] {σ : Type} (env : Env σ) (ctx : Context)
    (timeoutDuration : Int) (email groupEmail role : String) (w : World σ)
    (hgroup :
      (retry env ctx (upsertMember.getProbe env email groupEmail) timeoutDuration true w).2.1 =
          true)
    (hrole : role ≠ "MEMBER") :
    upsertMember env ctx timeoutDuration email groupEmail role w =
      (Outcome.fail ("[ERROR] Error creating groupMember (" ++ email ++
          "): nested groups should be role MEMBER"),
        (retry env ctx (upsertMember.getProbe env email groupEmail) timeoutDuration true
            w).2.2) := by
  have hc := retry_getProbe_no_crash env ctx email groupEmail timeoutDuration true w
  unfold upsertMember
  revert hgroup hc
  generalize retry env ctx (upsertMember.getProbe env email groupEmail) timeoutDuration true w = res
  obtain ⟨o, b, w1⟩ := res
  intro hgroup hc
  simp only at hgroup hc
  subst hgroup
  cases o with
  | crash => exact absurd rfl hc
  | ok => simp [upsertMember.groupBranch, hrole]
  | fail e => simp [upsertMember.groupBranch, hrole]

/-- C9: for every identity that the group-type probe classifies as a nested group (the
captured `isGroup` is still true after the probe) and every declared role other than
"MEMBER", `upsertMember` returns the nested-groups error and leaves the world exactly as the
probe left it: no retry loop is started and no remote call is sent after the probe. -/
theorem upsertMember_nested_group_needs_member [CaseFold] {σ : Type} (env : Env σ) (ctx : Context)
    (timeoutDuration : Int) (email groupEmail role : String) (w : World σ)
    (hgroup :
      (retry env ctx (upsertMember.getProbe env email groupEmail) timeoutDuration true w).2.1 =
          true)
    (hrole : role ≠ "MEMBER") :
    upsertMember env ctx timeoutDuration email groupEmail role w =
      (Outcome.fail ("[ERROR] Error creating groupMember (" ++ email ++
          "): nested groups should be role MEMBER"),
        (retry env ctx (upsertMember.getProbe env email groupEmail) timeoutDuration true w).2.2) :=
  upsertMember_group_role_error env ctx timeoutDuration email groupEmail role w hgroup hrole

/-- C9, witness: on a directory service where `get` succeeds, "team@x.com" is taken for a
group, and the role "OWNER" is refused after the single call of the probe. -/
theorem upsertMember_nested_group_needs_member_witness :
    ((retry alwaysOkEnv Context.background (upsertMember.getProbe alwaysOkEnv "team@x.com"
        "g@x.com") 1200 true
        ⟨(), []⟩).2.1 = true ∧ "OWNER" ≠ "MEMBER") ∧
      upsertMember alwaysOkEnv Context.background 1200 "team@x.com" "g@x.com" "OWNER" ⟨(), []⟩ =
        (Outcome.fail ("[ERROR] Error creating groupMember (" ++ "team@x.com" ++
            "): nested groups should be role MEMBER"),
          (retry alwaysOkEnv Context.background (upsertMember.getProbe alwaysOkEnv "team@x.com"
              "g@x.com") 1200 true
            ⟨(), []⟩).2.2) :=
  ⟨⟨by decide, by decide⟩,
    upsertMember_nested_group_needs_member alwaysOkEnv Context.background 1200 "team@x.com"
        "g@x.com" "OWNER"
      ⟨(), []⟩ (by decide) (by decide)⟩

/-- C10, the code at the failing input: for a user-type identity (`get` answers 404) whose
`HasMember` probe fails with status 400 and reason "required", the probe is sent once, its
user-facing error is dropped, and `upsertMember` goes on to insert the member and ends without
any error when the insert goes through. -/
theorem upsertMember_missing_user_is_inserted :
    (upsertMember missingUserEnv Context.background 1200 "ghost@x.com" "g@x.com" "MEMBER"
        ⟨(), []⟩).1 = Outcome.ok ∧
      apiCalls (upsertMember missingUserEnv Context.background 1200 "ghost@x.com" "g@x.com" "MEMBER"
          ⟨(), []⟩).2.trace
        = [Call.get "g@x.com" "ghost@x.com", Call.hasMember "g@x.com" "ghost@x.com",
            Call.insert "g@x.com" ⟨"ghost@x.com", "MEMBER"⟩] := by
  decide

/-! ## Strings and maps -/

/-- Lower-casing twice is lower-casing once. -/
theorem toLower_toLower [CaseFold] (s : String) : toLower (toLower s) = toLower s :=
  CaseFold.lower_idem s

/-- Upper-casing twice is upper-casing once. -/
theorem toUpper_toUpper [CaseFold] (s : String) : toUpper (toUpper s) = toUpper s :=
  CaseFold.upper_idem s

theorem mapGet_mapSet (k : String) (v : Member) (sm : MemberMap) (k1 : String) :
    mapGet (mapSet k v sm) k1 = if k = k1 then some v else mapGet sm k1 := by
  induction sm with
  | nil => simp [mapSet, mapGet]
  | cons e rest ih =>
    obtain ⟨k2, v2⟩ := e
    by_cases h : k2 = k
    · subst h
      by_cases h2 : k2 = k1 <;> simp [mapSet, mapGet, h2]
    · simp only [mapSet, if_neg h, mapGet, ih]
      by_cases h2 : k2 = k1
      · subst h2
        simp [Ne.symm h]
      · simp [h2]

theorem mapGet_eq_none_iff (sm : MemberMap) (k : String) :
    mapGet sm k = none ↔ k ∉ sm.map Prod.fst := by
  induction sm with
  | nil => simp [mapGet]
  | cons e rest ih =>
    obtain ⟨k2, v2⟩ := e
    by_cases h : k2 = k
    · simp [mapGet, h]
    · simp [mapGet, h, ih, Ne.symm h]

theorem map_fst_mapSet (k : String) (v : Member) (sm : MemberMap) :
    (mapSet k v sm).map Prod.fst =
      if k ∈ sm.map Prod.fst then sm.map Prod.fst else sm.map Prod.fst ++ [k] := by
  induction sm with
  | nil => simp [mapSet]
  | cons e rest ih =>
    obtain ⟨k2, v2⟩ := e
    by_cases h : k2 = k
    · subst h
      simp [mapSet]
    · simp only [mapSet, if_neg h, List.map_cons, ih, List.mem_cons]
      by_cases h2 : k ∈ rest.map Prod.fst
      · simp [h2]
      · simp [h2, Ne.symm h]

theorem mapSet_nodup (k : String) (v : Member) (sm : MemberMap)
    (h : (sm.map Prod.fst).Nodup) : ((mapSet k v sm).map Prod.fst).Nodup := by
  rw [map_fst_mapSet]
  split
  · exact h
  · rename_i hk
    exact List.nodup_append.mpr ⟨h, List.nodup_singleton k,
      by intro a ha hb; simp at hb; subst hb; exact hk ha⟩

theorem m_append [CaseFold] (l : List Member) (x : Member) :
    reconcileMembers.m (l ++ [x]) =
      mapSet (toLower x.email) { x with email := toLower x.email } (reconcileMembers.m l) := by
  simp [reconcileMembers.m, List.foldl_append]

/-- The keys of the map built by `m` are distinct. -/
theorem m_nodup [CaseFold] (l : List Member) : ((reconcileMembers.m l).map Prod.fst).Nodup := by
  induction l using List.reverseRecOn with
  | nil => simp [reconcileMembers.m]
  | append_singleton l x ih => rw [m_append]; exact mapSet_nodup _ _ _ ih

/-- Every entry of the map built by `m` has a lower-cased key, which is its "email". -/
theorem m_entry [CaseFold] (l : List Member) (k : String) (v : Member)
    (h : mapGet (reconcileMembers.m l) k = some v) : v.email = k ∧ toLower k = k := by
  induction l using List.reverseRecOn with
  | nil => simp [reconcileMembers.m, mapGet] at h
  | append_singleton l x ih =>
    rw [m_append, mapGet_mapSet] at h
    split at h
    · rename_i hk
      simp only [Option.some.injEq] at h
      subst h
      subst hk
      exact ⟨rfl, toLower_toLower _⟩
    · exact ih h

theorem mapGet_eq_some_iff (sm : MemberMap) (h : (sm.map Prod.fst).Nodup) (k : String)
    (v : Member) : mapGet sm k = some v ↔ (k, v) ∈ sm := by
  induction sm with
  | nil => simp [mapGet]
  | cons e rest ih =>
    obtain ⟨k2, v2⟩ := e
    simp only [List.map_cons, List.nodup_cons] at h
    by_cases hk : k2 = k
    · subst hk
      simp only [mapGet, if_true, Option.some.injEq, List.mem_cons, Prod.mk.injEq, true_and]
      constructor
      · intro hv; exact Or.inl hv.symm
      · rintro (hv | hmem)
        · exact hv.symm
        · exact absurd (List.mem_map_of_mem Prod.fst hmem) h.1
    · simp only [mapGet, if_neg hk, ih h.2, List.mem_cons, Prod.mk.injEq]
      constructor
      · intro hm; exact Or.inr hm
      · rintro (⟨hk2, -⟩ | hm)
        · exact absurd hk2.symm hk
        · exact hm

theorem mapGet_mapDelete (k : String) (sm : MemberMap) (k1 : String) :
    mapGet (mapDelete k sm) k1 = if k1 = k then none else mapGet sm k1 := by
  induction sm with
  | nil => simp [mapDelete, mapGet]
  | cons e rest ih =>
    obtain ⟨k2, v2⟩ := e
    simp only [mapDelete] at ih
    by_cases h : k2 = k
    · subst h
      simp only [mapDelete, List.filter_cons, ne_eq, not_true_eq_false, decide_False,
        Bool.false_eq_true, if_false, ih, mapGet]
      by_cases h2 : k1 = k2
      · simp [h2]
      · simp [h2, Ne.symm h2]
    · simp only [mapDelete, List.filter_cons, ne_eq, h, not_false_eq_true, decide_True, if_true,
        mapGet, ih]
      by_cases h2 : k2 = k1
      · subst h2; simp [h]
      · simp [h2]

theorem mapDelete_of_absent (k : String) (sm : MemberMap) (h : mapGet sm k = none) :
    mapDelete k sm = sm := by
  rw [mapGet_eq_none_iff] at h
  simp only [mapDelete, List.filter_eq_self]
  intro e he
  have : e.1 ≠ k := fun hk => h (hk ▸ List.mem_map_of_mem Prod.fst he)
  simpa using this

theorem mapDelete_nodup (k : String) (sm : MemberMap) (h : (sm.map Prod.fst).Nodup) :
    ((mapDelete k sm).map Prod.fst).Nodup :=
  List.Nodup.sublist (List.Sublist.map _ (List.filter_sublist _)) h

/-! ## Traces of the retry engine and of the mutation executor -/

theorem apiCalls_append (a b : List Event) : apiCalls (a ++ b) = apiCalls a ++ apiCalls b := by
  induction a with
  | nil => simp [apiCalls]
  | cons e rest ih => cases e <;> simp [apiCalls, ih]

theorem apiCalls_log_sleep {σ : Type} (w : World σ) (s : Sleep) :
    apiCalls (w.log (.sleep s)).trace = apiCalls w.trace := by
  simp [World.log, apiCalls_append, apiCalls]

theorem apiCalls_log_retry {σ : Type} (w : World σ) (ctx : Context) (d : Int) (flags : RetryFlags) :
    apiCalls (w.log (.retry ctx d flags)).trace = apiCalls w.trace := by
  simp [World.log, apiCalls_append, apiCalls]

theorem apiCalls_call {σ : Type} (env : Env σ) (c : Call) (w : World σ) :
    apiCalls (w.call env c).2.trace = apiCalls w.trace ++ [c] := by
  simp [World.call, apiCalls_append, apiCalls]

theorem Ran.refl {σ : Type} (P Q : Call → Prop) (w : World σ) : Ran P Q False w w :=
  ⟨[], by simp, by simp, fun h => h.elim⟩

theorem Ran.of_call {σ : Type} (env : Env σ) (c : Call) (w : World σ) :
    Ran (fun x => x = c) (fun x => x = c) True w (w.call env c).2 :=
  ⟨[c], apiCalls_call env c w, by simp, fun _ => ⟨c, by simp, rfl⟩⟩

theorem Ran.mono {σ : Type} {P Q R S : Call → Prop} {ok ok1 : Prop} {w w1 : World σ}
    (h : Ran P Q ok w w1) (hP : ∀ c, P c → R c) (hQ : ∀ c, Q c → S c) (hok : ok1 → ok) :
    Ran R S ok1 w w1 := by
  obtain ⟨cs, h1, h2, h3⟩ := h
  exact ⟨cs, h1, fun c hc => hP c (h2 c hc), fun ho =>
    let ⟨c, hc, hq⟩ := h3 (hok ho); ⟨c, hc, hQ c hq⟩⟩

theorem Ran.weaken {σ : Type} {P Q : Call → Prop} {ok : Prop} {w w1 : World σ}
    (h : Ran P Q ok w w1) (Q1 : Call → Prop) : Ran P Q1 False w w1 := by
  obtain ⟨cs, h1, h2, -⟩ := h
  exact ⟨cs, h1, h2, fun ho => ho.elim⟩

/-- What was sent stays sent when the run goes on. -/
theorem Ran.then {σ : Type} {P Q Q1 : Call → Prop} {ok ok1 : Prop} {w w1 w2 : World σ}
    (h : Ran P Q ok w w1) (h1 : Ran P Q1 ok1 w1 w2) : Ran P Q ok w w2 := by
  obtain ⟨cs, ha, hb, hc⟩ := h
  obtain ⟨cs1, ha1, hb1, -⟩ := h1
  refine ⟨cs ++ cs1, by rw [ha1, ha, List.append_assoc], ?_, ?_⟩
  · intro c hc1
    rcases List.mem_append.mp hc1 with h | h
    · exact hb c h
    · exact hb1 c h
  · intro ho
    obtain ⟨c, hcm, hq⟩ := hc ho
    exact ⟨c, List.mem_append_left _ hcm, hq⟩

/-- What is sent at the end of a run is sent by the run. -/
theorem Ran.after {σ : Type} {P Q Q1 : Call → Prop} {ok ok1 : Prop} {w w1 w2 : World σ}
    (h : Ran P Q1 ok1 w w1) (h1 : Ran P Q ok w1 w2) : Ran P Q ok w w2 := by
  obtain ⟨cs, ha, hb, -⟩ := h
  obtain ⟨cs1, ha1, hb1, hc1⟩ := h1
  refine ⟨cs ++ cs1, by rw [ha1, ha, List.append_assoc], ?_, ?_⟩
  · intro c hc
    rcases List.mem_append.mp hc with h | h
    · exact hb c h
    · exact hb1 c h
  · intro ho
    obtain ⟨c, hcm, hq⟩ := hc1 ho
    exact ⟨c, List.mem_append_right _ hcm, hq⟩

theorem Ran.log_sleep {σ : Type} {P Q : Call → Prop} {ok : Prop} {w w1 : World σ} (s : Sleep)
    (h : Ran P Q ok w w1) : Ran P Q ok w (w1.log (.sleep s)) := by
  obtain ⟨cs, ha, hb, hc⟩ := h
  exact ⟨cs, by rw [apiCalls_log_sleep, ha], hb, hc⟩

/-- The retry loop sends what its closure sends, and at least one call of the closure
whenever it makes an attempt; it makes one when it ends without error. -/
theorem retryTime_loop_ran {σ ρ : Type} (env : Env σ) (flags : RetryFlags)
    (f : ρ → World σ → Outcome GoError × ρ × World σ) (P Q : Call → Prop)
    (hf : ∀ r w, Ran P Q True w (f r w).2.2) :
    ∀ (n : Nat) (wait : Int) (last : GoError) (r : ρ) (w : World σ),
      Ran P Q ((retryTime.loop env flags f n wait last r w).1 = Outcome.ok) w
        (retryTime.loop env flags f n wait last r w).2.2 := by
  intro n
  induction n with
  | zero =>
    intro wait last r w
    simp only [retryTime.loop]
    exact (Ran.refl P Q w).mono (fun _ h => h) (fun _ h => h) (fun h => by simp at h)
  | succ n ih =>
    intro wait last r w
    rw [retryTime.loop]
    have hfr := hf r w
    split
    · rename_i r1 w1 h
      rw [h] at hfr
      exact hfr.mono (fun _ h => h) (fun _ h => h) (fun _ => trivial)
    · rename_i r1 w1 h
      rw [h] at hfr
      exact hfr.mono (fun _ h => h) (fun _ h => h) (fun _ => trivial)
    · rename_i err r1 w1 h
      rw [h] at hfr
      simp only at hfr
      split
      · exact ((hfr.log_sleep _).then (ih _ _ _ _)).mono (fun _ h => h) (fun _ h => h)
          (fun _ => trivial)
      · exact (hfr.then (ih _ _ _ _)).mono (fun _ h => h) (fun _ h => h) (fun _ => trivial)
      · exact (hfr.log_sleep _).mono (fun _ h => h) (fun _ h => h) (fun _ => trivial)
      · exact hfr.mono (fun _ h => h) (fun _ h => h) (fun _ => trivial)

theorem retryTime_ran {σ ρ : Type} (env : Env σ) (ctx : Context) (flags : RetryFlags)
    (f : ρ → World σ → Outcome GoError × ρ × World σ) (P Q : Call → Prop)
    (hf : ∀ r w, Ran P Q True w (f r w).2.2) (duration : Int) (r : ρ) (w : World σ) :
    Ran P Q ((retryTime env ctx f duration flags r w).1 = Outcome.ok) w
      (retryTime env ctx f duration flags r w).2.2 := by
  have h := retryTime_loop_ran env flags f P Q hf (env.attempts w.remote ctx duration) 1
    (env.timedOut ctx duration) r (w.log (.retry ctx duration flags))
  obtain ⟨cs, ha, hb, hc⟩ := h
  exact ⟨cs, by rw [retryTime, ha, apiCalls_log_retry], hb, hc⟩

theorem deleteMember_ran {σ : Type} (env : Env σ) (ctx : Context) (timeoutDuration : Int)
    (email groupEmail : String) (w : World σ) :
    Ran (fun c => c = .delete groupEmail email) (fun c => c = .delete groupEmail email)
      ((deleteMember env ctx timeoutDuration email groupEmail w).1 = Outcome.ok) w
      (deleteMember env ctx timeoutDuration email groupEmail w).2 := by
  have h := retryTime_ran env ctx ⟨false, false, false⟩ (deleteMember.call env email groupEmail)
    _ _ (fun _ w => Ran.of_call env (.delete groupEmail email) w) timeoutDuration () w
  unfold deleteMember retry
  split
  · rename_i h1; rw [h1] at h; exact h.mono (fun _ h => h) (fun _ h => h) (fun _ => rfl)
  · rename_i h1; rw [h1] at h
    exact h.mono (fun _ h => h) (fun _ h => h) (fun h => by simp at h)
  · rename_i h1; rw [h1] at h
    exact h.mono (fun _ h => h) (fun _ h => h) (fun h => by simp at h)

/-- A retry over a closure that sends the one call `c` each time: only `c` is sent, and it is
sent when the result is no error. The three outcomes are passed on by `wrap`. -/
theorem retry_single_ran {σ : Type} (env : Env σ) (ctx : Context) (flags : RetryFlags) (c : Call)
    (f : Unit → World σ → Outcome GoError × Unit × World σ)
    (hf : ∀ r w, (f r w).2.2 = (w.call env c).2) (duration : Int) (w : World σ) :
    Ran (fun x => x = c) (fun x => x = c)
      ((retryTime env ctx f duration flags () w).1 = Outcome.ok) w
      (retryTime env ctx f duration flags () w).2.2 :=
  retryTime_ran env ctx flags f _ _ (fun r w => by rw [hf]; exact Ran.of_call env c w) duration () w

theorem createGroupMember_ran {σ : Type} (env : Env σ) (ctx : Context) (timeoutDuration : Int)
    (groupMember : Member) (groupEmail : String) (w : World σ) :
    Ran (fun c => c = .insert groupEmail groupMember) (fun c => c = .insert groupEmail groupMember)
      ((createGroupMember env ctx timeoutDuration groupMember groupEmail w).1 = Outcome.ok) w
      (createGroupMember env ctx timeoutDuration groupMember groupEmail w).2 := by
  have h := retry_single_ran env ctx ⟨false, false, false⟩ (.insert groupEmail groupMember)
    (createGroupMember.call env groupMember groupEmail) (fun _ _ => rfl) timeoutDuration w
  unfold createGroupMember retry
  split
  · rename_i h1; rw [h1] at h; exact h.mono (fun _ h => h) (fun _ h => h) (fun _ => rfl)
  · rename_i h1; rw [h1] at h
    exact h.mono (fun _ h => h) (fun _ h => h) (fun h => by simp at h)
  · rename_i h1; rw [h1] at h
    exact h.mono (fun _ h => h) (fun _ h => h) (fun h => by simp at h)

theorem groupInsert_ran {σ : Type} (env : Env σ) (ctx : Context) (timeoutDuration : Int)
    (email groupEmail : String) (groupMember : Member) (w : World σ) :
    Ran (fun c => c = .insert groupEmail groupMember) (fun c => c = .insert groupEmail groupMember)
      ((upsertMember.groupInsert env ctx timeoutDuration email groupEmail groupMember w).1
        = Outcome.ok) w
      (upsertMember.groupInsert env ctx timeoutDuration email groupEmail groupMember w).2 := by
  have h := retry_single_ran env ctx ⟨false, false, false⟩ (.insert groupEmail groupMember)
    (createGroupMember.call env groupMember groupEmail) (fun _ _ => rfl) timeoutDuration w
  unfold upsertMember.groupInsert retry
  split
  · rename_i h1; rw [h1] at h; exact h.mono (fun _ h => h) (fun _ h => h) (fun _ => rfl)
  · rename_i h1; rw [h1] at h
    exact h.mono (fun _ h => h) (fun _ h => h) (fun h => by simp at h)
  · rename_i h1; rw [h1] at h
    exact h.mono (fun _ h => h) (fun _ h => h) (fun h => by simp at h)

theorem update_ran {σ : Type} (env : Env σ) (ctx : Context) (timeoutDuration : Int)
    (email groupEmail : String) (groupMember : Member) (w : World σ) :
    Ran (fun c => c = .update groupEmail email groupMember)
      (fun c => c = .update groupEmail email groupMember)
      ((upsertMember.update env ctx timeoutDuration email groupEmail groupMember w).1
        = Outcome.ok) w
      (upsertMember.update env ctx timeoutDuration email groupEmail groupMember w).2 := by
  have h := retry_single_ran env ctx ⟨true, false, false⟩ (.update groupEmail email groupMember)
    (upsertMember.updateCall env email groupEmail groupMember) (fun _ _ => rfl) timeoutDuration w
  unfold upsertMember.update retryNotFound
  split
  · rename_i h1; rw [h1] at h; exact h.mono (fun _ h => h) (fun _ h => h) (fun _ => rfl)
  · rename_i h1; rw [h1] at h
    exact h.mono (fun _ h => h) (fun _ h => h) (fun h => by simp at h)
  · rename_i h1; rw [h1] at h
    exact h.mono (fun _ h => h) (fun _ h => h) (fun h => by simp at h)

theorem getProbe_world {σ : Type} (env : Env σ) (email groupEmail : String) (flag : Bool)
    (w : World σ) :
    (upsertMember.getProbe env email groupEmail flag w).2.2
      = (w.call env (.get groupEmail email)).2 := by
  unfold upsertMember.getProbe
  split
  · rfl
  · split <;> rfl

theorem hasMemberProbe_world {σ : Type} (env : Env σ) (email groupEmail : String) (flag : Bool)
    (w : World σ) :
    (upsertMember.hasMemberProbe env email groupEmail flag w).2.2
      = (w.call env (.hasMember groupEmail email)).2 := by
  unfold upsertMember.hasMemberProbe
  split
  · rfl
  · rfl
  · split <;> rfl
  · rfl

theorem retry_getProbe_ran [CaseFold] {σ : Type} (env : Env σ) (ctx : Context)
    (email groupEmail role : String) (timeoutDuration : Int) (flag : Bool) (w : World σ) :
    Ran (upsertMember.sends email groupEmail role) (fun _ => True) False w
      (retry env ctx (upsertMember.getProbe env email groupEmail) timeoutDuration flag w).2.2 :=
  (retryTime_ran env ctx ⟨false, false, false⟩ (upsertMember.getProbe env email groupEmail)
    (fun c => c = .get groupEmail email) (fun c => c = .get groupEmail email)
    (fun r w => by rw [getProbe_world]; exact Ran.of_call env _ w) timeoutDuration flag w).mono
    (fun _ h => Or.inl h) (fun _ _ => trivial) (fun h => h.elim)

theorem retry_hasMemberProbe_ran [CaseFold] {σ : Type} (env : Env σ) (ctx : Context)
    (email groupEmail role : String) (timeoutDuration : Int) (flag : Bool) (w : World σ) :
    Ran (upsertMember.sends email groupEmail role) (fun _ => True) False w
      (retry env ctx (upsertMember.hasMemberProbe env email groupEmail) timeoutDuration flag
          w).2.2 :=
  (retryTime_ran env ctx ⟨false, false, false⟩ (upsertMember.hasMemberProbe env email groupEmail)
    (fun c => c = .hasMember groupEmail email) (fun c => c = .hasMember groupEmail email)
    (fun r w => by rw [hasMemberProbe_world]; exact Ran.of_call env _ w)
    timeoutDuration flag w).mono
    (fun _ h => Or.inr (Or.inl h)) (fun _ _ => trivial) (fun h => h.elim)

theorem upsert_insert_ran [CaseFold] {σ : Type} (env : Env σ) (ctx : Context)
    (timeoutDuration : Int) (email groupEmail role : String) (w : World σ) :
    Ran (upsertMember.sends email groupEmail role) (upsertMember.mutates email groupEmail role)
      ((createGroupMember env ctx timeoutDuration ⟨toLower email, toUpper role⟩ groupEmail w).1
        = Outcome.ok) w
      (createGroupMember env ctx timeoutDuration ⟨toLower email, toUpper role⟩ groupEmail w).2 :=
  (createGroupMember_ran env ctx timeoutDuration _ groupEmail w).mono
    (fun _ h => Or.inr (Or.inr (Or.inl h))) (fun _ h => Or.inl h) (fun h => h)

theorem upsert_groupInsert_ran [CaseFold] {σ : Type} (env : Env σ) (ctx : Context)
    (timeoutDuration : Int) (email groupEmail role : String) (w : World σ) :
    Ran (upsertMember.sends email groupEmail role) (upsertMember.mutates email groupEmail role)
      ((upsertMember.groupInsert env ctx timeoutDuration email groupEmail
        ⟨toLower email, toUpper role⟩ w).1 = Outcome.ok) w
      (upsertMember.groupInsert env ctx timeoutDuration email groupEmail
        ⟨toLower email, toUpper role⟩ w).2 :=
  (groupInsert_ran env ctx timeoutDuration email groupEmail _ w).mono
    (fun _ h => Or.inr (Or.inr (Or.inl h))) (fun _ h => Or.inl h) (fun h => h)

theorem upsert_update_ran [CaseFold] {σ : Type} (env : Env σ) (ctx : Context)
    (timeoutDuration : Int) (email groupEmail role : String) (w : World σ) :
    Ran (upsertMember.sends email groupEmail role) (upsertMember.mutates email groupEmail role)
      ((upsertMember.update env ctx timeoutDuration email groupEmail
        ⟨toLower email, toUpper role⟩ w).1 = Outcome.ok) w
      (upsertMember.update env ctx timeoutDuration email groupEmail
        ⟨toLower email, toUpper role⟩ w).2 :=
  (update_ran env ctx timeoutDuration email groupEmail _ w).mono
    (fun _ h => Or.inr (Or.inr (Or.inr h))) (fun _ h => Or.inr h) (fun h => h)

theorem groupBranch_ran [CaseFold] {σ : Type} (env : Env σ) (ctx : Context) (timeoutDuration : Int)
    (email groupEmail role : String) (w : World σ) :
    Ran (upsertMember.sends email groupEmail role) (upsertMember.mutates email groupEmail role)
      ((upsertMember.groupBranch env ctx timeoutDuration email groupEmail role
        ⟨toLower email, toUpper role⟩ w).1 = Outcome.ok) w
      (upsertMember.groupBranch env ctx timeoutDuration email groupEmail role
        ⟨toLower email, toUpper role⟩ w).2 := by
  unfold upsertMember.groupBranch
  split
  · exact (Ran.refl _ _ w).mono (fun _ h => h) (fun _ h => h) (fun h => by simp at h)
  · have hp := retry_getProbe_ran env ctx email groupEmail role timeoutDuration true w
    split
    · rename_i h1; rw [h1] at hp
      exact (hp.weaken _).mono (fun _ h => h) (fun _ h => h) (fun h => by simp at h)
    · rename_i h1; rw [h1] at hp
      exact hp.after (upsert_groupInsert_ran env ctx timeoutDuration email groupEmail role _)
    · rename_i h1; rw [h1] at hp
      exact hp.after (upsert_update_ran env ctx timeoutDuration email groupEmail role _)

theorem userBranch_ran [CaseFold] {σ : Type} (env : Env σ) (ctx : Context) (timeoutDuration : Int)
    (email groupEmail role : String) (w : World σ) :
    Ran (upsertMember.sends email groupEmail role) (upsertMember.mutates email groupEmail role)
      ((upsertMember.userBranch env ctx timeoutDuration email groupEmail
        ⟨toLower email, toUpper role⟩ w).1 = Outcome.ok) w
      (upsertMember.userBranch env ctx timeoutDuration email groupEmail
        ⟨toLower email, toUpper role⟩ w).2 := by
  unfold upsertMember.userBranch
  have hp := retry_hasMemberProbe_ran env ctx email groupEmail role timeoutDuration false w
  split
  · rename_i h1; rw [h1] at hp
    exact (hp.weaken _).mono (fun _ h => h) (fun _ h => h) (fun h => by simp at h)
  · rename_i h1; rw [h1] at hp
    exact hp.after (upsert_insert_ran env ctx timeoutDuration email groupEmail role _)
  · rename_i h1; rw [h1] at hp
    exact hp.after (upsert_update_ran env ctx timeoutDuration email groupEmail role _)
  · rename_i h1; rw [h1] at hp
    exact hp.after (upsert_insert_ran env ctx timeoutDuration email groupEmail role _)

/-- What `upsertMember` sends: only the probes, the insert and the update of its own identity,
and, when it ends without error, the insert or the update. -/
theorem upsertMember_ran [CaseFold] {σ : Type} (env : Env σ) (ctx : Context) (timeoutDuration : Int)
    (email groupEmail role : String) (w : World σ) :
    Ran (upsertMember.sends email groupEmail role) (upsertMember.mutates email groupEmail role)
      ((upsertMember env ctx timeoutDuration email groupEmail role w).1 = Outcome.ok) w
      (upsertMember env ctx timeoutDuration email groupEmail role w).2 := by
  unfold upsertMember
  have hp := retry_getProbe_ran env ctx email groupEmail role timeoutDuration true w
  split
  · rename_i h1; rw [h1] at hp
    exact (hp.weaken _).mono (fun _ h => h) (fun _ h => h) (fun h => by simp at h)
  · rename_i h1; rw [h1] at hp
    exact hp.after (groupBranch_ran env ctx timeoutDuration email groupEmail role _)
  · rename_i h1; rw [h1] at hp
    exact hp.after (userBranch_ran env ctx timeoutDuration email groupEmail role _)

/-! ## The two loops of the reconciler -/

theorem patch_ran [CaseFold] {σ : Type} (env : Env σ) (ctx : Context) (timeoutDuration : Int)
    (groupId : String) (cfgMember : Member) (cfgRole : String) (w : World σ) :
    Ran (fun c => c = .patch (toLower groupId) (toLower cfgMember.email) ⟨"", cfgRole⟩)
      (fun c => c = .patch (toLower groupId) (toLower cfgMember.email) ⟨"", cfgRole⟩)
      ((retryNotFound env ctx (reconcileMembers.patchCall env groupId cfgMember cfgRole)
        timeoutDuration () w).1 = Outcome.ok) w
      (retryNotFound env ctx (reconcileMembers.patchCall env groupId cfgMember cfgRole)
        timeoutDuration () w).2.2 :=
  retry_single_ran env ctx ⟨true, false, false⟩ _
    (reconcileMembers.patchCall env groupId cfgMember cfgRole) (fun _ _ => rfl) timeoutDuration w

/-- The body of the first loop sends only the call of its entry, sends it when it goes on and
has one to send, and takes the key out of `cfgMap` when it goes on. -/
theorem apiBody_spec [CaseFold] {σ : Type} (env : Env σ) (ctx : Context) (timeouts : Timeouts)
    (groupId gid : String) (k : String) (apiMember : Member) (cfgMap : MemberMap) (w : World σ) :
    Ran (reconcileMembers.apiStep cfgMap groupId gid k apiMember)
        (reconcileMembers.apiStep cfgMap groupId gid k apiMember)
        ((reconcileMembers.apiBody env ctx timeouts groupId gid k apiMember cfgMap w).1 = Outcome.ok
          ∧ reconcileMembers.apiNeeds cfgMap k apiMember) w
        (reconcileMembers.apiBody env ctx timeouts groupId gid k apiMember cfgMap w).2.2 ∧
      ((reconcileMembers.apiBody env ctx timeouts groupId gid k apiMember cfgMap w).1 = Outcome.ok →
        (reconcileMembers.apiBody env ctx timeouts groupId gid k apiMember cfgMap w).2.1
          = mapDelete k cfgMap) := by
  unfold reconcileMembers.apiBody
  split
  · rename_i hget
    have hd := (deleteMember_ran env ctx timeouts.delete k gid w).mono
      (R := reconcileMembers.apiStep cfgMap groupId gid k apiMember)
      (S := reconcileMembers.apiStep cfgMap groupId gid k apiMember)
      (fun c h => Or.inl ⟨hget, h⟩) (fun c h => Or.inl ⟨hget, h⟩) (fun h => h)
    split
    · rename_i h1; rw [h1] at hd
      exact ⟨hd.mono (fun _ h => h) (fun _ h => h) (fun _ => rfl),
        fun _ => (mapDelete_of_absent k cfgMap hget).symm⟩
    · rename_i h1; rw [h1] at hd
      exact ⟨(hd.weaken _).mono (fun _ h => h) (fun _ h => h) (fun h => by simp at h),
        fun h => by simp at h⟩
    · rename_i h1; rw [h1] at hd
      exact ⟨(hd.weaken _).mono (fun _ h => h) (fun _ h => h) (fun h => by simp at h),
        fun h => by simp at h⟩
  · rename_i cfgMember hget
    split
    · rename_i hrole
      have hp := (patch_ran env ctx timeouts.update groupId cfgMember (toUpper cfgMember.role)
          w).mono
        (R := reconcileMembers.apiStep cfgMap groupId gid k apiMember)
        (S := reconcileMembers.apiStep cfgMap groupId gid k apiMember)
        (fun c h => Or.inr ⟨cfgMember, hget, hrole, h⟩)
        (fun c h => Or.inr ⟨cfgMember, hget, hrole, h⟩) (fun h => h)
      split
      · rename_i h1; rw [h1] at hp
        exact ⟨hp.mono (fun _ h => h) (fun _ h => h) (fun _ => rfl), fun _ => rfl⟩
      · rename_i h1; rw [h1] at hp
        exact ⟨(hp.weaken _).mono (fun _ h => h) (fun _ h => h) (fun h => by simp at h),
          fun h => by simp at h⟩
      · rename_i h1; rw [h1] at hp
        exact ⟨(hp.weaken _).mono (fun _ h => h) (fun _ h => h) (fun h => by simp at h),
          fun h => by simp at h⟩
    · rename_i hrole
      refine ⟨(Ran.refl _ _ w).mono (fun _ h => h) (fun _ h => h) ?_, fun _ => rfl⟩
      rintro ⟨-, hn | ⟨cm, hcm, hne⟩⟩
      · rw [hget] at hn; exact Option.noConfusion hn
      · rw [hget] at hcm
        simp only [Option.some.injEq] at hcm
        subst hcm
        exact hrole hne

theorem apiStep_mapDelete [CaseFold] (cfgMap : MemberMap) (groupId gid k k1 : String) (a : Member)
    (c : Call) (hk : k1 ≠ k) :
    reconcileMembers.apiStep (mapDelete k cfgMap) groupId gid k1 a c ↔
      reconcileMembers.apiStep cfgMap groupId gid k1 a c := by
  simp only [reconcileMembers.apiStep, mapGet_mapDelete, if_neg hk]

theorem apiNeeds_mapDelete [CaseFold] (cfgMap : MemberMap) (k k1 : String) (a : Member)
    (hk : k1 ≠ k) :
    reconcileMembers.apiNeeds (mapDelete k cfgMap) k1 a ↔
      reconcileMembers.apiNeeds cfgMap k1 a := by
  simp only [reconcileMembers.apiNeeds, mapGet_mapDelete, if_neg hk]

/-- The first loop sends, for entries of `apiMap`, only the call of the entry; when it ends
without error it has sent the call of every entry that has one, and `cfgMap` has lost the
keys of `apiMap`. -/
theorem apiLoop_spec [CaseFold] {σ : Type} (env : Env σ) (ctx : Context) (timeouts : Timeouts)
    (groupId gid : String) :
    ∀ (entries cfgMap : MemberMap) (w : World σ), (entries.map Prod.fst).Nodup →
      ∃ cs,
        apiCalls (reconcileMembers.apiLoop env ctx timeouts groupId gid entries cfgMap w).2.2.trace
          = apiCalls w.trace ++ cs ∧
        (∀ c ∈ cs, ∃ k a, (k, a) ∈ entries ∧ reconcileMembers.apiStep cfgMap groupId gid k a c) ∧
        ((reconcileMembers.apiLoop env ctx timeouts groupId gid entries cfgMap w).1 = Outcome.ok →
          (reconcileMembers.apiLoop env ctx timeouts groupId gid entries cfgMap w).2.1
              = removeKeys entries cfgMap ∧
            ∀ k a, (k, a) ∈ entries → reconcileMembers.apiNeeds cfgMap k a →
              ∃ c ∈ cs, reconcileMembers.apiStep cfgMap groupId gid k a c) := by
  intro entries
  induction entries with
  | nil =>
    intro cfgMap w _
    exact ⟨[], by simp [reconcileMembers.apiLoop], by simp,
      fun _ => ⟨rfl, fun k a h => by simp at h⟩⟩
  | cons e rest ih =>
    intro cfgMap w hnd
    obtain ⟨k, a⟩ := e
    simp only [List.map_cons, List.nodup_cons] at hnd
    obtain ⟨hk, hrest⟩ := hnd
    have hne : ∀ k1 a1, (k1, a1) ∈ rest → k1 ≠ k := fun k1 a1 h1 h2 =>
      hk (h2 ▸ List.mem_map_of_mem Prod.fst h1)
    obtain ⟨⟨cs0, hc0, hs0, hq0⟩, hmap⟩ := apiBody_spec env ctx timeouts groupId gid k a cfgMap w
    rw [reconcileMembers.apiLoop]
    split
    · rename_i cfgMap1 w1 hb
      rw [hb] at hc0 hq0 hmap
      simp only at hc0 hq0 hmap
      have hcfg : cfgMap1 = mapDelete k cfgMap := hmap trivial
      subst hcfg
      obtain ⟨cs1, hc1, hs1, hq1⟩ := ih (mapDelete k cfgMap) w1 hrest
      refine ⟨cs0 ++ cs1, by rw [hc1, hc0, List.append_assoc], ?_, ?_⟩
      · intro c hc
        rcases List.mem_append.mp hc with h | h
        · exact ⟨k, a, List.mem_cons_self _ _, hs0 c h⟩
        · obtain ⟨k1, a1, hm, hst⟩ := hs1 c h
          exact ⟨k1, a1, List.mem_cons_of_mem _ hm,
            (apiStep_mapDelete cfgMap groupId gid k k1 a1 c (hne k1 a1 hm)).mp hst⟩
      · intro hok
        obtain ⟨hfin, hall⟩ := hq1 hok
        refine ⟨by rw [hfin]; rfl, ?_⟩
        intro k1 a1 hm hneed
        rcases List.mem_cons.mp hm with h | h
        · simp only [Prod.mk.injEq] at h
          obtain ⟨rfl, rfl⟩ := h
          obtain ⟨c, hc, hst⟩ := hq0 ⟨trivial, hneed⟩
          exact ⟨c, List.mem_append_left _ hc, hst⟩
        · obtain ⟨c, hc, hst⟩ := hall k1 a1 h
            ((apiNeeds_mapDelete cfgMap k k1 a1 (hne k1 a1 h)).mpr hneed)
          exact ⟨c, List.mem_append_right _ hc,
            (apiStep_mapDelete cfgMap groupId gid k k1 a1 c (hne k1 a1 h)).mp hst⟩
    · rename_i msg cfgMap1 w1 hb
      rw [hb] at hc0
      exact ⟨cs0, hc0, fun c h => ⟨k, a, List.mem_cons_self _ _, hs0 c h⟩,
        fun h => by simp at h⟩
    · rename_i cfgMap1 w1 hb
      rw [hb] at hc0
      exact ⟨cs0, hc0, fun c h => ⟨k, a, List.mem_cons_self _ _, hs0 c h⟩,
        fun h => by simp at h⟩

/-- The second loop sends, for entries of what is left of `cfgMap`, only calls of
`upsertMember` for the entry; when it ends without error it has sent an insert or an update
for every entry. -/
theorem upsertLoop_spec [CaseFold] {σ : Type} (env : Env σ) (ctx : Context) (timeouts : Timeouts)
    (gid : String) :
    ∀ (entries : MemberMap) (w : World σ),
      ∃ cs,
        apiCalls (reconcileMembers.upsertLoop env ctx timeouts gid entries w).2.trace
          = apiCalls w.trace ++ cs ∧
        (∀ c ∈ cs, ∃ k v, (k, v) ∈ entries ∧ upsertMember.sends k gid v.role c) ∧
        ((reconcileMembers.upsertLoop env ctx timeouts gid entries w).1 = Outcome.ok →
          ∀ k v, (k, v) ∈ entries → ∃ c ∈ cs, upsertMember.mutates k gid v.role c) := by
  intro entries
  induction entries with
  | nil =>
    intro w
    exact ⟨[], by simp [reconcileMembers.upsertLoop], by simp, fun _ k v h => by simp at h⟩
  | cons e rest ih =>
    intro w
    obtain ⟨k, v⟩ := e
    obtain ⟨cs0, hc0, hs0, hq0⟩ := upsertMember_ran env ctx timeouts.update k gid v.role w
    rw [reconcileMembers.upsertLoop]
    split
    · rename_i w1 hb
      rw [hb] at hc0 hq0
      simp only at hc0 hq0
      obtain ⟨cs1, hc1, hs1, hq1⟩ := ih w1
      refine ⟨cs0 ++ cs1, by rw [hc1, hc0, List.append_assoc], ?_, ?_⟩
      · intro c hc
        rcases List.mem_append.mp hc with h | h
        · exact ⟨k, v, List.mem_cons_self _ _, hs0 c h⟩
        · obtain ⟨k1, v1, hm, hst⟩ := hs1 c h
          exact ⟨k1, v1, List.mem_cons_of_mem _ hm, hst⟩
      · intro hok k1 v1 hm
        rcases List.mem_cons.mp hm with h | h
        · simp only [Prod.mk.injEq] at h
          obtain ⟨rfl, rfl⟩ := h
          obtain ⟨c, hc, hst⟩ := hq0 trivial
          exact ⟨c, List.mem_append_left _ hc, hst⟩
        · obtain ⟨c, hc, hst⟩ := hq1 hok k1 v1 h
          exact ⟨c, List.mem_append_right _ hc, hst⟩
    · rename_i msg w1 hb
      rw [hb] at hc0
      exact ⟨cs0, hc0, fun c h => ⟨k, v, List.mem_cons_self _ _, hs0 c h⟩,
        fun h => by simp at h⟩
    · rename_i w1 hb
      rw [hb] at hc0
      exact ⟨cs0, hc0, fun c h => ⟨k, v, List.mem_cons_self _ _, hs0 c h⟩,
        fun h => by simp at h⟩

/-! ## The reconciler -/

theorem mapGet_removeKeys (entries : MemberMap) :
    ∀ (cfgMap : MemberMap) (k : String),
      mapGet (removeKeys entries cfgMap) k =
        if k ∈ entries.map Prod.fst then none else mapGet cfgMap k := by
  induction entries with
  | nil => intro cfgMap k; simp [removeKeys]
  | cons e rest ih =>
    intro cfgMap k
    have h := ih (mapDelete e.1 cfgMap) k
    simp only [removeKeys, List.foldl_cons] at h ⊢
    rw [h, mapGet_mapDelete]
    by_cases h1 : k = e.1
    · simp [h1]
    · by_cases h2 : k ∈ rest.map Prod.fst
      · simp [h2]
      · simp [h1, h2]

theorem removeKeys_nodup (entries : MemberMap) :
    ∀ (cfgMap : MemberMap), (cfgMap.map Prod.fst).Nodup →
      ((removeKeys entries cfgMap).map Prod.fst).Nodup := by
  induction entries with
  | nil => intro cfgMap h; simpa [removeKeys] using h
  | cons e rest ih =>
    intro cfgMap h
    have := ih (mapDelete e.1 cfgMap) (mapDelete_nodup _ _ h)
    simpa [removeKeys] using this

theorem roleIn_eq_none [CaseFold] (members : List Member) (k : String) :
    roleIn members k = none ↔ mapGet (reconcileMembers.m members) k = none := by
  simp [roleIn]

theorem roleIn_of_mapGet [CaseFold] (members : List Member) (k : String) (v : Member)
    (h : mapGet (reconcileMembers.m members) k = some v) :
    roleIn members k = some (toUpper v.role) := by
  simp [roleIn, h]

theorem mapGet_of_roleIn [CaseFold] (members : List Member) (k r : String)
    (h : roleIn members k = some r) :
    ∃ v, mapGet (reconcileMembers.m members) k = some v ∧ toUpper v.role = r := by
  simp only [roleIn, Option.map_eq_some'] at h
  exact h

/-- A call of the first loop for an entry of `apiMap` follows the rules of the reconciler. -/
theorem apiStep_planned [CaseFold] (desired actual : List Member) (groupId gid k : String)
    (a : Member) (c : Call) (ha : mapGet (reconcileMembers.m actual) k = some a)
    (h : reconcileMembers.apiStep (reconcileMembers.m desired) groupId gid k a c) :
    planOf desired actual c := by
  rcases h with ⟨hnone, rfl⟩ | ⟨cm, hcm, hne, rfl⟩
  · refine ⟨?_, (roleIn_eq_none desired k).mpr hnone⟩
    rw [roleIn_of_mapGet actual k a ha]
    exact Option.some_ne_none _
  · have hk := (m_entry desired k cm hcm).1
    have hlow := (m_entry desired k cm hcm).2
    rw [hk, hlow]
    exact ⟨toUpper cm.role, toUpper a.role, roleIn_of_mapGet desired k cm hcm,
      roleIn_of_mapGet actual k a ha, hne⟩

/-- A call of `upsertMember` for an entry left in `cfgMap` follows the rules of the
reconciler. -/
theorem sends_planned [CaseFold] (desired actual : List Member) (gid k : String) (v : Member)
    (c : Call) (hd : mapGet (reconcileMembers.m desired) k = some v)
    (ha : mapGet (reconcileMembers.m actual) k = none)
    (h : upsertMember.sends k gid v.role c) : planOf desired actual c := by
  have hD : roleIn desired k ≠ none := by
    rw [roleIn_of_mapGet desired k v hd]; exact Option.some_ne_none _
  have hA : roleIn actual k = none := (roleIn_eq_none actual k).mpr ha
  have hlow := (m_entry desired k v hd).2
  rcases h with rfl | rfl | rfl | rfl
  · exact ⟨hD, hA⟩
  · exact ⟨hD, hA⟩
  · simp only [planOf]; rw [hlow]; exact ⟨hD, hA⟩
  · exact ⟨hD, hA⟩

/-- Every call that one pass of `reconcileMembers` sends follows the three rules of the
reconciler, whatever the directory service answers; and a pass that ends without error has
sent the delete, the patch, and the insert or update of every identity the rules name. -/
theorem reconcileMembers_spec [CaseFold] {σ : Type} (env : Env σ) (ctx : Context) (order : MapOrder)
    (timeouts : Timeouts) (groupId gid : String) (desired actual : List Member) (w : World σ) :
    ∃ cs,
      apiCalls (reconcileMembers env ctx order timeouts groupId desired actual gid w).2.trace
        = apiCalls w.trace ++ cs ∧
      (∀ c ∈ cs, planOf desired actual c) ∧
      ((reconcileMembers env ctx order timeouts groupId desired actual gid w).1 = Outcome.ok →
        (∀ k, roleIn actual k ≠ none → roleIn desired k = none → ∃ g, Call.delete g k ∈ cs) ∧
        (∀ k rd ra, roleIn desired k = some rd → roleIn actual k = some ra → rd ≠ ra →
          ∃ g member, Call.patch g k member ∈ cs) ∧
        (∀ k, roleIn desired k ≠ none → roleIn actual k = none →
          (∃ g member, Call.insert g member ∈ cs ∧ member.email = k) ∨
            ∃ g member, Call.update g k member ∈ cs)) := by
  have hperm := order.perm (reconcileMembers.m actual)
  have hnd : ((order.range (reconcileMembers.m actual)).map Prod.fst).Nodup :=
    (hperm.map Prod.fst).nodup_iff.mpr (m_nodup actual)
  have hmem : ∀ k a, (k, a) ∈ order.range (reconcileMembers.m actual) ↔
      mapGet (reconcileMembers.m actual) k = some a := fun k a =>
    (hperm.mem_iff).trans (mapGet_eq_some_iff _ (m_nodup actual) k a).symm
  have hkeys : ∀ k, k ∈ (order.range (reconcileMembers.m actual)).map Prod.fst ↔
      mapGet (reconcileMembers.m actual) k ≠ none := fun k => by
    rw [Ne, mapGet_eq_none_iff, not_not]
    exact (hperm.map Prod.fst).mem_iff
  obtain ⟨cs1, hc1, hs1, hq1⟩ := apiLoop_spec env ctx timeouts groupId gid
    (order.range (reconcileMembers.m actual)) (reconcileMembers.m desired) w hnd
  have hsound1 : ∀ c ∈ cs1, planOf desired actual c := fun c hc => by
    obtain ⟨k, a, hm, hst⟩ := hs1 c hc
    exact apiStep_planned desired actual groupId gid k a c ((hmem k a).mp hm) hst
  unfold reconcileMembers
  split
  · rename_i cfgMap w1 hres
    rw [hres] at hc1 hq1
    simp only at hc1 hq1
    obtain ⟨hcfg, hall⟩ := hq1 trivial
    subst hcfg
    have hnd2 := removeKeys_nodup (order.range (reconcileMembers.m actual))
      (reconcileMembers.m desired) (m_nodup desired)
    have hperm2 := order.perm
      (removeKeys (order.range (reconcileMembers.m actual)) (reconcileMembers.m desired))
    have hmem2 : ∀ k v, (k, v) ∈ order.range
          (removeKeys (order.range (reconcileMembers.m actual)) (reconcileMembers.m desired)) ↔
        (mapGet (reconcileMembers.m actual) k = none ∧
          mapGet (reconcileMembers.m desired) k = some v) := fun k v => by
      rw [hperm2.mem_iff, ← mapGet_eq_some_iff _ hnd2, mapGet_removeKeys]
      by_cases hk : k ∈ (order.range (reconcileMembers.m actual)).map Prod.fst
      · have := (hkeys k).mp hk
        simp [hk, this]
      · have : mapGet (reconcileMembers.m actual) k = none := by
          by_contra hcon; exact hk ((hkeys k).mpr hcon)
        simp [hk, this]
    obtain ⟨cs2, hc2, hs2, hq2⟩ := upsertLoop_spec env ctx timeouts gid
      (order.range
        (removeKeys (order.range (reconcileMembers.m actual)) (reconcileMembers.m desired))) w1
    refine ⟨cs1 ++ cs2, by rw [hc2, hc1, List.append_assoc], ?_, ?_⟩
    · intro c hc
      rcases List.mem_append.mp hc with h | h
      · exact hsound1 c h
      · obtain ⟨k, v, hm, hst⟩ := hs2 c h
        obtain ⟨ha, hd⟩ := (hmem2 k v).mp hm
        exact sends_planned desired actual gid k v c hd ha hst
    · intro hok
      refine ⟨?_, ?_, ?_⟩
      · intro k hA hD
        obtain ⟨a, ha⟩ := Option.ne_none_iff_exists'.mp
          (fun h => hA ((roleIn_eq_none actual k).mpr h))
        have hDn := (roleIn_eq_none desired k).mp hD
        obtain ⟨c, hc, hst⟩ := hall k a ((hmem k a).mpr ha) (Or.inl hDn)
        rcases hst with ⟨-, rfl⟩ | ⟨cm, hcm, -, -⟩
        · exact ⟨gid, List.mem_append_left _ hc⟩
        · rw [hDn] at hcm; exact Option.noConfusion hcm
      · intro k rd ra hD hA hne
        obtain ⟨v, hv, hvr⟩ := mapGet_of_roleIn desired k rd hD
        obtain ⟨a, ha, har⟩ := mapGet_of_roleIn actual k ra hA
        obtain ⟨c, hc, hst⟩ := hall k a ((hmem k a).mpr ha)
          (Or.inr ⟨v, hv, by rw [hvr, har]; exact hne⟩)
        rcases hst with ⟨hn, -⟩ | ⟨cm, hcm, -, rfl⟩
        · rw [hv] at hn; exact Option.noConfusion hn
        · have hk := (m_entry desired k cm hcm).1
          have hlow := (m_entry desired k cm hcm).2
          rw [hk, hlow] at hc
          exact ⟨_, _, List.mem_append_left _ hc⟩
      · intro k hD hA
        obtain ⟨v, hv⟩ := Option.ne_none_iff_exists'.mp
          (fun h => hD ((roleIn_eq_none desired k).mpr h))
        have hAn := (roleIn_eq_none actual k).mp hA
        obtain ⟨c, hc, hst⟩ := hq2 hok k v ((hmem2 k v).mpr ⟨hAn, hv⟩)
        have hlow := (m_entry desired k v hv).2
        rcases hst with rfl | rfl
        · exact Or.inl ⟨_, _, List.mem_append_right _ hc, hlow⟩
        · exact Or.inr ⟨_, _, List.mem_append_right _ hc⟩
  · rename_i msg cfgMap w1 hres
    rw [hres] at hc1
    exact ⟨cs1, hc1, hsound1, fun h => by simp at h⟩
  · rename_i cfgMap w1 hres
    rw [hres] at hc1
    exact ⟨cs1, hc1, hsound1, fun h => by simp at h⟩

/-! ## The claims about the reconciler -/

/-- C1, counterexample: on a directory service where every remote call succeeds, with desired
`a@x.com: OWNER, b@x.com: MEMBER` and nothing actual, the probe of `a@x.com` succeeds, so it is
taken for a nested group and refused for its role; the pass ends there and nothing is sent for
`b@x.com`, which is present in desired and absent from actual. -/
theorem reconcileMembers_stops_though_calls_succeed :
    (∀ c, (alwaysOkEnv.respond () c).1.err = none) ∧
      apiCalls (reconcileMembers alwaysOkEnv Context.background MapOrder.asListed ⟨1200, 1200⟩
          "g@x.com"
          [⟨"a@x.com", "OWNER"⟩, ⟨"b@x.com", "MEMBER"⟩] [] "g@x.com" ⟨(), []⟩).2.trace
        = [Call.get "g@x.com" "a@x.com"] ∧
      roleIn [⟨"a@x.com", "OWNER"⟩, ⟨"b@x.com", "MEMBER"⟩] "b@x.com" = some "MEMBER" ∧
      roleIn [] "b@x.com" = none :=
  ⟨fun _ => rfl, by decide, by decide, by decide⟩

/-- C1, amended: for every desired and every actual member list, when `reconcileMembers` ends
without error, the calls of the pass delete exactly the lower-cased identities present in
actual and absent from desired, patch the role of exactly the identities present in both whose
upper-cased roles differ, and insert or update exactly the lower-cased identities present in
desired and absent from actual. Lower and upper case are those of `strings.ToLower` and
`strings.ToUpper`, of which only idempotence is used (`CaseFold`): the statement holds for the
Unicode mappings of Go. -/
theorem reconcileMembers_issues_exactly_the_plan [CaseFold] {σ : Type} (env : Env σ)
    (ctx : Context) (order : MapOrder) (timeouts : Timeouts) (groupId gid : String)
    (desired actual : List Member) (s : σ)
    (hok : (reconcileMembers env ctx order timeouts groupId desired actual gid ⟨s, []⟩).1
      = Outcome.ok) (k : String) :
    (deletedIn (reconcileMembers env ctx order timeouts groupId desired actual gid
          ⟨s, []⟩).2.trace k
        ↔ roleIn actual k ≠ none ∧ roleIn desired k = none) ∧
      (patchedIn (reconcileMembers env ctx order timeouts groupId desired actual gid
          ⟨s, []⟩).2.trace k
        ↔ ∃ rd ra, roleIn desired k = some rd ∧ roleIn actual k = some ra ∧ rd ≠ ra) ∧
      (upsertedIn (reconcileMembers env ctx order timeouts groupId desired actual gid
          ⟨s, []⟩).2.trace k
        ↔ roleIn desired k ≠ none ∧ roleIn actual k = none) := by
  obtain ⟨cs, hcs, hsound, hcomplete⟩ :=
    reconcileMembers_spec env ctx order timeouts groupId gid desired actual ⟨s, []⟩
  simp only [apiCalls, List.nil_append] at hcs
  obtain ⟨hdel, hpatch, hups⟩ := hcomplete hok
  simp only [deletedIn, patchedIn, upsertedIn, hcs]
  refine ⟨⟨?_, fun h => hdel k h.1 h.2⟩, ⟨?_, fun ⟨rd, ra, h1, h2, h3⟩ => hpatch k rd ra h1 h2 h3⟩,
    ⟨?_, fun h => hups k h.1 h.2⟩⟩
  · rintro ⟨g, hc⟩
    exact hsound _ hc
  · rintro ⟨g, member, hc⟩
    exact hsound _ hc
  · rintro (⟨g, member, hc, rfl⟩ | ⟨g, member, hc⟩)
    · exact hsound _ hc
    · exact hsound _ hc

/-- C1, witness: the end-to-end scenario of the specification. -/
theorem reconcileMembers_issues_exactly_the_plan_witness :
    (reconcileMembers (directoryEnv (fun _ => false) 0 1) Context.background MapOrder.asListed
        ⟨1200, 1200⟩
        "g@x.com" [⟨"a@x.com", "MEMBER"⟩, ⟨"b@x.com", "OWNER"⟩]
        [⟨"b@x.com", "MEMBER"⟩, ⟨"c@x.com", "MEMBER"⟩] "g@x.com"
        ⟨[⟨"b@x.com", "MEMBER"⟩, ⟨"c@x.com", "MEMBER"⟩], []⟩).1 = Outcome.ok ∧
      upsertedIn (reconcileMembers (directoryEnv (fun _ => false) 0 1) Context.background
          MapOrder.asListed
        ⟨1200, 1200⟩ "g@x.com" [⟨"a@x.com", "MEMBER"⟩, ⟨"b@x.com", "OWNER"⟩]
        [⟨"b@x.com", "MEMBER"⟩, ⟨"c@x.com", "MEMBER"⟩] "g@x.com"
        ⟨[⟨"b@x.com", "MEMBER"⟩, ⟨"c@x.com", "MEMBER"⟩], []⟩).2.trace "a@x.com" :=
  ⟨by decide,
    ((reconcileMembers_issues_exactly_the_plan (directoryEnv (fun _ => false) 0 1)
        Context.background
      MapOrder.asListed ⟨1200, 1200⟩ "g@x.com" "g@x.com"
      [⟨"a@x.com", "MEMBER"⟩, ⟨"b@x.com", "OWNER"⟩]
      [⟨"b@x.com", "MEMBER"⟩, ⟨"c@x.com", "MEMBER"⟩]
      [⟨"b@x.com", "MEMBER"⟩, ⟨"c@x.com", "MEMBER"⟩] (by decide) "a@x.com").2.2).mpr
      ⟨by decide, by decide⟩⟩

/-- C4: within one pass of `reconcileMembers`, whatever the directory service answers, no
identity is both deleted and patched, none is both deleted and handled by `upsertMember`, none
is both patched and handled by `upsertMember`; and an identity present on both sides under the
same role, letter case apart, is the target of no call at all. Letter case is that of
`strings.ToLower` and `strings.ToUpper`, of which only idempotence is used (`CaseFold`): the
statement holds for the Unicode mappings of Go. -/
theorem reconcileMembers_buckets_disjoint [CaseFold] {σ : Type} (env : Env σ) (ctx : Context)
    (order : MapOrder)
    (timeouts : Timeouts) (groupId gid : String) (desired actual : List Member) (s : σ)
    (k : String) :
    ¬ (deletedIn (reconcileMembers env ctx order timeouts groupId desired actual gid
        ⟨s, []⟩).2.trace k
        ∧ patchedIn
          (reconcileMembers env ctx order timeouts groupId desired actual gid ⟨s, []⟩).2.trace k) ∧
      ¬ (deletedIn
          (reconcileMembers env ctx order timeouts groupId desired actual gid ⟨s, []⟩).2.trace k
        ∧ upsertCallIn
          (reconcileMembers env ctx order timeouts groupId desired actual gid ⟨s, []⟩).2.trace k) ∧
      ¬ (patchedIn
          (reconcileMembers env ctx order timeouts groupId desired actual gid ⟨s, []⟩).2.trace k
        ∧ upsertCallIn
          (reconcileMembers env ctx order timeouts groupId desired actual gid ⟨s, []⟩).2.trace k) ∧
      ((∃ r, roleIn desired k = some r ∧ roleIn actual k = some r) →
        ∀ c ∈ apiCalls
            (reconcileMembers env ctx order timeouts groupId desired actual gid ⟨s, []⟩).2.trace,
          c.target ≠ k) := by
  obtain ⟨cs, hcs, hsound, -⟩ :=
    reconcileMembers_spec env ctx order timeouts groupId gid desired actual ⟨s, []⟩
  simp only [apiCalls, List.nil_append] at hcs
  simp only [deletedIn, patchedIn, upsertCallIn, hcs]
  have hup : ∀ c ∈ cs, c.isUpsert = true → c.target = k →
      roleIn desired k ≠ none ∧ roleIn actual k = none := by
    intro c hc hu ht
    have hp := hsound c hc
    cases c <;> simp only [Call.isUpsert, Call.target] at hu ht <;> subst ht <;>
      first | exact hp | exact absurd hu (by decide)
  refine ⟨?_, ?_, ?_, ?_⟩
  · rintro ⟨⟨g, hd⟩, ⟨g1, member, hp⟩⟩
    obtain ⟨-, hD⟩ := hsound _ hd
    obtain ⟨rd, ra, hrd, -, -⟩ := hsound _ hp
    rw [hD] at hrd; exact Option.noConfusion hrd
  · rintro ⟨⟨g, hd⟩, ⟨c, hc, hu, ht⟩⟩
    obtain ⟨-, hD⟩ := hsound _ hd
    exact (hup c hc hu ht).1 hD
  · rintro ⟨⟨g, member, hp⟩, ⟨c, hc, hu, ht⟩⟩
    obtain ⟨rd, ra, -, hra, -⟩ := hsound _ hp
    rw [(hup c hc hu ht).2] at hra; exact Option.noConfusion hra
  · rintro ⟨r, hD, hA⟩ c hc ht
    have hp := hsound c hc
    cases c <;> simp only [Call.target] at ht <;> subst ht
    · exact Option.noConfusion (hp.2.symm.trans hA)
    · exact Option.noConfusion (hp.2.symm.trans hA)
    · exact Option.noConfusion (hp.2.symm.trans hA)
    · exact Option.noConfusion (hp.2.symm.trans hA)
    · obtain ⟨rd, ra, hrd, hra, hne⟩ := hp
      rw [hD] at hrd; rw [hA] at hra
      simp only [Option.some.injEq] at hrd hra
      exact hne (hrd.symm.trans hra)
    · exact Option.noConfusion (hp.2.symm.trans hD)

/-! ## A pass on equal memberships -/

theorem apiBody_noop [CaseFold] {σ : Type} (env : Env σ) (ctx : Context) (timeouts : Timeouts)
    (groupId gid : String) (k : String) (a cm : Member) (cfgMap : MemberMap) (w : World σ)
    (hget : mapGet cfgMap k = some cm) (hrole : toUpper cm.role = toUpper a.role) :
    reconcileMembers.apiBody env ctx timeouts groupId gid k a cfgMap w
      = (Outcome.ok, mapDelete k cfgMap, w) := by
  simp [reconcileMembers.apiBody, hget, hrole]

theorem apiLoop_noop [CaseFold] {σ : Type} (env : Env σ) (ctx : Context) (timeouts : Timeouts)
    (groupId gid : String) :
    ∀ (entries cfgMap : MemberMap) (w : World σ), (entries.map Prod.fst).Nodup →
      (∀ k a, (k, a) ∈ entries →
        ∃ cm, mapGet cfgMap k = some cm ∧ toUpper cm.role = toUpper a.role) →
      reconcileMembers.apiLoop env ctx timeouts groupId gid entries cfgMap w
        = (Outcome.ok, removeKeys entries cfgMap, w) := by
  intro entries
  induction entries with
  | nil => intro cfgMap w _ _; rfl
  | cons e rest ih =>
    intro cfgMap w hnd hall
    obtain ⟨k, a⟩ := e
    simp only [List.map_cons, List.nodup_cons] at hnd
    obtain ⟨cm, hcm, hrole⟩ := hall k a (List.mem_cons_self _ _)
    rw [reconcileMembers.apiLoop, apiBody_noop env ctx timeouts groupId gid k a cm cfgMap w hcm
        hrole]
    simp only
    rw [ih (mapDelete k cfgMap) w hnd.2]
    · rfl
    · intro k1 a1 h1
      obtain ⟨cm1, hcm1, hrole1⟩ := hall k1 a1 (List.mem_cons_of_mem _ h1)
      have hne : k1 ≠ k := fun h => hnd.1 (h ▸ List.mem_map_of_mem Prod.fst h1)
      exact ⟨cm1, by rw [mapGet_mapDelete, if_neg hne]; exact hcm1, hrole1⟩

theorem eq_nil_of_mapGet_none (sm : MemberMap) (h : ∀ k, mapGet sm k = none) : sm = [] := by
  cases sm with
  | nil => rfl
  | cons e rest =>
    have := h e.1
    simp [mapGet] at this

/-- On two member lists that hold the same identities under the same roles, letter case
apart, `reconcileMembers` ends without error and leaves the world as it found it: it starts
no retry loop and sends no call. -/
theorem reconcileMembers_noop [CaseFold] {σ : Type} (env : Env σ) (ctx : Context) (order : MapOrder)
    (timeouts : Timeouts) (groupId gid : String) (desired actual : List Member) (w : World σ)
    (hsame : sameMembership desired actual) :
    reconcileMembers env ctx order timeouts groupId desired actual gid w = (Outcome.ok, w) := by
  have hperm := order.perm (reconcileMembers.m actual)
  have hnd : ((order.range (reconcileMembers.m actual)).map Prod.fst).Nodup :=
    (hperm.map Prod.fst).nodup_iff.mpr (m_nodup actual)
  have hloop := apiLoop_noop env ctx timeouts groupId gid (order.range (reconcileMembers.m actual))
    (reconcileMembers.m desired) w hnd (by
      intro k a hm
      have ha : mapGet (reconcileMembers.m actual) k = some a :=
        (mapGet_eq_some_iff _ (m_nodup actual) k a).mpr (hperm.mem_iff.mp hm)
      have hr := hsame k
      rw [roleIn_of_mapGet actual k a ha] at hr
      exact mapGet_of_roleIn desired k _ hr)
  have hempty : removeKeys (order.range (reconcileMembers.m actual)) (reconcileMembers.m desired)
      = [] := by
    apply eq_nil_of_mapGet_none
    intro k
    rw [mapGet_removeKeys]
    split
    · rfl
    · rename_i hk
      have ha : mapGet (reconcileMembers.m actual) k = none := by
        rw [mapGet_eq_none_iff]
        exact fun h => hk ((hperm.map Prod.fst).mem_iff.mpr h)
      have hr := hsame k
      rw [(roleIn_eq_none actual k).mpr ha] at hr
      exact (roleIn_eq_none desired k).mp hr
  have hrange : order.range [] = [] := List.Perm.eq_nil (order.perm [])
  unfold reconcileMembers
  rw [hloop]
  simp only [hempty, hrange, reconcileMembers.upsertLoop]

/-- C2: for every desired and actual member list that hold the same identities up to letter
case, each under the same role up to letter case, `reconcileMembers` ends without error in the
world it started from: it issues no delete, no patch, no update, no insert, and indeed no
remote call at all. Letter case is that of `strings.ToLower` and `strings.ToUpper`, of which
only idempotence is used (`CaseFold`): the statement holds for the Unicode mappings of Go. -/
theorem reconcileMembers_equal_sets_no_mutation [CaseFold] {σ : Type} (env : Env σ) (ctx : Context)
    (order : MapOrder)
    (timeouts : Timeouts) (groupId gid : String) (desired actual : List Member) (w : World σ)
    (hsame : sameMembership desired actual) :
    reconcileMembers env ctx order timeouts groupId desired actual gid w = (Outcome.ok, w) :=
  reconcileMembers_noop env ctx order timeouts groupId gid desired actual w hsame

theorem sameMembership_user_x :
    sameMembership [⟨"User@X.com", "member"⟩] [⟨"user@x.com", "MEMBER"⟩] := by
  intro k
  have h1 : reconcileMembers.m [⟨"User@X.com", "member"⟩]
      = [("user@x.com", ⟨"user@x.com", "member"⟩)] := by decide
  have h2 : reconcileMembers.m [⟨"user@x.com", "MEMBER"⟩]
      = [("user@x.com", ⟨"user@x.com", "MEMBER"⟩)] := by decide
  have h3 : toUpper "member" = toUpper "MEMBER" := by decide
  unfold roleIn
  rw [h1, h2]
  simp only [mapGet]
  split <;> simp [h3]

/-- C2, witness: desired `User@X.com` with role "member" against actual `user@x.com` with role
"MEMBER", on a directory service that would let every call through. -/
theorem reconcileMembers_equal_sets_no_mutation_witness :
    sameMembership [⟨"User@X.com", "member"⟩] [⟨"user@x.com", "MEMBER"⟩] ∧
      reconcileMembers alwaysOkEnv Context.background MapOrder.asListed ⟨1200, 1200⟩ "g@x.com"
        [⟨"User@X.com", "member"⟩] [⟨"user@x.com", "MEMBER"⟩] "g@x.com" ⟨(), []⟩
        = (Outcome.ok, ⟨(), []⟩) :=
  ⟨sameMembership_user_x,
    reconcileMembers_equal_sets_no_mutation alwaysOkEnv Context.background MapOrder.asListed
        ⟨1200, 1200⟩ "g@x.com"
      "g@x.com" [⟨"User@X.com", "member"⟩] [⟨"user@x.com", "MEMBER"⟩] ⟨(), []⟩
      sameMembership_user_x⟩

/-! ## The directory service that never fails -/

theorem roleIn_nil [CaseFold] (k : String) : roleIn [] k = none := rfl

theorem roleIn_append [CaseFold] (l : List Member) (x : Member) (k : String) :
    roleIn (l ++ [x]) k = if toLower x.email = k then some (toUpper x.role) else roleIn l k := by
  unfold roleIn
  rw [m_append, mapGet_mapSet]
  split <;> rfl

theorem roleIn_dropMember [CaseFold] (l : List Member) (k0 k : String) :
    roleIn (dropMember l k0) k = if k = toLower k0 then none else roleIn l k := by
  induction l using List.reverseRecOn with
  | nil => simp [dropMember, roleIn_nil]
  | append_singleton l x ih =>
    simp only [dropMember, List.filter_append] at ih ⊢
    by_cases hx : toLower x.email = toLower k0
    · simp only [List.filter_cons, List.filter_nil, hx, ne_eq, not_true_eq_false, decide_False,
        Bool.false_eq_true, if_false, List.append_nil, ih, roleIn_append]
      by_cases hk : k = toLower k0
      · simp [hk]
      · simp [hk, Ne.symm hk]
    · simp only [List.filter_cons, List.filter_nil, ne_eq, hx, not_false_eq_true, decide_True,
        if_true, roleIn_append, ih]
      by_cases hk : toLower x.email = k
      · subst hk; simp [hx]
      · simp [hk]

theorem roleIn_setRole [CaseFold] (l : List Member) (k0 r k : String) :
    roleIn (setRole l k0 r) k =
      if k = toLower k0 then (roleIn l k).map (fun _ => toUpper r) else roleIn l k := by
  induction l using List.reverseRecOn with
  | nil => simp [setRole, roleIn_nil]
  | append_singleton l x ih =>
    simp only [setRole, List.map_append, List.map_cons, List.map_nil] at ih ⊢
    by_cases hx : toLower x.email = toLower k0
    · simp only [hx, if_true, roleIn_append, ih]
      by_cases hk : k = toLower k0
      · simp [hk]
      · simp [hk, Ne.symm hk]
    · simp only [hx, if_false, roleIn_append, ih]
      by_cases hk : toLower x.email = k
      · subst hk; simp [hx]
      · simp [hk]

theorem holdsMember_eq_false [CaseFold] (l : List Member) (k : String) :
    holdsMember l k = false ↔ roleIn l (toLower k) = none := by
  induction l using List.reverseRecOn with
  | nil => simp [holdsMember, roleIn_nil]
  | append_singleton l x ih =>
    simp only [holdsMember, List.any_append, List.any_cons, List.any_nil, Bool.or_false,
      Bool.or_eq_false_iff, decide_eq_false_iff_not] at ih ⊢
    rw [roleIn_append]
    by_cases hx : toLower x.email = toLower k
    · simp [hx]
    · simp only [hx, not_false_eq_true, and_true, if_false]
      exact ih

theorem m_key_mem [CaseFold] (l : List Member) (k : String) (v : Member)
    (h : mapGet (reconcileMembers.m l) k = some v) : ∃ x ∈ l, toLower x.email = k := by
  induction l using List.reverseRecOn with
  | nil => simp [reconcileMembers.m, mapGet] at h
  | append_singleton l x ih =>
    rw [m_append, mapGet_mapSet] at h
    split at h
    · rename_i hk
      exact ⟨x, by simp, hk⟩
    · obtain ⟨y, hy, hyk⟩ := ih h
      exact ⟨y, List.mem_append_left _ hy, hyk⟩

theorem mapGet_perm (l1 l2 : MemberMap) (h : l1.Perm l2) (hnd : (l1.map Prod.fst).Nodup)
    (k : String) : mapGet l1 k = mapGet l2 k := by
  have hnd2 : (l2.map Prod.fst).Nodup := (h.map Prod.fst).nodup_iff.mp hnd
  cases h2 : mapGet l2 k with
  | none =>
    rw [mapGet_eq_none_iff] at h2 ⊢
    exact fun hm => h2 ((h.map Prod.fst).mem_iff.mp hm)
  | some v =>
    rw [mapGet_eq_some_iff _ hnd2] at h2
    rw [mapGet_eq_some_iff _ hnd]
    exact h.mem_iff.mpr h2

/-- A retry whose closure succeeds at once, in an environment that leaves room for an
attempt, is that one execution of the closure. -/
theorem retryTime_first_ok {σ ρ : Type} (env : Env σ) (ctx : Context) (flags : RetryFlags)
    (f : ρ → World σ → Outcome GoError × ρ × World σ) (duration : Int) (r r1 : ρ)
    (w w1 : World σ) (hroom : 1 ≤ env.attempts w.remote ctx duration)
    (hf : f r (w.log (.retry ctx duration flags)) = (Outcome.ok, r1, w1)) :
    retryTime env ctx f duration flags r w = (Outcome.ok, r1, w1) := by
  unfold retryTime
  obtain ⟨n, hn⟩ : ∃ n, env.attempts w.remote ctx duration = n + 1 :=
      ⟨_, (Nat.sub_add_cancel hroom).symm⟩
  rw [hn, retryTime.loop, hf]

theorem deleteMember_directory [CaseFold] (ctx : Context) (isGroupId : String → Bool)
    (draw attempts : Nat) (hroom : 1 ≤ attempts) (timeoutDuration : Int) (email groupEmail : String)
    (w : World (List Member)) :
    (deleteMember (directoryEnv isGroupId draw attempts) ctx timeoutDuration email groupEmail w).1
        = Outcome.ok ∧
      (deleteMember (directoryEnv isGroupId draw attempts) ctx timeoutDuration email groupEmail
        w).2.remote = dropMember w.remote email := by
  unfold deleteMember retry
  rw [retryTime_first_ok (directoryEnv isGroupId draw attempts) ctx _ _ timeoutDuration () ()
    w _ hroom rfl]
  exact ⟨rfl, rfl⟩

theorem patch_directory [CaseFold] (ctx : Context) (isGroupId : String → Bool) (draw attempts : Nat)
    (hroom : 1 ≤ attempts) (timeoutDuration : Int) (groupId : String) (cfgMember : Member)
    (cfgRole : String) (w : World (List Member)) :
    ∃ w1, retryNotFound (directoryEnv isGroupId draw attempts) ctx
        (reconcileMembers.patchCall (directoryEnv isGroupId draw attempts) groupId cfgMember
          cfgRole) timeoutDuration () w = (Outcome.ok, (), w1) ∧
      w1.remote = setRole w.remote (toLower cfgMember.email) cfgRole := by
  unfold retryNotFound
  rw [retryTime_first_ok (directoryEnv isGroupId draw attempts) ctx _ _ timeoutDuration () ()
    w _ hroom rfl]
  exact ⟨_, rfl, rfl⟩

theorem upsertMember_directory [CaseFold] (ctx : Context) (isGroupId : String → Bool)
    (draw attempts : Nat)
    (hroom : 1 ≤ attempts) (timeoutDuration : Int) (email groupEmail role : String)
    (w : World (List Member)) (huser : isGroupId email = false)
    (habsent : holdsMember w.remote email = false) :
    (upsertMember (directoryEnv isGroupId draw attempts) ctx timeoutDuration email groupEmail role
        w).1 = Outcome.ok ∧
      (upsertMember (directoryEnv isGroupId draw attempts) ctx timeoutDuration email groupEmail role
        w).2.remote
        = dropMember w.remote (toLower email) ++ [⟨toLower email, toUpper role⟩] := by
  have hprobe : ∃ w1 : World (List Member), retry (directoryEnv isGroupId draw attempts) ctx
      (upsertMember.getProbe (directoryEnv isGroupId draw attempts) email groupEmail)
      timeoutDuration true w = (Outcome.ok, false, w1) ∧ w1.remote = w.remote := by
    refine ⟨⟨w.remote, w.trace ++ [Event.retry ctx timeoutDuration ⟨false, false, false⟩]
          ++ [Event.api (Call.get groupEmail email)]⟩, ?_, rfl⟩
    unfold retry
    apply retryTime_first_ok _ _ _ _ _ _ _ _ _ hroom
    simp [upsertMember.getProbe, World.call, World.log, directoryEnv, directoryRespond, huser,
      habsent, notFound, GoError.hasCode]
  have hhas : ∀ w1 : World (List Member), w1.remote = w.remote →
      ∃ w2 : World (List Member), retry (directoryEnv isGroupId draw attempts) ctx
        (upsertMember.hasMemberProbe (directoryEnv isGroupId draw attempts) email groupEmail)
        timeoutDuration false w1 = (Outcome.ok, false, w2) ∧ w2.remote = w.remote := by
    intro w1 hw1
    refine ⟨⟨w.remote, w1.trace ++ [Event.retry ctx timeoutDuration ⟨false, false, false⟩]
          ++ [Event.api (Call.hasMember groupEmail email)]⟩, ?_, rfl⟩
    unfold retry
    apply retryTime_first_ok _ _ _ _ _ _ _ _ _ hroom
    simp [upsertMember.hasMemberProbe, World.call, World.log, directoryEnv, directoryRespond,
      hw1, habsent]
  have hins : ∀ w2 : World (List Member), w2.remote = w.remote →
      (createGroupMember (directoryEnv isGroupId draw attempts) ctx timeoutDuration
          ⟨toLower email, toUpper role⟩ groupEmail w2).1 = Outcome.ok ∧
        (createGroupMember (directoryEnv isGroupId draw attempts) ctx timeoutDuration
          ⟨toLower email, toUpper role⟩ groupEmail w2).2.remote
          = dropMember w.remote (toLower email) ++ [⟨toLower email, toUpper role⟩] := by
    intro w2 hw2
    unfold createGroupMember retry
    rw [retryTime_first_ok (directoryEnv isGroupId draw attempts) ctx _ _ timeoutDuration () ()
      w2 _ hroom rfl]
    refine ⟨rfl, ?_⟩
    simp [World.call, World.log, directoryEnv, directoryRespond, hw2]
  obtain ⟨w1, hp1, hr1⟩ := hprobe
  obtain ⟨w2, hp2, hr2⟩ := hhas w1 hr1
  unfold upsertMember
  rw [hp1]
  simp only
  unfold upsertMember.userBranch
  rw [hp2]
  simp only
  exact hins w2 hr2

/-! ## Convergence on the directory service that never fails -/

/-- The body of the first loop on the directory service: it goes on, takes the key out of
`cfgMap`, and leaves the identity `k` under the role of `cfgMap`, absent when `cfgMap` lacks
it; no other identity changes. -/
theorem apiBody_directory [CaseFold] (ctx : Context) (isGroupId : String → Bool)
    (draw attempts : Nat)
    (hroom : 1 ≤ attempts) (timeouts : Timeouts) (groupId gid k : String) (a : Member)
    (cfgMap : MemberMap) (w : World (List Member))
    (hk : toLower k = k) (ha : roleIn w.remote k = some (toUpper a.role))
    (hcfg : ∀ cm, mapGet cfgMap k = some cm → cm.email = k) :
    ∃ w1, reconcileMembers.apiBody (directoryEnv isGroupId draw attempts) ctx timeouts groupId gid
        k a cfgMap w = (Outcome.ok, mapDelete k cfgMap, w1) ∧
      ∀ k1, roleIn w1.remote k1 =
        if k1 = k then (mapGet cfgMap k).map (fun cm => toUpper cm.role)
        else roleIn w.remote k1 := by
  unfold reconcileMembers.apiBody
  cases hget : mapGet cfgMap k with
  | none =>
    obtain ⟨h1, h2⟩ := deleteMember_directory ctx isGroupId draw attempts hroom timeouts.delete
      k gid w
    revert h1 h2
    generalize deleteMember (directoryEnv isGroupId draw attempts) ctx timeouts.delete k gid w = res
    obtain ⟨o, w1⟩ := res
    intro h1 h2
    simp only at h1 h2
    subst h1
    refine ⟨w1, by simp [mapDelete_of_absent k cfgMap hget], ?_⟩
    intro k1
    rw [h2, roleIn_dropMember, hk]
    simp
  | some cm =>
    have hemail := hcfg cm hget
    simp only
    split
    · obtain ⟨w1, h1, h2⟩ := patch_directory ctx isGroupId draw attempts hroom timeouts.update
        groupId cm (toUpper cm.role) w
      rw [h1]
      refine ⟨w1, rfl, ?_⟩
      intro k1
      have htgt : toLower (toLower cm.email) = k := by rw [hemail, hk, hk]
      rw [h2, roleIn_setRole, htgt]
      by_cases hk1 : k1 = k
      · subst hk1
        simp [ha, toUpper_toUpper]
      · simp [hk1]
    · rename_i hrole
      refine ⟨w, rfl, ?_⟩
      intro k1
      by_cases hk1 : k1 = k
      · subst hk1
        simp only [if_true, Option.map_some', ha]
        simp only [ne_eq, not_not] at hrole
        rw [hrole]
      · simp [hk1]

/-- The first loop on the directory service ends without error; afterwards every identity of
`apiMap` is under the role of `cfgMap`, absent when `cfgMap` lacks it, and no other identity
has changed. -/
theorem apiLoop_directory [CaseFold] (ctx : Context) (isGroupId : String → Bool)
    (draw attempts : Nat) (hroom : 1 ≤ attempts) (timeouts : Timeouts) (groupId gid : String) :
    ∀ (entries cfgMap : MemberMap) (w : World (List Member)),
      (entries.map Prod.fst).Nodup →
      (∀ k a, (k, a) ∈ entries → toLower k = k ∧ roleIn w.remote k = some (toUpper a.role)) →
      (∀ k cm, mapGet cfgMap k = some cm → cm.email = k) →
      ∃ w1, reconcileMembers.apiLoop (directoryEnv isGroupId draw attempts) ctx timeouts groupId gid
          entries cfgMap w = (Outcome.ok, removeKeys entries cfgMap, w1) ∧
        ∀ k1, roleIn w1.remote k1 =
          if k1 ∈ entries.map Prod.fst then (mapGet cfgMap k1).map (fun cm => toUpper cm.role)
          else roleIn w.remote k1 := by
  intro entries
  induction entries with
  | nil =>
    intro cfgMap w _ _ _
    exact ⟨w, rfl, fun k1 => by simp⟩
  | cons e rest ih =>
    intro cfgMap w hnd hent hcfg
    obtain ⟨k, a⟩ := e
    simp only [List.map_cons, List.nodup_cons] at hnd
    obtain ⟨hk, ha⟩ := hent k a (List.mem_cons_self _ _)
    obtain ⟨w1, hbody, hrole1⟩ := apiBody_directory ctx isGroupId draw attempts hroom timeouts
      groupId gid k a cfgMap w hk ha (fun cm h => hcfg k cm h)
    have hne : ∀ k1 a1, (k1, a1) ∈ rest → k1 ≠ k := fun k1 a1 h1 h2 =>
      hnd.1 (h2 ▸ List.mem_map_of_mem Prod.fst h1)
    obtain ⟨w2, hloop, hrole2⟩ := ih (mapDelete k cfgMap) w1 hnd.2
      (fun k1 a1 h1 => by
        obtain ⟨hk1, ha1⟩ := hent k1 a1 (List.mem_cons_of_mem _ h1)
        refine ⟨hk1, ?_⟩
        rw [hrole1, if_neg (hne k1 a1 h1)]
        exact ha1)
      (fun k1 cm h => by
        rw [mapGet_mapDelete] at h
        split at h
        · exact Option.noConfusion h
        · exact hcfg k1 cm h)
    refine ⟨w2, ?_, ?_⟩
    · rw [reconcileMembers.apiLoop, hbody]
      simp only
      rw [hloop]
      rfl
    · intro k1
      rw [hrole2, hrole1, mapGet_mapDelete]
      by_cases h1 : k1 = k
      · subst h1
        simp [hnd.1]
      · by_cases h2 : k1 ∈ rest.map Prod.fst
        · simp only [List.map_cons, List.mem_cons, h1, h2, or_true, if_true, if_false]
        · simp only [List.map_cons, List.mem_cons, h1, h2, or_self, if_false]

/-- The second loop on the directory service, over identities that are no groups and no
members yet: it ends without error; afterwards every identity of the loop is a member under
its upper-cased role and no other identity has changed. -/
theorem upsertLoop_directory [CaseFold] (ctx : Context) (isGroupId : String → Bool)
    (draw attempts : Nat) (hroom : 1 ≤ attempts) (timeouts : Timeouts) (gid : String) :
    ∀ (entries : MemberMap) (w : World (List Member)),
      (entries.map Prod.fst).Nodup →
      (∀ k v, (k, v) ∈ entries →
        toLower k = k ∧ isGroupId k = false ∧ roleIn w.remote k = none) →
      (reconcileMembers.upsertLoop (directoryEnv isGroupId draw attempts) ctx timeouts gid
          entries w).1 = Outcome.ok ∧
        ∀ k1, roleIn (reconcileMembers.upsertLoop (directoryEnv isGroupId draw attempts) ctx
            timeouts gid entries w).2.remote k1 =
          if k1 ∈ entries.map Prod.fst then (mapGet entries k1).map (fun cm => toUpper cm.role)
          else roleIn w.remote k1 := by
  intro entries
  induction entries with
  | nil =>
    intro w _ _
    exact ⟨rfl, fun k1 => by simp [reconcileMembers.upsertLoop]⟩
  | cons e rest ih =>
    intro w hnd hent
    obtain ⟨k, v⟩ := e
    simp only [List.map_cons, List.nodup_cons] at hnd
    obtain ⟨hk, hgrp, habs⟩ := hent k v (List.mem_cons_self _ _)
    have hhold : holdsMember w.remote k = false := by
      rw [holdsMember_eq_false, hk]; exact habs
    obtain ⟨h1, h2⟩ := upsertMember_directory ctx isGroupId draw attempts hroom timeouts.update
      k gid v.role w hgrp hhold
    have hne : ∀ k1 v1, (k1, v1) ∈ rest → k1 ≠ k := fun k1 v1 h1 h2 =>
      hnd.1 (h2 ▸ List.mem_map_of_mem Prod.fst h1)
    rw [reconcileMembers.upsertLoop]
    revert h1 h2
    generalize upsertMember (directoryEnv isGroupId draw attempts) ctx timeouts.update k gid
      v.role w = res
    obtain ⟨o, w1⟩ := res
    intro h1 h2
    simp only at h1 h2
    subst h1
    simp only
    have hrole1 : ∀ k1, roleIn w1.remote k1 =
        if k1 = k then some (toUpper v.role) else roleIn w.remote k1 := by
      intro k1
      rw [h2, roleIn_append, roleIn_dropMember, hk]
      simp only [toUpper_toUpper, hk]
      by_cases hk1 : k1 = k
      · subst hk1; simp
      · simp [hk1, Ne.symm hk1]
    obtain ⟨hok, hrole2⟩ := ih w1 hnd.2 (fun k1 v1 hm => by
      obtain ⟨a1, a2, a3⟩ := hent k1 v1 (List.mem_cons_of_mem _ hm)
      refine ⟨a1, a2, ?_⟩
      rw [hrole1, if_neg (hne k1 v1 hm)]
      exact a3)
    refine ⟨hok, ?_⟩
    intro k1
    rw [hrole2, hrole1]
    by_cases hk1 : k1 = k
    · subst hk1
      simp [hnd.1, mapGet]
    · by_cases h2 : k1 ∈ rest.map Prod.fst
      · simp [h2, mapGet, Ne.symm hk1]
      · simp [h2, hk1, mapGet, Ne.symm hk1]

/-- C3: for every desired list whose identities are all user-type and every actual list,
against the directory service in which delete removes the member, patch and update set its
role, insert adds it and every call succeeds, with room for at least one attempt per retry:
`reconcileMembers` run on the membership `actual` ends without error, the membership it leaves
holds exactly the identities of desired (lower-cased) under the roles of desired
(upper-cased), and a second `reconcileMembers` against that membership ends without error and
sends nothing. Lower and upper case are those of `strings.ToLower` and `strings.ToUpper`, of
which only idempotence is used (`CaseFold`), and the directory service tells identities apart
by the same lower-casing: the statement holds for the Unicode mappings of Go. -/
theorem reconcileMembers_converges [CaseFold] (ctx : Context) (isGroupId : String → Bool)
    (draw attempts : Nat) (order : MapOrder) (timeouts : Timeouts) (groupId gid : String)
    (desired actual : List Member) (hroom : 1 ≤ attempts)
    (huser : ∀ d ∈ desired, isGroupId (toLower d.email) = false) :
    (reconcileMembers (directoryEnv isGroupId draw attempts) ctx order timeouts groupId desired
        actual gid ⟨actual, []⟩).1 = Outcome.ok ∧
      sameMembership desired
        (reconcileMembers (directoryEnv isGroupId draw attempts) ctx order timeouts groupId desired
          actual gid ⟨actual, []⟩).2.remote ∧
      reconcileMembers (directoryEnv isGroupId draw attempts) ctx order timeouts groupId desired
          (reconcileMembers (directoryEnv isGroupId draw attempts) ctx order timeouts groupId
              desired
            actual gid ⟨actual, []⟩).2.remote gid
          ⟨(reconcileMembers (directoryEnv isGroupId draw attempts) ctx order timeouts groupId
            desired actual gid ⟨actual, []⟩).2.remote, []⟩
        = (Outcome.ok,
            ⟨(reconcileMembers (directoryEnv isGroupId draw attempts) ctx order timeouts groupId
              desired actual gid ⟨actual, []⟩).2.remote, []⟩) := by
  have hperm := order.perm (reconcileMembers.m actual)
  have hnd : ((order.range (reconcileMembers.m actual)).map Prod.fst).Nodup :=
    (hperm.map Prod.fst).nodup_iff.mpr (m_nodup actual)
  have hkeys : ∀ k, k ∈ (order.range (reconcileMembers.m actual)).map Prod.fst ↔
      mapGet (reconcileMembers.m actual) k ≠ none := fun k => by
    rw [Ne, mapGet_eq_none_iff, not_not]
    exact (hperm.map Prod.fst).mem_iff
  obtain ⟨w1, hloop, hrole1⟩ := apiLoop_directory ctx isGroupId draw attempts hroom timeouts groupId
    gid (order.range (reconcileMembers.m actual)) (reconcileMembers.m desired) ⟨actual, []⟩ hnd
    (fun k a hm => by
      have ha : mapGet (reconcileMembers.m actual) k = some a :=
        (mapGet_eq_some_iff _ (m_nodup actual) k a).mpr (hperm.mem_iff.mp hm)
      exact ⟨(m_entry actual k a ha).2, roleIn_of_mapGet actual k a ha⟩)
    (fun k cm h => (m_entry desired k cm h).1)
  have hnd2 := removeKeys_nodup (order.range (reconcileMembers.m actual))
    (reconcileMembers.m desired) (m_nodup desired)
  have hperm2 := order.perm
    (removeKeys (order.range (reconcileMembers.m actual)) (reconcileMembers.m desired))
  have hnd3 := (hperm2.map Prod.fst).nodup_iff.mpr hnd2
  have hget : ∀ k, mapGet (order.range
        (removeKeys (order.range (reconcileMembers.m actual)) (reconcileMembers.m desired))) k =
      if k ∈ (order.range (reconcileMembers.m actual)).map Prod.fst then none
      else mapGet (reconcileMembers.m desired) k := fun k => by
    rw [mapGet_perm _ _ hperm2 hnd3, mapGet_removeKeys]
  obtain ⟨hok, hrole2⟩ := upsertLoop_directory ctx isGroupId draw attempts hroom timeouts gid
    (order.range
      (removeKeys (order.range (reconcileMembers.m actual)) (reconcileMembers.m desired)))
    w1 hnd3 (fun k v hm => by
      have hv := (mapGet_eq_some_iff _ hnd3 k v).mpr hm
      rw [hget] at hv
      split at hv
      · exact Option.noConfusion hv
      · rename_i hk
        obtain ⟨x, hx, hxk⟩ := m_key_mem desired k v hv
        refine ⟨(m_entry desired k v hv).2, hxk ▸ huser x hx, ?_⟩
        rw [hrole1, if_neg hk]
        have : mapGet (reconcileMembers.m actual) k = none := by
          by_contra hcon; exact hk ((hkeys k).mpr hcon)
        exact (roleIn_eq_none actual k).mpr this)
  have hres : reconcileMembers (directoryEnv isGroupId draw attempts) ctx order timeouts groupId
      desired actual gid ⟨actual, []⟩
      = reconcileMembers.upsertLoop (directoryEnv isGroupId draw attempts) ctx timeouts gid
          (order.range (removeKeys (order.range (reconcileMembers.m actual))
            (reconcileMembers.m desired))) w1 := by
    unfold reconcileMembers
    rw [hloop]
  have hsame : sameMembership desired
      (reconcileMembers (directoryEnv isGroupId draw attempts) ctx order timeouts groupId desired
        actual gid ⟨actual, []⟩).2.remote := by
    intro k
    rw [hres, hrole2, hrole1]
    have hmemM := mapGet_eq_none_iff (order.range
      (removeKeys (order.range (reconcileMembers.m actual)) (reconcileMembers.m desired))) k
    rw [hget] at hmemM ⊢
    by_cases hk : k ∈ (order.range (reconcileMembers.m actual)).map Prod.fst
    · simp only [hk, if_true, true_iff] at hmemM
      simp only [hk, if_true, if_neg hmemM]
      rfl
    · simp only [hk, if_false] at hmemM ⊢
      have hA : roleIn actual k = none := by
        have : mapGet (reconcileMembers.m actual) k = none := by
          by_contra hcon; exact hk ((hkeys k).mpr hcon)
        exact (roleIn_eq_none actual k).mpr this
      cases hD : mapGet (reconcileMembers.m desired) k with
      | none =>
        have hnot := hmemM.mp hD
        rw [if_neg hnot, (roleIn_eq_none desired k).mpr hD]
        exact hA.symm
      | some v =>
        have hin : k ∈ (order.range (removeKeys (order.range (reconcileMembers.m actual))
            (reconcileMembers.m desired))).map Prod.fst := by
          by_contra hcon
          have := hmemM.mpr hcon
          rw [hD] at this
          exact Option.noConfusion this
        rw [if_pos hin]
        exact roleIn_of_mapGet desired k v hD
  exact ⟨by rw [hres]; exact hok, hsame,
    reconcileMembers_noop _ _ order timeouts groupId gid desired _ _ hsame⟩

/-- C3, witness: desired `a@x.com: MEMBER, b@x.com: OWNER` against actual
`b@x.com: MEMBER, c@x.com: MEMBER`: the pass patches `b` to OWNER, deletes `c`, probes and
inserts `a`, and leaves exactly the desired membership; a second pass sends nothing. -/
theorem reconcileMembers_converges_witness :
    ((1 ≤ 1 ∧ ∀ d ∈ ([⟨"a@x.com", "MEMBER"⟩, ⟨"b@x.com", "OWNER"⟩] : List Member),
        (fun _ : String => false) (toLower d.email) = false) ∧
      apiCalls (reconcileMembers (directoryEnv (fun _ => false) 0 1) Context.background
          MapOrder.asListed
        ⟨1200, 1200⟩ "g@x.com" [⟨"a@x.com", "MEMBER"⟩, ⟨"b@x.com", "OWNER"⟩]
        [⟨"b@x.com", "MEMBER"⟩, ⟨"c@x.com", "MEMBER"⟩] "g@x.com"
        ⟨[⟨"b@x.com", "MEMBER"⟩, ⟨"c@x.com", "MEMBER"⟩], []⟩).2.trace
        = [Call.patch "g@x.com" "b@x.com" ⟨"", "OWNER"⟩, Call.delete "g@x.com" "c@x.com",
            Call.get "g@x.com" "a@x.com", Call.hasMember "g@x.com" "a@x.com",
            Call.insert "g@x.com" ⟨"a@x.com", "MEMBER"⟩] ∧
      (reconcileMembers (directoryEnv (fun _ => false) 0 1) Context.background MapOrder.asListed
        ⟨1200, 1200⟩ "g@x.com" [⟨"a@x.com", "MEMBER"⟩, ⟨"b@x.com", "OWNER"⟩]
        [⟨"b@x.com", "MEMBER"⟩, ⟨"c@x.com", "MEMBER"⟩] "g@x.com"
        ⟨[⟨"b@x.com", "MEMBER"⟩, ⟨"c@x.com", "MEMBER"⟩], []⟩).2.remote
        = [⟨"b@x.com", "OWNER"⟩, ⟨"a@x.com", "MEMBER"⟩]) ∧
      sameMembership [⟨"a@x.com", "MEMBER"⟩, ⟨"b@x.com", "OWNER"⟩]
        (reconcileMembers (directoryEnv (fun _ => false) 0 1) Context.background MapOrder.asListed
          ⟨1200, 1200⟩ "g@x.com" [⟨"a@x.com", "MEMBER"⟩, ⟨"b@x.com", "OWNER"⟩]
          [⟨"b@x.com", "MEMBER"⟩, ⟨"c@x.com", "MEMBER"⟩] "g@x.com"
          ⟨[⟨"b@x.com", "MEMBER"⟩, ⟨"c@x.com", "MEMBER"⟩], []⟩).2.remote :=
  ⟨⟨⟨le_refl 1, fun _ _ => rfl⟩, by decide, by decide⟩,
    (reconcileMembers_converges Context.background (fun _ => false) 0 1 MapOrder.asListed
        ⟨1200, 1200⟩ "g@x.com"
      "g@x.com" [⟨"a@x.com", "MEMBER"⟩, ⟨"b@x.com", "OWNER"⟩]
      [⟨"b@x.com", "MEMBER"⟩, ⟨"c@x.com", "MEMBER"⟩] (le_refl 1) (fun _ _ => rfl)).2.1⟩

/-! ## A pass is its plan, applied until the first failure -/

theorem runActions_append [CaseFold] {σ : Type} (env : Env σ) (ctx : Context) (timeouts : Timeouts)
    (groupId gid : String) (pre post : List Action) :
    ∀ (w w0 : World σ), runActions env ctx timeouts groupId gid pre w = (Outcome.ok, w0) →
      runActions env ctx timeouts groupId gid (pre ++ post) w
        = runActions env ctx timeouts groupId gid post w0 := by
  induction pre with
  | nil =>
    intro w w0 h
    simp only [runActions, Prod.mk.injEq, true_and] at h
    subst h
    rfl
  | cons a rest ih =>
    intro w w0 h
    simp only [List.cons_append, runActions] at h ⊢
    revert h
    generalize a.run env ctx timeouts groupId gid w = res
    obtain ⟨o, w1⟩ := res
    cases o with
    | ok => intro h; exact ih w1 w0 h
    | fail msg => intro h; simp at h
    | crash => intro h; simp at h

theorem runActions_append_stop [CaseFold] {σ : Type} (env : Env σ) (ctx : Context)
    (timeouts : Timeouts) (groupId gid : String) (pre post : List Action) :
    ∀ (w : World σ), (runActions env ctx timeouts groupId gid pre w).1 ≠ Outcome.ok →
      runActions env ctx timeouts groupId gid (pre ++ post) w
        = runActions env ctx timeouts groupId gid pre w := by
  induction pre with
  | nil => intro w h; simp [runActions] at h
  | cons a rest ih =>
    intro w h
    simp only [List.cons_append, runActions] at h ⊢
    revert h
    generalize a.run env ctx timeouts groupId gid w = res
    obtain ⟨o, w1⟩ := res
    cases o with
    | ok => intro h; exact ih w1 h
    | fail msg => intro _; rfl
    | crash => intro _; rfl

/-- The body of the first loop is the action of its entry, for any `cfgMap` that holds the key
of the entry as the first `cfgMap` did. -/
theorem apiBody_eq_action [CaseFold] {σ : Type} (env : Env σ) (ctx : Context) (timeouts : Timeouts)
    (groupId gid : String) (k : String) (a : Member) (cfgMap cfg0 : MemberMap) (w : World σ)
    (hget : mapGet cfgMap k = mapGet cfg0 k) :
    (reconcileMembers.apiBody env ctx timeouts groupId gid k a cfgMap w).1
        = ((reconcileMembers.apiAction cfg0 (k, a)).run env ctx timeouts groupId gid w).1 ∧
      (reconcileMembers.apiBody env ctx timeouts groupId gid k a cfgMap w).2.2
        = ((reconcileMembers.apiAction cfg0 (k, a)).run env ctx timeouts groupId gid w).2 ∧
      ((reconcileMembers.apiBody env ctx timeouts groupId gid k a cfgMap w).1 = Outcome.ok →
        (reconcileMembers.apiBody env ctx timeouts groupId gid k a cfgMap w).2.1
          = mapDelete k cfgMap) := by
  refine ⟨?_, ?_, (apiBody_spec env ctx timeouts groupId gid k a cfgMap w).2⟩
  · unfold reconcileMembers.apiBody reconcileMembers.apiAction
    rw [hget]
    cases mapGet cfg0 k with
    | none =>
      simp only [Action.run]
      generalize deleteMember env ctx timeouts.delete k gid w = res
      obtain ⟨o, w1⟩ := res
      cases o <;> rfl
    | some cm =>
      simp only
      split
      · simp only [Action.run]
        generalize retryNotFound env ctx
          (reconcileMembers.patchCall env groupId cm (toUpper cm.role)) timeouts.update () w = res
        obtain ⟨o, u, w1⟩ := res
        cases o <;> rfl
      · rfl
  · unfold reconcileMembers.apiBody reconcileMembers.apiAction
    rw [hget]
    cases mapGet cfg0 k with
    | none =>
      simp only [Action.run]
      generalize deleteMember env ctx timeouts.delete k gid w = res
      obtain ⟨o, w1⟩ := res
      cases o <;> rfl
    | some cm =>
      simp only
      split
      · simp only [Action.run]
        generalize retryNotFound env ctx
          (reconcileMembers.patchCall env groupId cm (toUpper cm.role)) timeouts.update () w = res
        obtain ⟨o, u, w1⟩ := res
        cases o <;> rfl
      · rfl

theorem apiLoop_eq_runActions [CaseFold] {σ : Type} (env : Env σ) (ctx : Context)
    (timeouts : Timeouts) (groupId gid : String) (cfg0 : MemberMap) :
    ∀ (entries cfgMap : MemberMap) (w : World σ), (entries.map Prod.fst).Nodup →
      (∀ k ∈ entries.map Prod.fst, mapGet cfgMap k = mapGet cfg0 k) →
      (reconcileMembers.apiLoop env ctx timeouts groupId gid entries cfgMap w).1
          = (runActions env ctx timeouts groupId gid
              (entries.map (reconcileMembers.apiAction cfg0)) w).1 ∧
        (reconcileMembers.apiLoop env ctx timeouts groupId gid entries cfgMap w).2.2
          = (runActions env ctx timeouts groupId gid
              (entries.map (reconcileMembers.apiAction cfg0)) w).2 ∧
        ((reconcileMembers.apiLoop env ctx timeouts groupId gid entries cfgMap w).1 = Outcome.ok →
          (reconcileMembers.apiLoop env ctx timeouts groupId gid entries cfgMap w).2.1
            = removeKeys entries cfgMap) := by
  intro entries
  induction entries with
  | nil => intro cfgMap w _ _; exact ⟨rfl, rfl, fun _ => rfl⟩
  | cons e rest ih =>
    intro cfgMap w hnd hget
    obtain ⟨k, a⟩ := e
    simp only [List.map_cons, List.nodup_cons] at hnd
    obtain ⟨h1, h2, h3⟩ := apiBody_eq_action env ctx timeouts groupId gid k a cfgMap cfg0 w
      (hget k (by simp))
    simp only [List.map_cons, reconcileMembers.apiLoop, runActions]
    revert h1 h2 h3
    generalize reconcileMembers.apiBody env ctx timeouts groupId gid k a cfgMap w = res
    generalize (reconcileMembers.apiAction cfg0 (k, a)).run env ctx timeouts groupId gid w = res2
    obtain ⟨o, cfgMap1, w1⟩ := res
    obtain ⟨o2, w2⟩ := res2
    intro h1 h2 h3
    simp only at h1 h2 h3
    subst h1 h2
    cases o with
    | ok =>
      have hcfg := h3 rfl
      subst hcfg
      have := ih (mapDelete k cfgMap) w1 hnd.2 (fun k1 hk1 => by
        have hne : k1 ≠ k := fun h => hnd.1 (h ▸ hk1)
        rw [mapGet_mapDelete, if_neg hne]
        exact hget k1 (by simp [hk1]))
      exact this
    | fail msg => exact ⟨rfl, rfl, fun h => by simp at h⟩
    | crash => exact ⟨rfl, rfl, fun h => by simp at h⟩

theorem upsertLoop_eq_runActions [CaseFold] {σ : Type} (env : Env σ) (ctx : Context)
    (timeouts : Timeouts) (groupId gid : String) :
    ∀ (entries : MemberMap) (w : World σ),
      reconcileMembers.upsertLoop env ctx timeouts gid entries w
        = runActions env ctx timeouts groupId gid
            (entries.map (fun e => Action.upsert e.1 e.2.role)) w := by
  intro entries
  induction entries with
  | nil => intro w; rfl
  | cons e rest ih =>
    intro w
    obtain ⟨k, v⟩ := e
    simp only [List.map_cons, reconcileMembers.upsertLoop, runActions, Action.run]
    generalize upsertMember env ctx timeouts.update k gid v.role w = res
    obtain ⟨o, w1⟩ := res
    cases o with
    | ok => exact ih w1
    | fail msg => rfl
    | crash => rfl

/-- The function `reconcileMembers` applies its plan, action by action, until the first one
that does not succeed. -/
theorem reconcileMembers_eq_runActions [CaseFold] {σ : Type} (env : Env σ) (ctx : Context)
    (order : MapOrder)
    (timeouts : Timeouts) (groupId gid : String) (desired actual : List Member) (w : World σ) :
    reconcileMembers env ctx order timeouts groupId desired actual gid w
      = runActions env ctx timeouts groupId gid (reconcileMembers.plan order desired actual) w := by
  have hperm := order.perm (reconcileMembers.m actual)
  have hnd : ((order.range (reconcileMembers.m actual)).map Prod.fst).Nodup :=
    (hperm.map Prod.fst).nodup_iff.mpr (m_nodup actual)
  obtain ⟨h1, h2, h3⟩ := apiLoop_eq_runActions env ctx timeouts groupId gid
    (reconcileMembers.m desired) (order.range (reconcileMembers.m actual))
    (reconcileMembers.m desired) w hnd (fun _ _ => rfl)
  unfold reconcileMembers reconcileMembers.plan
  revert h1 h2 h3
  generalize reconcileMembers.apiLoop env ctx timeouts groupId gid
    (order.range (reconcileMembers.m actual)) (reconcileMembers.m desired) w = res
  obtain ⟨o, cfgMap1, w1⟩ := res
  intro h1 h2 h3
  simp only at h1 h2 h3
  cases o with
  | ok =>
    have hcfg := h3 rfl
    subst hcfg
    simp only
    rw [runActions_append env ctx timeouts groupId gid _ _ w w1 (by
      rw [Prod.ext_iff]; exact ⟨h1.symm, h2.symm⟩)]
    exact upsertLoop_eq_runActions env ctx timeouts groupId gid _ w1
  | fail msg =>
    simp only
    rw [runActions_append_stop env ctx timeouts groupId gid _ _ w (by rw [← h1]; simp)]
    rw [Prod.ext_iff]; exact ⟨h1, h2⟩
  | crash =>
    simp only
    rw [runActions_append_stop env ctx timeouts groupId gid _ _ w (by rw [← h1]; simp)]
    rw [Prod.ext_iff]; exact ⟨h1, h2⟩

/-- C11: for every desired and actual member list, when the actions before some action of the
plan have succeeded and that action (a delete, a role patch or an upsert) fails, then
`reconcileMembers` returns that failure in the very world the failing action left: no action
that remains in the plan is started and no further remote call is sent. -/
theorem reconcileMembers_stops_at_first_failure [CaseFold] {σ : Type} (env : Env σ) (ctx : Context)
    (order : MapOrder) (timeouts : Timeouts) (groupId gid : String) (desired actual : List Member)
    (w w0 w1 : World σ) (pre post : List Action) (a : Action) (msg : String)
    (hplan : reconcileMembers.plan order desired actual = pre ++ a :: post)
    (hpre : runActions env ctx timeouts groupId gid pre w = (Outcome.ok, w0))
    (hfail : a.run env ctx timeouts groupId gid w0 = (Outcome.fail msg, w1)) :
    reconcileMembers env ctx order timeouts groupId desired actual gid w =
        (Outcome.fail msg, w1) := by
  rw [reconcileMembers_eq_runActions, hplan,
    runActions_append env ctx timeouts groupId gid pre (a :: post) w w0 hpre]
  simp only [runActions, hfail]

/-- C11, witness: desired `a@x.com: MEMBER, b@x.com: OWNER` against actual
`b@x.com: MEMBER, c@x.com: MEMBER` on a directory service that refuses every call: the patch
of `b@x.com` fails, the pass returns its error, and neither the delete of `c@x.com` nor the
upsert of `a@x.com` is started. -/
theorem reconcileMembers_stops_at_first_failure_witness :
    (reconcileMembers.plan MapOrder.asListed [⟨"a@x.com", "MEMBER"⟩, ⟨"b@x.com", "OWNER"⟩]
          [⟨"b@x.com", "MEMBER"⟩, ⟨"c@x.com", "MEMBER"⟩]
        = [] ++ Action.patch ⟨"b@x.com", "OWNER"⟩
            :: [Action.delete "c@x.com", Action.upsert "a@x.com" "MEMBER"] ∧
      runActions forbiddenEnv Context.background ⟨1200, 1200⟩ "g@x.com" "g@x.com" [] ⟨(), []⟩
        = (Outcome.ok, ⟨(), []⟩) ∧
      (Action.patch ⟨"b@x.com", "OWNER"⟩).run forbiddenEnv Context.background ⟨1200, 1200⟩ "g@x.com"
          "g@x.com"
          ⟨(), []⟩
        = (Outcome.fail
            "googleapi: Error 403: Not Authorized to access this resource/api, forbidden",
          ⟨(), [Event.retry Context.background 1200 ⟨true, false, false⟩,
            Event.api (Call.patch "g@x.com" "b@x.com" ⟨"", "OWNER"⟩)]⟩)) ∧
      reconcileMembers forbiddenEnv Context.background MapOrder.asListed ⟨1200, 1200⟩ "g@x.com"
          [⟨"a@x.com", "MEMBER"⟩, ⟨"b@x.com", "OWNER"⟩]
          [⟨"b@x.com", "MEMBER"⟩, ⟨"c@x.com", "MEMBER"⟩] "g@x.com" ⟨(), []⟩
        = (Outcome.fail
            "googleapi: Error 403: Not Authorized to access this resource/api, forbidden",
          ⟨(), [Event.retry Context.background 1200 ⟨true, false, false⟩,
            Event.api (Call.patch "g@x.com" "b@x.com" ⟨"", "OWNER"⟩)]⟩) :=
  ⟨⟨by decide, rfl, rfl⟩,
    reconcileMembers_stops_at_first_failure forbiddenEnv Context.background MapOrder.asListed
        ⟨1200, 1200⟩
      "g@x.com" "g@x.com" [⟨"a@x.com", "MEMBER"⟩, ⟨"b@x.com", "OWNER"⟩]
      [⟨"b@x.com", "MEMBER"⟩, ⟨"c@x.com", "MEMBER"⟩] ⟨(), []⟩ ⟨(), []⟩
      ⟨(), [Event.retry Context.background 1200 ⟨true, false, false⟩,
        Event.api (Call.patch "g@x.com" "b@x.com" ⟨"", "OWNER"⟩)]⟩
      [] [Action.delete "c@x.com", Action.upsert "a@x.com" "MEMBER"]
      (Action.patch ⟨"b@x.com", "OWNER"⟩)
      "googleapi: Error 403: Not Authorized to access this resource/api, forbidden"
      (by decide) rfl rfl⟩

/-! ## The group-type probe -/

/-- The closure of the probe: status 404 clears the flag and counts as success, any other
answer leaves the flag and is handed back. -/
theorem getProbe_eq {σ : Type} (env : Env σ) (email groupEmail : String) (flag : Bool)
    (w : World σ) :
    upsertMember.getProbe env email groupEmail flag w =
      (if (env.respond w.remote (.get groupEmail email)).1.is404 then Outcome.ok
        else Outcome.ofErr (env.respond w.remote (.get groupEmail email)).1.err,
       if (env.respond w.remote (.get groupEmail email)).1.is404 then false else flag,
       (w.call env (.get groupEmail email)).2) := by
  unfold upsertMember.getProbe Response.is404
  simp only [World.call]
  cases h : (env.respond w.remote (.get groupEmail email)).1.err with
  | none => simp [Outcome.ofErr]
  | some err =>
    simp only
    by_cases h404 : err.hasCode 404 = true <;> simp [h404, Outcome.ofErr]

theorem lastIs404_cons (a : Response) (l : List Response) (h : a.is404 = false) :
    lastIs404 (a :: l) = lastIs404 l := by
  cases l with
  | nil => simp [lastIs404, h]
  | cons b rest => simp [lastIs404, List.getLast?_cons_cons]

/-- The loop of a probe that starts with the flag set: the flag is cleared exactly when the
last call of the loop was answered with status 404. -/
theorem probe_loop_flag {σ : Type} (env : Env σ) (flags : RetryFlags)
    (email groupEmail : String) :
    ∀ (n : Nat) (wait : Int) (last : GoError) (w : World σ),
      ∃ cs,
        apiCalls (retryTime.loop env flags (upsertMember.getProbe env email groupEmail) n wait
            last true w).2.2.trace = apiCalls w.trace ++ cs ∧
        ((retryTime.loop env flags (upsertMember.getProbe env email groupEmail) n wait
            last true w).2.1 = false ↔ lastIs404 (answersOf env w.remote cs) = true) := by
  intro n
  induction n with
  | zero =>
    intro wait last w
    exact ⟨[], by simp [retryTime.loop], by simp [retryTime.loop, answersOf, lastIs404]⟩
  | succ n ih =>
    intro wait last w
    rw [retryTime.loop, getProbe_eq]
    have hcall : apiCalls (w.call env (.get groupEmail email)).2.trace
        = apiCalls w.trace ++ [Call.get groupEmail email] := apiCalls_call env _ w
    have hremote : (w.call env (.get groupEmail email)).2.remote
        = (env.respond w.remote (.get groupEmail email)).2 := rfl
    cases h404 : (env.respond w.remote (.get groupEmail email)).1.is404 with
    | true =>
      simp only [if_true]
      exact ⟨[Call.get groupEmail email], hcall, by simp [answersOf, lastIs404, h404]⟩
    | false =>
      simp only [Bool.false_eq_true, if_false]
      have hone : lastIs404 (answersOf env w.remote [Call.get groupEmail email]) = false := by
        simp [answersOf, lastIs404, h404]
      cases herr : (env.respond w.remote (.get groupEmail email)).1.err with
      | none =>
        simp only [Outcome.ofErr]
        exact ⟨[Call.get groupEmail email], hcall, by simp [hone]⟩
      | some err =>
        simp only [Outcome.ofErr]
        split
        · obtain ⟨cs, hc, hiff⟩ := ih _ _ ((w.call env (.get groupEmail email)).2.log (.sleep _))
          refine ⟨Call.get groupEmail email :: cs, ?_, ?_⟩
          · rw [hc, apiCalls_log_sleep, hcall]; simp
          · rw [hiff]
            simp only [answersOf]
            rw [lastIs404_cons _ _ h404]
            rfl
        · obtain ⟨cs, hc, hiff⟩ := ih _ _ (w.call env (.get groupEmail email)).2
          refine ⟨Call.get groupEmail email :: cs, ?_, ?_⟩
          · rw [hc, hcall]; simp
          · rw [hiff]
            simp only [answersOf]
            rw [lastIs404_cons _ _ h404]
            rfl
        · exact ⟨[Call.get groupEmail email], by rw [apiCalls_log_sleep, hcall], by simp [hone]⟩
        · exact ⟨[Call.get groupEmail email], hcall, by simp [hone]⟩

/-- The function `upsertMember` is its probe followed by the branch that the captured
`isGroup` selects. -/
theorem upsertMember_eq_branch [CaseFold] {σ : Type} (env : Env σ) (ctx : Context)
    (timeoutDuration : Int) (email groupEmail role : String) (w : World σ) :
    upsertMember env ctx timeoutDuration email groupEmail role w =
      if (retry env ctx (upsertMember.getProbe env email groupEmail) timeoutDuration true w).2.1
      then upsertMember.groupBranch env ctx timeoutDuration email groupEmail role
        ⟨toLower email, toUpper role⟩
        (retry env ctx (upsertMember.getProbe env email groupEmail) timeoutDuration true w).2.2
      else upsertMember.userBranch env ctx timeoutDuration email groupEmail
        ⟨toLower email, toUpper role⟩
        (retry env ctx (upsertMember.getProbe env email groupEmail) timeoutDuration true
            w).2.2 := by
  have hc := retry_getProbe_no_crash env ctx email groupEmail timeoutDuration true w
  unfold upsertMember
  revert hc
  generalize retry env ctx (upsertMember.getProbe env email groupEmail) timeoutDuration true w = res
  obtain ⟨o, b, w1⟩ := res
  intro hc
  cases o with
  | crash => exact absurd rfl hc
  | ok => cases b <;> rfl
  | fail e => cases b <;> rfl

/-- C14: for every outcome of the group-type probe of `upsertMember`, the identity is treated
as a user (the `HasMember` branch runs) if and only if the last `get` of the probe was
answered with status 404; after every other outcome (a success, a non-404 error that is not
retried, the timeout passing during the retries or before any attempt) it is treated as a
group (the role check and the `get`-based membership branch run). -/
theorem upsertMember_user_iff_probe_404 [CaseFold] {σ : Type} (env : Env σ) (ctx : Context)
    (timeoutDuration : Int) (email groupEmail role : String) (s : σ) :
    upsertMember env ctx timeoutDuration email groupEmail role ⟨s, []⟩ =
      if lastIs404 (answersOf env s (apiCalls
          (retry env ctx (upsertMember.getProbe env email groupEmail) timeoutDuration true
            ⟨s, []⟩).2.2.trace))
      then upsertMember.userBranch env ctx timeoutDuration email groupEmail
        ⟨toLower email, toUpper role⟩
        (retry env ctx (upsertMember.getProbe env email groupEmail) timeoutDuration true
            ⟨s, []⟩).2.2
      else upsertMember.groupBranch env ctx timeoutDuration email groupEmail role
        ⟨toLower email, toUpper role⟩
        (retry env ctx (upsertMember.getProbe env email groupEmail) timeoutDuration true
          ⟨s, []⟩).2.2 := by
  rw [upsertMember_eq_branch]
  obtain ⟨cs, hc, hiff⟩ := probe_loop_flag env ⟨false, false, false⟩ email groupEmail
    (env.attempts s ctx timeoutDuration) 1 (env.timedOut ctx timeoutDuration)
    ((⟨s, []⟩ : World σ).log (.retry ctx timeoutDuration ⟨false, false, false⟩))
  have hcs : apiCalls (retry env ctx (upsertMember.getProbe env email groupEmail) timeoutDuration
      true ⟨s, []⟩).2.2.trace = cs := by
    unfold retry retryTime
    rw [hc, apiCalls_log_retry]
    rfl
  have hflag : (retry env ctx (upsertMember.getProbe env email groupEmail) timeoutDuration true
      ⟨s, []⟩).2.1 = false ↔ lastIs404 (answersOf env s cs) = true := hiff
  rw [hcs]
  cases hl : lastIs404 (answersOf env s cs) with
  | true => rw [hflag.mpr hl]; simp
  | false =>
    have : (retry env ctx (upsertMember.getProbe env email groupEmail) timeoutDuration true
        ⟨s, []⟩).2.1 = true := by
      cases hx : (retry env ctx (upsertMember.getProbe env email groupEmail) timeoutDuration true
        ⟨s, []⟩).2.1 with
      | true => rfl
      | false => rw [hflag.mp hx] at hl; exact absurd hl (by decide)
    rw [this]; simp

/-! ## Messages, the role check and the group branch -/

/-- C12, the code at two failing inputs, on a directory service that refuses every call with
status 403. A role patch that fails (desired `b@x.com: OWNER`, actual `b@x.com: MEMBER`) is
returned as the bare text of the error, which names neither the member nor the operation; a
delete that fails (nothing desired, actual `c@x.com: MEMBER`) is returned as
"Error deleting member" followed by that text, which does not name the member. -/
theorem reconcileMembers_failure_message_lacks_identity :
    ((reconcileMembers forbiddenEnv Context.background MapOrder.asListed ⟨1200, 1200⟩ "g@x.com"
          [⟨"b@x.com", "OWNER"⟩] [⟨"b@x.com", "MEMBER"⟩] "g@x.com" ⟨(), []⟩).1
        = Outcome.fail
            "googleapi: Error 403: Not Authorized to access this resource/api, forbidden" ∧
      strContains "googleapi: Error 403: Not Authorized to access this resource/api, forbidden"
        "b@x.com" = false) ∧
    ((reconcileMembers forbiddenEnv Context.background MapOrder.asListed ⟨1200, 1200⟩ "g@x.com"
          [] [⟨"c@x.com", "MEMBER"⟩] "g@x.com" ⟨(), []⟩).1
        = Outcome.fail ("[ERROR] Error deleting member: " ++
            "googleapi: Error 403: Not Authorized to access this resource/api, forbidden") ∧
      strContains ("[ERROR] Error deleting member: " ++
          "googleapi: Error 403: Not Authorized to access this resource/api, forbidden")
        "c@x.com" = false) := by
  decide

/-- C16: for every identity that the group-type probe classifies as a group and every declared
role that differs from "MEMBER" only by letter case, `upsertMember` returns the nested-groups
error in the world the probe left, although the role of the payload it has built, the
upper-cased one, is "MEMBER". -/
theorem upsertMember_role_check_is_case_sensitive [CaseFold] {σ : Type} (env : Env σ)
    (ctx : Context) (timeoutDuration : Int) (email groupEmail role : String) (w : World σ)
    (hgroup :
      (retry env ctx (upsertMember.getProbe env email groupEmail) timeoutDuration true w).2.1 =
          true)
    (hcase : toUpper role = "MEMBER") (hrole : role ≠ "MEMBER") :
    upsertMember env ctx timeoutDuration email groupEmail role w =
        (Outcome.fail ("[ERROR] Error creating groupMember (" ++ email ++
            "): nested groups should be role MEMBER"),
          (retry env ctx (upsertMember.getProbe env email groupEmail) timeoutDuration true w).2.2) ∧
      ({ role := toUpper role, email := toLower email } : Member).role = "MEMBER" :=
  ⟨upsertMember_group_role_error env ctx timeoutDuration email groupEmail role w hgroup hrole,
      hcase⟩

/-- C16, witness: the role "member" for an identity whose probe succeeds. -/
theorem upsertMember_role_check_is_case_sensitive_witness :
    ((retry alwaysOkEnv Context.background (upsertMember.getProbe alwaysOkEnv "team@x.com"
        "g@x.com") 1200 true
        ⟨(), []⟩).2.1 = true ∧ toUpper "member" = "MEMBER" ∧ "member" ≠ "MEMBER") ∧
      (upsertMember alwaysOkEnv Context.background 1200 "team@x.com" "g@x.com" "member" ⟨(), []⟩ =
        (Outcome.fail ("[ERROR] Error creating groupMember (" ++ "team@x.com" ++
            "): nested groups should be role MEMBER"),
          (retry alwaysOkEnv Context.background (upsertMember.getProbe alwaysOkEnv "team@x.com"
              "g@x.com") 1200 true
            ⟨(), []⟩).2.2) ∧
        ({ role := toUpper "member", email := toLower "team@x.com" } : Member).role = "MEMBER") :=
  ⟨⟨by decide, by decide, by decide⟩,
    upsertMember_role_check_is_case_sensitive alwaysOkEnv Context.background 1200 "team@x.com"
        "g@x.com" "member"
      ⟨(), []⟩ (by decide) (by decide) (by decide)⟩

theorem retry_getProbe_only_gets {σ : Type} (env : Env σ) (ctx : Context)
    (email groupEmail : String) (timeoutDuration : Int) (flag : Bool) (w : World σ) :
    Ran (fun c => c = .get groupEmail email) (fun c => c = .get groupEmail email) False w
      (retry env ctx (upsertMember.getProbe env email groupEmail) timeoutDuration flag w).2.2 :=
  (retryTime_ran env ctx ⟨false, false, false⟩ (upsertMember.getProbe env email groupEmail)
    (fun c => c = .get groupEmail email) (fun c => c = .get groupEmail email)
    (fun r w => by rw [getProbe_world]; exact Ran.of_call env _ w) timeoutDuration flag w).weaken _

/-- A probe of `upsertMember` clears its flag exactly when the last answer it received carries
the status 404. -/
theorem probe_flag_iff {σ : Type} (env : Env σ) (ctx : Context) (timeoutDuration : Int)
    (email groupEmail : String) (w : World σ) :
    (retry env ctx (upsertMember.getProbe env email groupEmail) timeoutDuration true w).2.1 = false
      ↔ lastIs404 (upsertMember.probeAnswers env ctx timeoutDuration email groupEmail w)
          = true := by
  obtain ⟨cs, hc, hiff⟩ := probe_loop_flag env ⟨false, false, false⟩ email groupEmail
    (env.attempts w.remote ctx timeoutDuration) 1 (env.timedOut ctx timeoutDuration)
    (w.log (.retry ctx timeoutDuration ⟨false, false, false⟩))
  have hcs : (apiCalls (retry env ctx (upsertMember.getProbe env email groupEmail)
      timeoutDuration true w).2.2.trace).drop (apiCalls w.trace).length = cs := by
    unfold retry retryTime
    rw [hc, apiCalls_log_retry]
    simp
  unfold upsertMember.probeAnswers
  rw [hcs]
  exact hiff

/-- The group branch entered in a world from which the second probe leaves its flag set: the
role check, then the second probe, then the update. -/
theorem groupBranch_eq_update {σ : Type} (env : Env σ) (ctx : Context) (timeoutDuration : Int)
    (email groupEmail role : String) (groupMember : Member) (w1 : World σ)
    (hflag :
      (retry env ctx (upsertMember.getProbe env email groupEmail) timeoutDuration true w1).2.1
        = true) :
    upsertMember.groupBranch env ctx timeoutDuration email groupEmail role groupMember w1 =
      if role ≠ "MEMBER" then
        (Outcome.fail ("[ERROR] Error creating groupMember (" ++ email ++
          "): nested groups should be role MEMBER"), w1)
      else
        upsertMember.update env ctx timeoutDuration email groupEmail groupMember
          (retry env ctx (upsertMember.getProbe env email groupEmail) timeoutDuration true
            w1).2.2 := by
  unfold upsertMember.groupBranch
  split
  · rfl
  · have hc := retry_getProbe_no_crash env ctx email groupEmail timeoutDuration true w1
    revert hflag hc
    generalize retry env ctx (upsertMember.getProbe env email groupEmail) timeoutDuration true w1
      = res
    obtain ⟨o, b, w2⟩ := res
    intro hflag hc
    simp only at hflag hc
    subst hflag
    cases o with
    | crash => exact absurd rfl hc
    | ok => rfl
    | fail e => rfl

/-- C15, counterexample: on a directory service that answers every `get` alike (it succeeds),
so that the second probe would be answered as the first, "team@x.com" is taken for a group,
and with the role "OWNER" the group branch ends in the nested-groups error: after the one call
of the first probe no update is sent. -/
theorem upsertMember_group_branch_can_end_in_role_error :
    lastIs404 (upsertMember.probeAnswers alwaysOkEnv Context.background 1200 "team@x.com"
        "g@x.com"
        (retry alwaysOkEnv Context.background
          (upsertMember.getProbe alwaysOkEnv "team@x.com" "g@x.com") 1200 true ⟨(), []⟩).2.2)
      = lastIs404 (upsertMember.probeAnswers alwaysOkEnv Context.background 1200 "team@x.com"
          "g@x.com" ⟨(), []⟩) ∧
      (retry alwaysOkEnv Context.background
        (upsertMember.getProbe alwaysOkEnv "team@x.com" "g@x.com") 1200 true ⟨(), []⟩).2.1
        = true ∧
      (upsertMember alwaysOkEnv Context.background 1200 "team@x.com" "g@x.com" "OWNER"
        ⟨(), []⟩).1
        = Outcome.fail
          "[ERROR] Error creating groupMember (team@x.com): nested groups should be role MEMBER" ∧
      apiCalls (upsertMember alwaysOkEnv Context.background 1200 "team@x.com" "g@x.com" "OWNER"
        ⟨(), []⟩).2.trace
        = [Call.get "g@x.com" "team@x.com"] :=
  ⟨by decide, by decide, by decide, by decide⟩

/-- C15, amended: the two probes of the group path of `upsertMember` are the same call, the
`get` of the identity in the parent group. For every directory service and every state of it
in which the second probe (started where the first one ended) is answered as the first one
was, as to status 404 in the last answer, which is all that a probe keeps: when the identity
is taken for a group, `upsertMember` ends in the nested-groups error if the declared role is
not "MEMBER" and in the update otherwise, never in an insert; and whenever a run of
`upsertMember` sends an insert, the identity was taken for a user. -/
theorem upsertMember_group_branch_never_inserts [CaseFold] {σ : Type} (env : Env σ)
    (ctx : Context) (timeoutDuration : Int) (email groupEmail role : String) (s : σ)
    (hsame :
      lastIs404 (upsertMember.probeAnswers env ctx timeoutDuration email groupEmail
          (retry env ctx (upsertMember.getProbe env email groupEmail) timeoutDuration true
            ⟨s, []⟩).2.2)
        = lastIs404 (upsertMember.probeAnswers env ctx timeoutDuration email groupEmail
            ⟨s, []⟩)) :
    ((retry env ctx (upsertMember.getProbe env email groupEmail) timeoutDuration true ⟨s, []⟩).2.1
        = true →
      upsertMember env ctx timeoutDuration email groupEmail role ⟨s, []⟩ =
        if role ≠ "MEMBER" then
          (Outcome.fail ("[ERROR] Error creating groupMember (" ++ email ++
            "): nested groups should be role MEMBER"),
            (retry env ctx (upsertMember.getProbe env email groupEmail) timeoutDuration true
              ⟨s, []⟩).2.2)
        else
          upsertMember.update env ctx timeoutDuration email groupEmail
            ⟨toLower email, toUpper role⟩
            (retry env ctx (upsertMember.getProbe env email groupEmail) timeoutDuration true
              (retry env ctx (upsertMember.getProbe env email groupEmail) timeoutDuration true
                ⟨s, []⟩).2.2).2.2) ∧
      ∀ g member,
        Call.insert g member
            ∈ apiCalls (upsertMember env ctx timeoutDuration email groupEmail role
              ⟨s, []⟩).2.trace →
          (retry env ctx (upsertMember.getProbe env email groupEmail) timeoutDuration true
            ⟨s, []⟩).2.1 = false := by
  have hgroupEq : (retry env ctx (upsertMember.getProbe env email groupEmail) timeoutDuration true
      ⟨s, []⟩).2.1 = true →
      upsertMember env ctx timeoutDuration email groupEmail role ⟨s, []⟩ =
        if role ≠ "MEMBER" then
          (Outcome.fail ("[ERROR] Error creating groupMember (" ++ email ++
            "): nested groups should be role MEMBER"),
            (retry env ctx (upsertMember.getProbe env email groupEmail) timeoutDuration true
              ⟨s, []⟩).2.2)
        else
          upsertMember.update env ctx timeoutDuration email groupEmail
            ⟨toLower email, toUpper role⟩
            (retry env ctx (upsertMember.getProbe env email groupEmail) timeoutDuration true
              (retry env ctx (upsertMember.getProbe env email groupEmail) timeoutDuration true
                ⟨s, []⟩).2.2).2.2 := by
    intro hgroup
    have hfirst : lastIs404 (upsertMember.probeAnswers env ctx timeoutDuration email groupEmail
        ⟨s, []⟩) ≠ true := fun h =>
      absurd ((probe_flag_iff env ctx timeoutDuration email groupEmail ⟨s, []⟩).mpr h)
        (by rw [hgroup]; decide)
    have hsecond : (retry env ctx (upsertMember.getProbe env email groupEmail) timeoutDuration
        true (retry env ctx (upsertMember.getProbe env email groupEmail) timeoutDuration true
          ⟨s, []⟩).2.2).2.1 = true := by
      cases hx : (retry env ctx (upsertMember.getProbe env email groupEmail) timeoutDuration
        true (retry env ctx (upsertMember.getProbe env email groupEmail) timeoutDuration true
          ⟨s, []⟩).2.2).2.1 with
      | true => rfl
      | false =>
        exact absurd (hsame ▸ (probe_flag_iff env ctx timeoutDuration email groupEmail _).mp hx)
          hfirst
    rw [upsertMember_eq_branch, hgroup, if_pos rfl]
    exact groupBranch_eq_update env ctx timeoutDuration email groupEmail role _ _ hsecond
  refine ⟨hgroupEq, ?_⟩
  intro g member hins
  cases hflag : (retry env ctx (upsertMember.getProbe env email groupEmail) timeoutDuration true
      ⟨s, []⟩).2.1 with
  | false => rfl
  | true =>
    exfalso
    have heq := hgroupEq hflag
    have hp1 := (retry_getProbe_only_gets env ctx email groupEmail timeoutDuration true
      (⟨s, []⟩ : World σ)).mono
      (R := fun c => c = Call.get groupEmail email ∨
        c = Call.update groupEmail email ⟨toLower email, toUpper role⟩)
      (S := fun _ => True) (fun _ h => Or.inl h) (fun _ _ => trivial) (fun h => h)
    have hp2 := (retry_getProbe_only_gets env ctx email groupEmail timeoutDuration true
      (retry env ctx (upsertMember.getProbe env email groupEmail) timeoutDuration true
        (⟨s, []⟩ : World σ)).2.2).mono
      (R := fun c => c = Call.get groupEmail email ∨
        c = Call.update groupEmail email ⟨toLower email, toUpper role⟩)
      (S := fun _ => True) (fun _ h => Or.inl h) (fun _ _ => trivial) (fun h => h)
    have hp3 := ((update_ran env ctx timeoutDuration email groupEmail
      ⟨toLower email, toUpper role⟩
      (retry env ctx (upsertMember.getProbe env email groupEmail) timeoutDuration true
        (retry env ctx (upsertMember.getProbe env email groupEmail) timeoutDuration true
          (⟨s, []⟩ : World σ)).2.2).2.2).weaken (fun _ => True)).mono
      (R := fun c => c = Call.get groupEmail email ∨
        c = Call.update groupEmail email ⟨toLower email, toUpper role⟩)
      (S := fun _ => True) (fun _ h => Or.inr h) (fun _ _ => trivial) (fun h => h)
    have hall : ∀ c ∈ apiCalls
        (upsertMember env ctx timeoutDuration email groupEmail role ⟨s, []⟩).2.trace,
        c = Call.get groupEmail email ∨
          c = Call.update groupEmail email ⟨toLower email, toUpper role⟩ := by
      rw [heq]
      split
      · obtain ⟨cs, hc, hP, -⟩ := hp1
        simp only [apiCalls, List.nil_append] at hc
        intro c hcm
        rw [hc] at hcm
        exact hP c hcm
      · obtain ⟨cs, hc, hP, -⟩ := (hp1.then hp2).then hp3
        simp only [apiCalls, List.nil_append] at hc
        intro c hcm
        rw [hc] at hcm
        exact hP c hcm
    rcases hall _ hins with h | h <;> exact Call.noConfusion h

/-- C15, witness: the directory service holds "team@x.com" as a manager of the group, so both
probes succeed; with the role "MEMBER" the identity is taken for a group and updated, which
makes it a member, with no insert. -/
theorem upsertMember_group_branch_never_inserts_witness :
    lastIs404 (upsertMember.probeAnswers (directoryEnv (fun _ => false) 0 1) Context.background
        1200 "team@x.com" "g@x.com"
        (retry (directoryEnv (fun _ => false) 0 1) Context.background
          (upsertMember.getProbe (directoryEnv (fun _ => false) 0 1) "team@x.com" "g@x.com")
          1200 true ⟨[⟨"team@x.com", "MANAGER"⟩], []⟩).2.2)
      = lastIs404 (upsertMember.probeAnswers (directoryEnv (fun _ => false) 0 1)
          Context.background 1200 "team@x.com" "g@x.com" ⟨[⟨"team@x.com", "MANAGER"⟩], []⟩) ∧
      apiCalls (upsertMember (directoryEnv (fun _ => false) 0 1) Context.background 1200
        "team@x.com" "g@x.com" "MEMBER" ⟨[⟨"team@x.com", "MANAGER"⟩], []⟩).2.trace
        = [Call.get "g@x.com" "team@x.com", Call.get "g@x.com" "team@x.com",
            Call.update "g@x.com" "team@x.com" ⟨"team@x.com", "MEMBER"⟩] ∧
      (upsertMember (directoryEnv (fun _ => false) 0 1) Context.background 1200
        "team@x.com" "g@x.com" "MEMBER" ⟨[⟨"team@x.com", "MANAGER"⟩], []⟩).2.remote
        = [⟨"team@x.com", "MEMBER"⟩] ∧
      ∀ g member,
        Call.insert g member
            ∈ apiCalls (upsertMember (directoryEnv (fun _ => false) 0 1) Context.background
              1200 "team@x.com" "g@x.com" "MEMBER" ⟨[⟨"team@x.com", "MANAGER"⟩], []⟩).2.trace →
          (retry (directoryEnv (fun _ => false) 0 1) Context.background
            (upsertMember.getProbe (directoryEnv (fun _ => false) 0 1) "team@x.com" "g@x.com")
            1200 true ⟨[⟨"team@x.com", "MANAGER"⟩], []⟩).2.1 = false :=
  ⟨by decide, by decide, by decide,
    (upsertMember_group_branch_never_inserts (directoryEnv (fun _ => false) 0 1)
      Context.background 1200 "team@x.com" "g@x.com" "MEMBER" [⟨"team@x.com", "MANAGER"⟩]
      (by decide)).2⟩

/-! ## The timeout of every retry loop -/

theorem callsOfLoop_append (a b : List Event) (hb : startsLoop b = true) :
    callsOfLoop (a ++ b) = callsOfLoop a := by
  induction a with
  | nil =>
    cases b with
    | nil => rfl
    | cons e rest =>
      cases e with
      | api c => simp [startsLoop] at hb
      | sleep s => simp [startsLoop] at hb
      | retry c t f => simp [callsOfLoop]
  | cons e rest ih => cases e <;> simp [callsOfLoop, ih]

theorem loopsOf_append (a b : List Event) (hb : startsLoop b = true) :
    loopsOf (a ++ b) = loopsOf a ++ loopsOf b := by
  induction a with
  | nil => simp [loopsOf]
  | cons e rest ih => cases e <;> simp [loopsOf, ih, callsOfLoop_append _ _ hb]

theorem startsLoop_append (a b : List Event) (ha : startsLoop a = true)
    (hb : startsLoop b = true) : startsLoop (a ++ b) = true := by
  cases a with
  | nil => simpa using hb
  | cons e rest => cases e <;> simp [startsLoop] at ha ⊢

theorem Looped.start {σ : Type} (L : RetryLoop → Prop) (w : World σ) : Looped L w w :=
  ⟨[], by simp, rfl, by simp [loopsOf]⟩

theorem Looped.next {σ : Type} {L : RetryLoop → Prop} {w w1 w2 : World σ}
    (h : Looped L w w1) (h1 : Looped L w1 w2) : Looped L w w2 := by
  obtain ⟨evs, ha, hs, hb⟩ := h
  obtain ⟨evs1, ha1, hs1, hb1⟩ := h1
  refine ⟨evs ++ evs1, by rw [ha1, ha, List.append_assoc], startsLoop_append _ _ hs hs1, ?_⟩
  intro l hl
  rw [loopsOf_append _ _ hs1] at hl
  rcases List.mem_append.mp hl with h | h
  · exact hb l h
  · exact hb1 l h

theorem Looped.widen {σ : Type} {L M : RetryLoop → Prop} {w w1 : World σ}
    (h : Looped L w w1) (hL : ∀ l, L l → M l) : Looped M w w1 := by
  obtain ⟨evs, ha, hs, hb⟩ := h
  exact ⟨evs, ha, hs, fun l hl => hL l (hb l hl)⟩

/-- The loop of `resource.RetryContext` around a closure that sends the call `c` appends that
call and sleeps only. -/
theorem retryTime_loop_events {σ ρ : Type} (env : Env σ) (flags : RetryFlags)
    (f : ρ → World σ → Outcome GoError × ρ × World σ) (c : Call)
    (hf : ∀ r w, (f r w).2.2 = (w.call env c).2) :
    ∀ (n : Nat) (wait : Int) (last : GoError) (r : ρ) (w : World σ),
      ∃ evs, (retryTime.loop env flags f n wait last r w).2.2.trace = w.trace ++ evs ∧
        loopsOf evs = [] ∧ ∀ x ∈ callsOfLoop evs, x = c := by
  intro n
  induction n with
  | zero =>
    intro wait last r w
    exact ⟨[], by simp [retryTime.loop], rfl, by simp [callsOfLoop]⟩
  | succ n ih =>
    intro wait last r w
    rw [retryTime.loop]
    have hfr := hf r w
    have hone : ∀ w1 : World σ, w1 = (w.call env c).2 →
        ∃ evs, w1.trace = w.trace ++ evs ∧ loopsOf evs = [] ∧ ∀ x ∈ callsOfLoop evs, x = c := by
      intro w1 h1
      exact ⟨[.api c], by rw [h1]; rfl, rfl, by simp [callsOfLoop]⟩
    have hslept : ∀ (w1 : World σ) (s : Sleep), w1 = (w.call env c).2 →
        ∃ evs, (w1.log (.sleep s)).trace = w.trace ++ evs ∧ loopsOf evs = [] ∧
          ∀ x ∈ callsOfLoop evs, x = c := by
      intro w1 s h1
      exact ⟨[.api c, .sleep s], by rw [h1]; simp [World.log, World.call], rfl,
        by simp [callsOfLoop]⟩
    have hmore : ∀ (w2 : World σ) (pre : List Event), w2.trace = w.trace ++ pre →
        loopsOf pre = [] → (∀ x ∈ callsOfLoop pre, x = c) → ∀ wait1 e r1,
        ∃ evs, (retryTime.loop env flags f n wait1 e r1 w2).2.2.trace = w.trace ++ evs ∧
          loopsOf evs = [] ∧ ∀ x ∈ callsOfLoop evs, x = c := by
      intro w2 pre hpre hl hc wait1 e r1
      obtain ⟨evs, h1, h2, h3⟩ := ih wait1 e r1 w2
      have hpl : ∀ (a b : List Event), loopsOf a = [] → loopsOf b = [] →
          loopsOf (a ++ b) = [] ∧ ∀ x ∈ callsOfLoop (a ++ b),
            x ∈ callsOfLoop a ∨ x ∈ callsOfLoop b := by
        intro a b
        induction a with
        | nil => intro _ hb; exact ⟨by simpa using hb, fun x hx => Or.inr (by simpa using hx)⟩
        | cons e1 rest iha =>
          intro ha hb
          cases e1 with
          | api c1 =>
            simp only [loopsOf] at ha
            obtain ⟨q1, q2⟩ := iha ha hb
            refine ⟨by simpa [loopsOf] using q1, ?_⟩
            intro x hx
            simp only [List.cons_append, callsOfLoop, List.mem_cons] at hx ⊢
            rcases hx with hx | hx
            · exact Or.inl (Or.inl hx)
            · rcases q2 x hx with h | h
              · exact Or.inl (Or.inr h)
              · exact Or.inr h
          | sleep s1 =>
            simp only [loopsOf] at ha
            obtain ⟨q1, q2⟩ := iha ha hb
            exact ⟨by simpa [loopsOf] using q1, by simpa [callsOfLoop] using q2⟩
          | retry c1 t1 f1 => simp [loopsOf] at ha
      obtain ⟨q1, q2⟩ := hpl pre evs hl h2
      refine ⟨pre ++ evs, by rw [h1, hpre, List.append_assoc], q1, ?_⟩
      intro x hx
      rcases q2 x hx with h | h
      · exact hc x h
      · exact h3 x h
    split
    · rename_i r1 w1 h; rw [h] at hfr; exact hone w1 hfr
    · rename_i r1 w1 h; rw [h] at hfr; exact hone w1 hfr
    · rename_i err r1 w1 h
      rw [h] at hfr
      simp only at hfr
      split
      · rename_i e s wait1 _
        exact hmore (w1.log (.sleep s)) [.api c, .sleep s]
          (by rw [hfr]; simp [World.log, World.call]) rfl (by simp [callsOfLoop]) _ _ _
      · exact hmore w1 [.api c] (by rw [hfr]; rfl) rfl (by simp [callsOfLoop]) _ _ _
      · exact hslept w1 _ hfr
      · exact hone w1 hfr

/-- A call of `retryTime` is one retry loop, which is handed the context and the `duration` of
the call, whatever the world it starts in, and sends the call of its closure only. -/
theorem retryTime_looped {σ ρ : Type} (env : Env σ) (ctx : Context) (flags : RetryFlags)
    (f : ρ → World σ → Outcome GoError × ρ × World σ) (c : Call)
    (hf : ∀ r w, (f r w).2.2 = (w.call env c).2) (duration : Int) (r : ρ) (w : World σ) :
    Looped (fun l => l.ctx = ctx ∧ l.timeout = duration ∧ ∀ x ∈ l.calls, x = c) w
      (retryTime env ctx f duration flags r w).2.2 := by
  obtain ⟨evs, h1, h2, h3⟩ := retryTime_loop_events env flags f c hf
    (env.attempts w.remote ctx duration) 1 (env.timedOut ctx duration) r
    (w.log (.retry ctx duration flags))
  refine ⟨.retry ctx duration flags :: evs, ?_, rfl, ?_⟩
  · unfold retryTime
    rw [h1]
    simp [World.log]
  · intro l hl
    simp only [loopsOf, h2, List.mem_singleton] at hl
    subst hl
    exact ⟨rfl, rfl, h3⟩


/-- A call of `retryTime` around a closure that sends a call other than a delete. -/
theorem retryTime_looped_upsert {σ ρ : Type} (env : Env σ) (ctx : Context) (flags : RetryFlags)
    (f : ρ → World σ → Outcome GoError × ρ × World σ) (c : Call) (hc : c.isDelete = false)
    (hf : ∀ r w, (f r w).2.2 = (w.call env c).2) (duration : Int) (r : ρ) (w : World σ) :
    Looped (fun l => l.ctx = ctx ∧ l.timeout = duration ∧ ∀ x ∈ l.calls, x.isDelete = false) w
      (retryTime env ctx f duration flags r w).2.2 :=
  (retryTime_looped env ctx flags f c hf duration r w).widen
    (fun _ h => ⟨h.1, h.2.1, fun x hx => by rw [h.2.2 x hx]; exact hc⟩)

theorem deleteMember_looped {σ : Type} (env : Env σ) (ctx : Context) (timeoutDuration : Int)
    (email groupEmail : String) (w : World σ) :
    Looped (fun l => l.ctx = ctx ∧ l.timeout = timeoutDuration ∧
        ∀ x ∈ l.calls, x = Call.delete groupEmail email) w
      (deleteMember env ctx timeoutDuration email groupEmail w).2 := by
  have h := retryTime_looped env ctx ⟨false, false, false⟩ (deleteMember.call env email groupEmail)
    (.delete groupEmail email) (fun _ _ => rfl) timeoutDuration () w
  unfold deleteMember retry
  split <;> (rename_i h1; rw [h1] at h; exact h)

theorem createGroupMember_looped {σ : Type} (env : Env σ) (ctx : Context)
    (timeoutDuration : Int) (groupMember : Member) (groupEmail : String) (w : World σ) :
    Looped (fun l => l.ctx = ctx ∧ l.timeout = timeoutDuration ∧
        ∀ x ∈ l.calls, x.isDelete = false) w
      (createGroupMember env ctx timeoutDuration groupMember groupEmail w).2 := by
  have h := retryTime_looped_upsert env ctx ⟨false, false, false⟩
    (createGroupMember.call env groupMember groupEmail) (.insert groupEmail groupMember) rfl
    (fun _ _ => rfl) timeoutDuration () w
  unfold createGroupMember retry
  split <;> (rename_i h1; rw [h1] at h; exact h)

theorem groupInsert_looped {σ : Type} (env : Env σ) (ctx : Context) (timeoutDuration : Int)
    (email groupEmail : String) (groupMember : Member) (w : World σ) :
    Looped (fun l => l.ctx = ctx ∧ l.timeout = timeoutDuration ∧
        ∀ x ∈ l.calls, x.isDelete = false) w
      (upsertMember.groupInsert env ctx timeoutDuration email groupEmail groupMember w).2 := by
  have h := retryTime_looped_upsert env ctx ⟨false, false, false⟩
    (createGroupMember.call env groupMember groupEmail) (.insert groupEmail groupMember) rfl
    (fun _ _ => rfl) timeoutDuration () w
  unfold upsertMember.groupInsert retry
  split <;> (rename_i h1; rw [h1] at h; exact h)

theorem update_looped {σ : Type} (env : Env σ) (ctx : Context) (timeoutDuration : Int)
    (email groupEmail : String) (groupMember : Member) (w : World σ) :
    Looped (fun l => l.ctx = ctx ∧ l.timeout = timeoutDuration ∧
        ∀ x ∈ l.calls, x.isDelete = false) w
      (upsertMember.update env ctx timeoutDuration email groupEmail groupMember w).2 := by
  have h := retryTime_looped_upsert env ctx ⟨true, false, false⟩
    (upsertMember.updateCall env email groupEmail groupMember)
    (.update groupEmail email groupMember) rfl (fun _ _ => rfl) timeoutDuration () w
  unfold upsertMember.update retryNotFound
  split <;> (rename_i h1; rw [h1] at h; exact h)

theorem retry_getProbe_looped {σ : Type} (env : Env σ) (ctx : Context)
    (email groupEmail : String) (timeoutDuration : Int) (flag : Bool) (w : World σ) :
    Looped (fun l => l.ctx = ctx ∧ l.timeout = timeoutDuration ∧
        ∀ x ∈ l.calls, x.isDelete = false) w
      (retry env ctx (upsertMember.getProbe env email groupEmail) timeoutDuration flag w).2.2 :=
  retryTime_looped_upsert env ctx ⟨false, false, false⟩
    (upsertMember.getProbe env email groupEmail) (.get groupEmail email) rfl
    (fun r w => getProbe_world env email groupEmail r w) timeoutDuration flag w

theorem retry_hasMemberProbe_looped {σ : Type} (env : Env σ) (ctx : Context)
    (email groupEmail : String) (timeoutDuration : Int) (flag : Bool) (w : World σ) :
    Looped (fun l => l.ctx = ctx ∧ l.timeout = timeoutDuration ∧
        ∀ x ∈ l.calls, x.isDelete = false) w
      (retry env ctx (upsertMember.hasMemberProbe env email groupEmail) timeoutDuration flag
        w).2.2 :=
  retryTime_looped_upsert env ctx ⟨false, false, false⟩
    (upsertMember.hasMemberProbe env email groupEmail) (.hasMember groupEmail email) rfl
    (fun r w => hasMemberProbe_world env email groupEmail r w) timeoutDuration flag w

theorem groupBranch_looped {σ : Type} (env : Env σ) (ctx : Context) (timeoutDuration : Int)
    (email groupEmail role : String) (groupMember : Member) (w : World σ) :
    Looped (fun l => l.ctx = ctx ∧ l.timeout = timeoutDuration ∧
        ∀ x ∈ l.calls, x.isDelete = false) w
      (upsertMember.groupBranch env ctx timeoutDuration email groupEmail role groupMember
        w).2 := by
  unfold upsertMember.groupBranch
  split
  · exact Looped.start _ w
  · have hp := retry_getProbe_looped env ctx email groupEmail timeoutDuration true w
    split
    · rename_i h1; rw [h1] at hp; exact hp
    · rename_i h1; rw [h1] at hp
      exact hp.next (groupInsert_looped env ctx timeoutDuration email groupEmail groupMember _)
    · rename_i h1; rw [h1] at hp
      exact hp.next (update_looped env ctx timeoutDuration email groupEmail groupMember _)

theorem userBranch_looped {σ : Type} (env : Env σ) (ctx : Context) (timeoutDuration : Int)
    (email groupEmail : String) (groupMember : Member) (w : World σ) :
    Looped (fun l => l.ctx = ctx ∧ l.timeout = timeoutDuration ∧
        ∀ x ∈ l.calls, x.isDelete = false) w
      (upsertMember.userBranch env ctx timeoutDuration email groupEmail groupMember w).2 := by
  unfold upsertMember.userBranch
  have hp := retry_hasMemberProbe_looped env ctx email groupEmail timeoutDuration false w
  split
  · rename_i h1; rw [h1] at hp; exact hp
  · rename_i h1; rw [h1] at hp
    exact hp.next (createGroupMember_looped env ctx timeoutDuration groupMember groupEmail _)
  · rename_i h1; rw [h1] at hp
    exact hp.next (update_looped env ctx timeoutDuration email groupEmail groupMember _)
  · rename_i h1; rw [h1] at hp
    exact hp.next (createGroupMember_looped env ctx timeoutDuration groupMember groupEmail _)

/-- Every retry loop of `upsertMember` is handed the context and the `timeoutDuration` of
`upsertMember`, and sends no delete. -/
theorem upsertMember_looped [CaseFold] {σ : Type} (env : Env σ) (ctx : Context)
    (timeoutDuration : Int) (email groupEmail role : String) (w : World σ) :
    Looped (fun l => l.ctx = ctx ∧ l.timeout = timeoutDuration ∧
        ∀ x ∈ l.calls, x.isDelete = false) w
      (upsertMember env ctx timeoutDuration email groupEmail role w).2 := by
  unfold upsertMember
  have hp := retry_getProbe_looped env ctx email groupEmail timeoutDuration true w
  split
  · rename_i h1; rw [h1] at hp; exact hp
  · rename_i h1; rw [h1] at hp
    exact hp.next (groupBranch_looped env ctx timeoutDuration email groupEmail role _ _)
  · rename_i h1; rw [h1] at hp
    exact hp.next (userBranch_looped env ctx timeoutDuration email groupEmail _ _)

theorem action_looped [CaseFold] {σ : Type} (env : Env σ) (ctx : Context) (timeouts : Timeouts)
    (groupId gid : String) (a : Action) (w : World σ) :
    Looped (reconcileMembers.hands ctx timeouts gid) w
      (a.run env ctx timeouts groupId gid w).2 := by
  cases a with
  | delete k =>
    exact (deleteMember_looped env ctx timeouts.delete k gid w).widen
      (fun _ h => ⟨h.1, Or.inl ⟨h.2.1, fun c hc => ⟨k, h.2.2 c hc⟩⟩⟩)
  | patch cfgMember =>
    have h := (retryTime_looped_upsert env ctx ⟨true, false, false⟩
      (reconcileMembers.patchCall env groupId cfgMember (toUpper cfgMember.role))
      (.patch (toLower groupId) (toLower cfgMember.email) ⟨"", toUpper cfgMember.role⟩) rfl
      (fun _ _ => rfl) timeouts.update () w).widen
      (M := reconcileMembers.hands ctx timeouts gid) (fun _ h => ⟨h.1, Or.inr h.2⟩)
    simp only [Action.run, retryNotFound]
    split <;> (rename_i h1; rw [h1] at h; exact h)
  | keep k => exact Looped.start _ w
  | upsert email role =>
    exact (upsertMember_looped env ctx timeouts.update email gid role w).widen
      (fun _ h => ⟨h.1, Or.inr h.2⟩)

theorem runActions_looped [CaseFold] {σ : Type} (env : Env σ) (ctx : Context)
    (timeouts : Timeouts) (groupId gid : String) :
    ∀ (plan : List Action) (w : World σ),
      Looped (reconcileMembers.hands ctx timeouts gid) w
        (runActions env ctx timeouts groupId gid plan w).2 := by
  intro plan
  induction plan with
  | nil => intro w; exact Looped.start _ w
  | cons a rest ih =>
    intro w
    have ha := action_looped env ctx timeouts groupId gid a w
    simp only [runActions]
    split
    · rename_i h1; rw [h1] at ha; exact ha.next (ih _)
    · rename_i h1; rw [h1] at ha; exact ha
    · rename_i h1; rw [h1] at ha; exact ha

/-- C13, counterexample: `upsertMember` under a context whose deadline is 1200 seconds away,
with the timeout of 1200 seconds, on a directory service that answers every other call with
status 503. Each of the three retry loops (the probe, the `HasMember` probe, the insert) fails
once, sleeps 1 second and then succeeds. Each loop is handed the one context and, as its own
timeout, the whole 1200 seconds: the second after 1 second has been slept and the third after
2 seconds have been slept. The timeout that a loop is handed is a fresh one, not what is left
of the deadline. -/
theorem upsertMember_hands_fresh_timeouts :
    (upsertMember flakyEnv (Context.within 1200) 1200000000000 "a@x.com" "g@x.com" "MEMBER"
        ⟨0, []⟩).1 = Outcome.ok ∧
      (upsertMember flakyEnv (Context.within 1200) 1200000000000 "a@x.com" "g@x.com" "MEMBER"
        ⟨0, []⟩).2.trace
        = [Event.retry (Context.within 1200) 1200000000000 ⟨false, false, false⟩,
            Event.api (Call.get "g@x.com" "a@x.com"), Event.sleep ⟨1000000000, 0⟩,
            Event.api (Call.get "g@x.com" "a@x.com"),
            Event.retry (Context.within 1200) 1200000000000 ⟨false, false, false⟩,
            Event.api (Call.hasMember "g@x.com" "a@x.com"), Event.sleep ⟨1000000000, 0⟩,
            Event.api (Call.hasMember "g@x.com" "a@x.com"),
            Event.retry (Context.within 1200) 1200000000000 ⟨false, false, false⟩,
            Event.api (Call.insert "g@x.com" ⟨"a@x.com", "MEMBER"⟩),
            Event.sleep ⟨1000000000, 0⟩,
            Event.api (Call.insert "g@x.com" ⟨"a@x.com", "MEMBER"⟩)] ∧
      (loopsOf (upsertMember flakyEnv (Context.within 1200) 1200000000000 "a@x.com" "g@x.com"
        "MEMBER" ⟨0, []⟩).2.trace).map RetryLoop.timeout
        = [1200000000000, 1200000000000, 1200000000000] ∧
      timePaused (sleepsOf
        (upsertMember flakyEnv (Context.within 1200) 1200000000000 "a@x.com" "g@x.com" "MEMBER"
          ⟨0, []⟩).2.trace)
        = 3000000000 := by
  decide

/-- C13, amended: for every pass of `reconcileMembers`, whatever the directory service answers
and however long the earlier retry loops have run, every retry loop of the pass is handed the
context of the pass itself, so that a deadline of that context is the same for all of them,
and, as its own timeout, a configured timeout of the resource in full: a loop that sends
deletes is handed `d.Timeout(schema.TimeoutDelete)`, and a loop that sends any other call (a
patch, or a probe, an insert or an update of `upsertMember`) is handed
`d.Timeout(schema.TimeoutUpdate)`. -/
theorem reconcileMembers_hands_configured_timeouts [CaseFold] {σ : Type} (env : Env σ)
    (ctx : Context) (order : MapOrder) (timeouts : Timeouts) (groupId gid : String)
    (desired actual : List Member) (s : σ) (l : RetryLoop)
    (hl : l ∈ loopsOf
      (reconcileMembers env ctx order timeouts groupId desired actual gid ⟨s, []⟩).2.trace) :
    l.ctx = ctx ∧
      ((l.timeout = timeouts.delete ∧ ∀ c ∈ l.calls, ∃ k, c = Call.delete gid k) ∨
        (l.timeout = timeouts.update ∧ ∀ c ∈ l.calls, c.isDelete = false)) := by
  obtain ⟨evs, hevs, -, hall⟩ := runActions_looped env ctx timeouts groupId gid
    (reconcileMembers.plan order desired actual) (⟨s, []⟩ : World σ)
  rw [reconcileMembers_eq_runActions, hevs] at hl
  simp only [List.nil_append] at hl
  exact hall l hl

/-- C13, witness: the end-to-end scenario under a context whose deadline is 1200 seconds away,
with a delete timeout of 600 seconds and an update timeout of 900 seconds: the loop of the
delete of "c@x.com" is handed the context and 600 seconds, and the loops of the patch of
"b@x.com" and of the upsert of "a@x.com" the context and 900 seconds. -/
theorem reconcileMembers_hands_configured_timeouts_witness :
    loopsOf
        (reconcileMembers (directoryEnv (fun _ => false) 0 1) (Context.within 1200)
          MapOrder.asListed ⟨600000000000, 900000000000⟩ "g@x.com"
          [⟨"a@x.com", "MEMBER"⟩, ⟨"b@x.com", "OWNER"⟩]
          [⟨"b@x.com", "MEMBER"⟩, ⟨"c@x.com", "MEMBER"⟩] "g@x.com"
          ⟨[⟨"b@x.com", "MEMBER"⟩, ⟨"c@x.com", "MEMBER"⟩], []⟩).2.trace
      = [⟨Context.within 1200, 900000000000,
            [Call.patch "g@x.com" "b@x.com" ⟨"", "OWNER"⟩]⟩,
          ⟨Context.within 1200, 600000000000, [Call.delete "g@x.com" "c@x.com"]⟩,
          ⟨Context.within 1200, 900000000000, [Call.get "g@x.com" "a@x.com"]⟩,
          ⟨Context.within 1200, 900000000000, [Call.hasMember "g@x.com" "a@x.com"]⟩,
          ⟨Context.within 1200, 900000000000,
            [Call.insert "g@x.com" ⟨"a@x.com", "MEMBER"⟩]⟩] ∧
      ((⟨Context.within 1200, 600000000000, [Call.delete "g@x.com" "c@x.com"]⟩ : RetryLoop).ctx
          = Context.within 1200 ∧
        (((⟨Context.within 1200, 600000000000,
              [Call.delete "g@x.com" "c@x.com"]⟩ : RetryLoop).timeout
            = (⟨600000000000, 900000000000⟩ : Timeouts).delete ∧
          ∀ c ∈ (⟨Context.within 1200, 600000000000,
              [Call.delete "g@x.com" "c@x.com"]⟩ : RetryLoop).calls,
            ∃ k, c = Call.delete "g@x.com" k) ∨
        ((⟨Context.within 1200, 600000000000,
              [Call.delete "g@x.com" "c@x.com"]⟩ : RetryLoop).timeout
            = (⟨600000000000, 900000000000⟩ : Timeouts).update ∧
          ∀ c ∈ (⟨Context.within 1200, 600000000000,
              [Call.delete "g@x.com" "c@x.com"]⟩ : RetryLoop).calls,
            c.isDelete = false))) :=
  ⟨by decide,
    reconcileMembers_hands_configured_timeouts (directoryEnv (fun _ => false) 0 1)
      (Context.within 1200) MapOrder.asListed ⟨600000000000, 900000000000⟩ "g@x.com" "g@x.com"
      [⟨"a@x.com", "MEMBER"⟩, ⟨"b@x.com", "OWNER"⟩]
      [⟨"b@x.com", "MEMBER"⟩, ⟨"c@x.com", "MEMBER"⟩]
      [⟨"b@x.com", "MEMBER"⟩, ⟨"c@x.com", "MEMBER"⟩]
      ⟨Context.within 1200, 600000000000, [Call.delete "g@x.com" "c@x.com"]⟩ (by decide)⟩

end Googleworkspace
